import Mathlib

/-!
# Autocomplete trie (`src/trie.cpp`)

A shallow embedding of the indexed trie with cached best completions.

* `char` values are modelled by their byte code (`Nat`); `'$'` is 36, `'a'..'z'` are 97..122,
  `'A'..'Z'` are 65..90.  `isalpha` / `tolower` are those of the "C" locale.
* `Node*` is an address (`Nat`), `nullptr` is `none`.  The C++ heap is the pair
  `mem : Nat → Node` (contents) and `brk` (the next address `new Node()` hands out).
* `const std::string*` into the append-only `dict_` is an index into `dict_`.
* `int64_t` priorities are modelled on `Int` and `size_t` counters on `Nat`
  (an overflow would need 2^63 accesses).
* The two upward `while (cur)` loops carry a step budget; the public operations
  run them with budget `brk`, and `update_loop_fuel_irrelevant` /
  `propagate_loop_fuel_irrelevant` show that on every reachable state the budget is never
  what stops them.
-/

namespace Trie

/-- Ranking policy of the trie. -/
inductive Variant
  | MOST_RECENT
  | MOST_FREQUENT
  deriving DecidableEq, Repr

/-- The value `std::numeric_limits<int64_t>::min()`. -/
def INT64_MIN : Int := -9223372036854775808

/-- One trie node (`struct Node`). -/
structure Node where
  parent : Option Nat
  next : Nat → Option Nat
  priority : Int
  str : Option Nat
  best_terminal : Option Nat
  best_priority : Int

/-- The constructor `Node()`: every field at its default, all 27 slots null. -/
def Node.new : Node :=
  { parent := none, next := fun _ => none, priority := 0, str := none,
    best_terminal := none, best_priority := INT64_MIN }

/-- The method `is_terminal()`: `str != nullptr`. -/
def Node.is_terminal (n : Node) : Bool := n.str.isSome

end Trie

/-- The trie object together with the heap its nodes live in. -/
structure Trie where
  variant : Trie.Variant
  mem : Nat → Trie.Node
  brk : Nat
  root_ : Nat
  access_counter_ : Int
  node_count_ : Nat
  total_chars_ : Nat
  dict_ : List (List Nat)
  dict_bytes_ : Nat

namespace Trie

/-- The constructor `Trie(Variant v)`: allocates the root at address 0. -/
def new (v : Variant) : Trie :=
  { variant := v
    mem := Function.update (fun _ => Node.new) 0
      { Node.new with best_priority := INT64_MIN, best_terminal := none }
    brk := 1
    root_ := 0
    access_counter_ := 0
    node_count_ := 1
    total_chars_ := 0
    dict_ := []
    dict_bytes_ := 0 }

/-- The test `std::isalpha((unsigned char)c)` in the "C" locale. -/
def isalpha (c : Nat) : Bool := (65 ≤ c && c ≤ 90) || (97 ≤ c && c ≤ 122)

/-- The function `std::tolower((unsigned char)c)` in the "C" locale. -/
def tolower (c : Nat) : Nat := if 65 ≤ c ∧ c ≤ 90 then c + 32 else c

/-- The static helper `idx_of`: slot of a symbol, `-1` when it has none. -/
def idx_of (c : Nat) : Int :=
  if c = 36 then 26
  else if 97 ≤ c ∧ c ≤ 122 then (c : Int) - 97
  else -1

/-- The helper `ensure_child(u, idx)`: returns the child in slot `idx`, creating it when the
slot is null. -/
def ensure_child (t : Trie) (u : Nat) (idx : Nat) : Trie × Nat :=
  match (t.mem u).next idx with
  | some c => (t, c)
  | none =>
    let c := t.brk
    let mem1 := Function.update t.mem c Node.new
    let mem2 := Function.update mem1 u
      { mem1 u with next := Function.update (mem1 u).next idx (some c) }
    let mem3 := Function.update mem2 c { mem2 c with parent := some u }
    ({ t with mem := mem3, brk := t.brk + 1, node_count_ := t.node_count_ + 1 }, c)

/-- The canonical form computed at the top of `insert`: letters only, lower-cased. -/
def canon : List Nat → List Nat
  | [] => []
  | c :: w_raw => if isalpha c then tolower c :: canon w_raw else canon w_raw

/-- The loop `for (char c : w)` of `insert`, started at node `u`. -/
def insert_walk (t : Trie) (u : Nat) : List Nat → Trie × Nat
  | [] => (t, u)
  | c :: w =>
    if idx_of c < 0 then insert_walk t u w
    else
      let r := ensure_child t u (idx_of c).toNat
      insert_walk { r.1 with total_chars_ := r.1.total_chars_ + 1 } r.2 w

/-- The `while (cur)` loop of `propagate_if_better`, with a step budget. -/
def propagate_loop (terminal : Nat) : Nat → (Nat → Node) → Option Nat → (Nat → Node)
  | 0, mem, _ => mem
  | _ + 1, mem, none => mem
  | fuel + 1, mem, some cur =>
    if (mem cur).best_terminal = none ∨ (mem terminal).priority > (mem cur).best_priority then
      let mem1 := Function.update mem cur
        { mem cur with best_priority := (mem terminal).priority, best_terminal := some terminal }
      propagate_loop terminal fuel mem1 (mem1 cur).parent
    else mem

/-- The private method `propagate_if_better(terminal)`. -/
def propagate_if_better (t : Trie) (terminal : Nat) : Trie :=
  let mem1 := Function.update t.mem terminal
    { t.mem terminal with
      best_priority := (t.mem terminal).priority, best_terminal := some terminal }
  { t with mem := propagate_loop terminal t.brk mem1 (mem1 terminal).parent }

/-- The method `insert(w_raw)`: the new state and the returned node pointer. -/
def insert (t : Trie) (w_raw : List Nat) : Trie × Option Nat :=
  let w := canon w_raw
  if w.isEmpty then (t, none)
  else
    let r1 := insert_walk t t.root_ w
    let r2 := ensure_child r1.1 r1.2 26
    let t3 := { r2.1 with total_chars_ := r2.1.total_chars_ + 1 }
    let u := r2.2
    if (t3.mem u).is_terminal then (t3, some u)
    else
      let t4 := { t3 with dict_ := t3.dict_ ++ [w], dict_bytes_ := t3.dict_bytes_ + w.length }
      let t5 := { t4 with
        mem := Function.update t4.mem u { t4.mem u with str := some (t4.dict_.length - 1) } }
      let t6 := { t5 with mem := Function.update t5.mem u { t5.mem u with priority := 0 } }
      (propagate_if_better t6 u, some u)

/-- The method `descend(v, c)`. -/
def descend (t : Trie) (v : Option Nat) (c : Nat) : Option Nat :=
  match v with
  | none => none
  | some v =>
    let cc := if c = 36 then 36 else tolower c
    if idx_of cc < 0 then none else (t.mem v).next (idx_of cc).toNat

/-- The method `autocomplete(v)`. -/
def autocomplete (t : Trie) (v : Option Nat) : Option Nat :=
  match v with
  | none => none
  | some v => (t.mem v).best_terminal

/-- The `while (cur)` loop of `update_priority`, with a step budget. -/
def update_loop (variant : Variant) (terminal : Nat) :
    Nat → (Nat → Node) → Option Nat → (Nat → Node)
  | 0, mem, _ => mem
  | _ + 1, mem, none => mem
  | fuel + 1, mem, some cur =>
    let needs_update : Bool :=
      if (mem cur).best_terminal = none then true
      else if (mem terminal).priority > (mem cur).best_priority then true
      else if (mem terminal).priority = (mem cur).best_priority ∧
          (mem cur).best_terminal ≠ some terminal ∧ variant = Variant.MOST_RECENT then true
      else false
    if needs_update then
      let mem1 := Function.update mem cur
        { mem cur with best_priority := (mem terminal).priority, best_terminal := some terminal }
      update_loop variant terminal fuel mem1 (mem1 cur).parent
    else mem

/-- The method `update_priority(terminal)`; `none` is the failed assertion. -/
def update_priority (t : Trie) (terminal : Option Nat) : Option Trie :=
  match terminal with
  | none => none
  | some T =>
    if (t.mem T).is_terminal then
      let t1 : Trie :=
        match t.variant with
        | Variant.MOST_RECENT =>
          { t with
            access_counter_ := t.access_counter_ + 1
            mem := Function.update t.mem T { t.mem T with priority := t.access_counter_ + 1 } }
        | Variant.MOST_FREQUENT =>
          { t with
            mem := Function.update t.mem T { t.mem T with priority := (t.mem T).priority + 1 } }
      let mem2 := Function.update t1.mem T
        { t1.mem T with best_priority := (t1.mem T).priority, best_terminal := some T }
      some { t1 with mem := update_loop t1.variant T t1.brk mem2 (mem2 T).parent }
    else none

/-- The accessor `node_count()`. -/
def node_count (t : Trie) : Nat := t.node_count_

/-- The accessor `total_chars()`. -/
def total_chars (t : Trie) : Nat := t.total_chars_

/-- Byte codes of an ASCII string literal. -/
def bytes (s : String) : List Nat := s.toList.map Char.toNat

/-- Repeated `descend` from node `v` along the symbols of `p`, as the callers do it. -/
def descend_all (t : Trie) (v : Option Nat) : List Nat → Option Nat
  | [] => v
  | c :: p => descend_all t (descend t v c) p

/-- The word a terminal node points to (`*node->str`). -/
def word_of (t : Trie) (v : Option Nat) : Option (List Nat) :=
  match v with
  | none => none
  | some v =>
    match (t.mem v).str with
    | none => none
    | some i => t.dict_.get? i

end Trie

namespace Trie

/-! ## Definitions used to state and prove the properties -/

/-- Slot number of a symbol that has one. -/
def slot (c : Nat) : Nat := (idx_of c).toNat

/-- Slot numbers of the symbols of a word. -/
def slots (w : List Nat) : List Nat := w.map slot

/-- Symbol `c` is one of `'a'..'z'`. -/
def lower (c : Nat) : Prop := 97 ≤ c ∧ c ≤ 122

instance (c : Nat) : Decidable (lower c) := by unfold lower; infer_instance

/-- Follow the child slots `ks` downwards from node `u`. -/
def walk (mem : Nat → Node) (u : Nat) : List Nat → Option Nat
  | [] => some u
  | k :: ks =>
    match (mem u).next k with
    | none => none
    | some c => walk mem c ks

/-- Node `w` lies in the subtree rooted at `n` (following child pointers). -/
inductive InSubtree (t : Trie) : Nat → Nat → Prop
  | refl (n : Nat) : InSubtree t n n
  | child {n k c w : Nat} : (t.mem n).next k = some c → InSubtree t c w → InSubtree t n w

/-- Node `n` belongs to the trie: it is reachable from the root. -/
def IsNode (t : Trie) (n : Nat) : Prop := InSubtree t t.root_ n

/-- Shape of the heap: the live addresses `0 .. brk-1` form a tree rooted at 0 in which
`sp n` lists the slots on the path from the root to `n`. -/
structure Shape (mem : Nat → Node) (brk : Nat) (sp : Nat → List Nat) : Prop where
  brk_pos : 0 < brk
  sp_root : sp 0 = []
  root_parent : (mem 0).parent = none
  child : ∀ u k c, u < brk → (mem u).next k = some c →
    c < brk ∧ u < c ∧ (mem c).parent = some u ∧ sp c = sp u ++ [k]
  parent : ∀ c, c < brk → c ≠ 0 → ∃ u k, u < brk ∧ (mem u).next k = some c
  slot_le : ∀ c, c < brk → ∀ x ∈ sp c, x ≤ 26
  slot_lt : ∀ c, c < brk → ∀ x ∈ (sp c).dropLast, x < 26

/-- State `t2` is `t` with fresh blank nodes added below existing ones: nothing but child
slots of old nodes changed, and only null slots were filled. -/
structure Grow (t t2 : Trie) : Prop where
  brk_le : t.brk ≤ t2.brk
  parent_eq : ∀ n, n < t.brk → (t2.mem n).parent = (t.mem n).parent
  priority_eq : ∀ n, n < t.brk → (t2.mem n).priority = (t.mem n).priority
  str_eq : ∀ n, n < t.brk → (t2.mem n).str = (t.mem n).str
  best_terminal_eq : ∀ n, n < t.brk → (t2.mem n).best_terminal = (t.mem n).best_terminal
  best_priority_eq : ∀ n, n < t.brk → (t2.mem n).best_priority = (t.mem n).best_priority
  next_mono : ∀ n k c, n < t.brk → (t.mem n).next k = some c → (t2.mem n).next k = some c
  next_new : ∀ n k c, n < t.brk → (t2.mem n).next k = some c →
    (t.mem n).next k = some c ∨ t.brk ≤ c
  blank : ∀ n, t.brk ≤ n → n < t2.brk →
    (t2.mem n).str = none ∧ (t2.mem n).best_terminal = none ∧ (t2.mem n).priority = 0
  variant_eq : t2.variant = t.variant
  root_eq : t2.root_ = t.root_
  counter_eq : t2.access_counter_ = t.access_counter_
  dict_eq : t2.dict_ = t.dict_
  dict_bytes_eq : t2.dict_bytes_ = t.dict_bytes_
  count_eq : t2.node_count_ + t.brk = t.node_count_ + t2.brk

/-- The loop condition of `update_priority` at ancestor `cur` (the three `if` branches). -/
def needs_update (variant : Variant) (T : Nat) (mem : Nat → Node) (cur : Nat) : Prop :=
  (mem cur).best_terminal = none ∨ (mem T).priority > (mem cur).best_priority ∨
    ((mem T).priority = (mem cur).best_priority ∧ (mem cur).best_terminal ≠ some T ∧
      variant = Variant.MOST_RECENT)

instance (variant : Variant) (T : Nat) (mem : Nat → Node) (cur : Nat) :
    Decidable (needs_update variant T mem cur) := by
  unfold needs_update
  infer_instance

/-- Heap after one ancestor's cache has been overwritten with terminal `T`. -/
def set_best (T : Nat) (mem : Nat → Node) (cur : Nat) : Nat → Node :=
  Function.update mem cur
    { mem cur with best_priority := (mem T).priority, best_terminal := some T }

/-- The cache of node `n` is correct: it names a terminal of maximal priority below `n`
(`sp n <+: sp w` says that `w` is below `n`). -/
def CacheOK (mem : Nat → Node) (brk : Nat) (sp : Nat → List Nat) (n : Nat) : Prop :=
  ((mem n).best_terminal = none →
    ∀ w, w < brk → (mem w).is_terminal = true → ¬ sp n <+: sp w) ∧
  (∀ b, (mem n).best_terminal = some b →
    b < brk ∧ (mem b).is_terminal = true ∧ sp n <+: sp b ∧
    (mem b).priority = (mem n).best_priority ∧
    ∀ w, w < brk → (mem w).is_terminal = true → sp n <+: sp w →
      (mem w).priority ≤ (mem n).best_priority)

/-- The cache of node `n` is correct as far as terminals other than `T` are concerned, and
if it names `T` it holds a priority below the current one of `T`. -/
def CacheStale (mem : Nat → Node) (brk : Nat) (sp : Nat → List Nat) (T n : Nat) : Prop :=
  ((mem n).best_terminal = none →
    ∀ w, w < brk → (mem w).is_terminal = true → sp n <+: sp w → w = T) ∧
  (∀ b, (mem n).best_terminal = some b →
    b < brk ∧ (mem b).is_terminal = true ∧ sp n <+: sp b ∧
    (b ≠ T → (mem b).priority = (mem n).best_priority) ∧
    (b = T → (mem n).best_priority < (mem T).priority) ∧
    ∀ w, w < brk → (mem w).is_terminal = true → w ≠ T → sp n <+: sp w →
      (mem w).priority ≤ (mem n).best_priority)

/-- Word spelled by a list of letter slots. -/
def unslots (l : List Nat) : List Nat := l.map (fun k => k + 97)

/-- The invariant of the trie between two public operations; `sp n` is the slot path from the
root to node `n`. -/
structure Good (t : Trie) (sp : Nat → List Nat) : Prop where
  shape : Shape t.mem t.brk sp
  root : t.root_ = 0
  term_iff : ∀ c, c < t.brk → ((t.mem c).is_terminal = true ↔ ∃ l, sp c = l ++ [26])
  root_slot : (t.mem 0).next 26 = none
  has_term : ∀ c, c < t.brk → c ≠ 0 →
    ∃ w, w < t.brk ∧ (t.mem w).is_terminal = true ∧ sp c <+: sp w
  prio_nonneg : ∀ c, c < t.brk → (t.mem c).is_terminal = true → 0 ≤ (t.mem c).priority
  cache : ∀ n, n < t.brk → CacheOK t.mem t.brk sp n
  recent : t.variant = Variant.MOST_RECENT → ∀ c, c < t.brk →
    (t.mem c).is_terminal = true → (t.mem c).priority ≤ t.access_counter_
  counter_nonneg : 0 ≤ t.access_counter_
  str : ∀ c i, c < t.brk → (t.mem c).str = some i →
    t.dict_.get? i = some (unslots (sp c).dropLast)
  count : t.node_count_ = t.brk

/-- The priority `update_priority` assigns to the terminal. -/
def new_priority (t : Trie) (T : Nat) : Int :=
  match t.variant with
  | Variant.MOST_RECENT => t.access_counter_ + 1
  | Variant.MOST_FREQUENT => (t.mem T).priority + 1

/-- The access counter after `update_priority`. -/
def new_counter (t : Trie) : Int :=
  match t.variant with
  | Variant.MOST_RECENT => t.access_counter_ + 1
  | Variant.MOST_FREQUENT => t.access_counter_

/-- The heap of `update_priority` when its loop starts. -/
def pre_loop_mem (t : Trie) (T : Nat) : Nat → Node :=
  Function.update t.mem T
    { t.mem T with
      priority := new_priority t T, best_priority := new_priority t T, best_terminal := some T }

/-- The state `update_priority` returns on a terminal node. -/
def after_update (t : Trie) (T : Nat) : Trie :=
  { t with
    access_counter_ := new_counter t
    mem := update_loop t.variant T t.brk (pre_loop_mem t T) (t.mem T).parent }

/-- State of `insert` once the new terminal has its word and priority, before propagation. -/
def with_word (t : Trie) (u : Nat) (w : List Nat) : Trie :=
  { t with
    total_chars_ := t.total_chars_ + 1
    dict_ := t.dict_ ++ [w]
    dict_bytes_ := t.dict_bytes_ + w.length
    mem := Function.update t.mem u { t.mem u with str := some t.dict_.length, priority := 0 } }

/-- Final state of an `insert` that made node `T` a terminal. -/
def insert_new (t : Trie) (T : Nat) (w : List Nat) : Trie :=
  propagate_if_better (with_word t T w) T

/-- What the node-creating part of `insert` (descent loop plus the terminator child) has
achieved when the word was not stored: `T` is a new node at the end of the new path. -/
structure PathPost (t : Trie) (sp : Nat → List Nat) (w : List Nat) (t2 : Trie) (T : Nat)
    (sp2 : Nat → List Nat) : Prop where
  shape : Shape t2.mem t2.brk sp2
  grow : Grow t t2
  sp_eq : ∀ n, n < t.brk → sp2 n = sp n
  T_new : t.brk ≤ T
  T_lt : T < t2.brk
  T_sp : sp2 T = slots w ++ [26]
  new_sp : ∀ n, t.brk ≤ n → n < t2.brk → n ≠ T → sp2 n ≠ [] ∧ sp2 n <+: slots w
  chars : t2.total_chars_ = t.total_chars_ + w.length

/-- The heap of a fresh insertion when the loop of `propagate_if_better` starts. -/
def ins_mem0 (t2 : Trie) (T : Nat) : Nat → Node :=
  Function.update t2.mem T
    { t2.mem T with
      str := some t2.dict_.length, priority := 0, best_priority := 0, best_terminal := some T }

/-- Facts about the heap in which the propagation of a fresh insertion starts. -/
structure PreProp (t : Trie) (sp : Nat → List Nat) (t2 : Trie) (T : Nat)
    (sp2 : Nat → List Nat) : Prop where
  shape0 : Shape (ins_mem0 t2 T) t2.brk sp2
  term_T : (ins_mem0 t2 T T).is_terminal = true
  prio_T : (ins_mem0 t2 T T).priority = 0
  bt_T : (ins_mem0 t2 T T).best_terminal = some T
  bp_T : (ins_mem0 t2 T T).best_priority = 0
  T_not_old : ∀ n, n < t.brk → n ≠ T
  term_old : ∀ n, n < t.brk → (ins_mem0 t2 T n).is_terminal = (t.mem n).is_terminal
  prio_old : ∀ n, n < t.brk → (ins_mem0 t2 T n).priority = (t.mem n).priority
  bt_old : ∀ n, n < t.brk → (ins_mem0 t2 T n).best_terminal = (t.mem n).best_terminal
  bp_old : ∀ n, n < t.brk → (ins_mem0 t2 T n).best_priority = (t.mem n).best_priority
  term_cases : ∀ n, n < t2.brk → (ins_mem0 t2 T n).is_terminal = true →
    n = T ∨ (n < t.brk ∧ (t.mem n).is_terminal = true)
  bt_new : ∀ n, t.brk ≤ n → n < t2.brk → n ≠ T → (ins_mem0 t2 T n).best_terminal = none
  leaf : ∀ x, x < t2.brk → sp2 T <+: sp2 x → x = T
  chain : ∀ n, t.brk ≤ n → n < t2.brk → sp2 n <+: sp2 T
  above : ∀ n x, n < t2.brk → x < t.brk → sp2 n <+: sp2 x → n < t.brk

/-- What `insert` of a text with non-empty canonical form `w` guarantees: `t2` is the new
state, `T` the returned terminal. -/
structure InsertPost (t : Trie) (sp : Nat → List Nat) (w : List Nat) (t2 : Trie) (T : Nat)
    (sp2 : Nat → List Nat) : Prop where
  good : Good t2 sp2
  sp_eq : ∀ n, n < t.brk → sp2 n = sp n
  brk_le : t.brk ≤ t2.brk
  T_lt : T < t2.brk
  T_term : (t2.mem T).is_terminal = true
  T_sp : sp2 T = slots w ++ [26]
  str_eq : ∀ n, n < t.brk → (t2.mem n).str = (t.mem n).str
  priority_eq : ∀ n, n < t.brk → (t2.mem n).priority = (t.mem n).priority
  new_term : ∀ n, t.brk ≤ n → n < t2.brk → (t2.mem n).is_terminal = true →
    n = T ∧ (t2.mem n).priority = 0
  variant_eq : t2.variant = t.variant
  counter_eq : t2.access_counter_ = t.access_counter_
  next_mono : ∀ n k c, n < t.brk → (t.mem n).next k = some c → (t2.mem n).next k = some c
  cache_old : ∀ n, n < t.brk → (t.mem n).best_terminal ≠ none →
    (t2.mem n).best_terminal = (t.mem n).best_terminal ∧
    (t2.mem n).best_priority = (t.mem n).best_priority

/-- A call of one of the two mutating operations. -/
inductive Op
  | insert (w_raw : List Nat)
  | update_priority (terminal : Nat)

/-- Run one call; the handle given to `update_priority` must be the address of a node of the
trie, and `none` is the failed assertion. -/
def step (t : Trie) : Op → Option Trie
  | Op.insert w_raw => some (insert t w_raw).1
  | Op.update_priority T => if T < t.brk then update_priority t (some T) else none

/-- Run a sequence of calls. -/
def run (t : Trie) : List Op → Option Trie
  | [] => some t
  | op :: ops =>
    match step t op with
    | none => none
    | some t2 => run t2 ops

/-- State `t` arises from an empty trie by a sequence of calls. -/
def Reachable (t : Trie) : Prop := ∃ v ops, run (Trie.new v) ops = some t

/-- The canonical word `w` is stored, with terminal node `T`: descending its letters and then
`'$'` from the root reaches `T`, and `T` carries a word. -/
def stored (t : Trie) (w : List Nat) (T : Nat) : Prop :=
  descend_all t (some t.root_) (w ++ [36]) = some T ∧ (t.mem T).is_terminal = true

/-- The trie holding the one word "cat". -/
def demo_cat (v : Variant) : Trie := (insert (Trie.new v) (bytes "cat")).1

/-- The trie holding "cat" and "car", in this order of insertion. -/
def demo_cat_car (v : Variant) : Trie := (insert (demo_cat v) (bytes "car")).1

/-- A call that accesses no terminal other than `T`: an insertion, or an update of `T`. -/
def quiet (T : Nat) : Op → Prop
  | Op.insert _ => True
  | Op.update_priority n => n = T

/-- Terminal `T` has been accessed and every other terminal has a strictly lower priority. -/
def Dominant (t : Trie) (T : Nat) : Prop :=
  T < t.brk ∧ (t.mem T).is_terminal = true ∧ 1 ≤ (t.mem T).priority ∧
  ∀ x, x < t.brk → (t.mem x).is_terminal = true → x ≠ T →
    (t.mem x).priority < (t.mem T).priority

/-- Number of `update_priority` calls on node `T` in a sequence of calls. -/
def accesses (T : Nat) : List Op → Nat
  | [] => 0
  | Op.insert _ :: ops => accesses T ops
  | Op.update_priority n :: ops => (if n = T then 1 else 0) + accesses T ops

/-- Priorities count accesses: a terminal's priority is the number of updates it received,
and a node that is not (yet) a terminal received none. -/
def Counted (pre : List Op) (t : Trie) : Prop :=
  t.variant = Variant.MOST_FREQUENT ∧
  ∀ n, ((n < t.brk ∧ (t.mem n).is_terminal = true) → (t.mem n).priority = accesses n pre) ∧
    (¬ (n < t.brk ∧ (t.mem n).is_terminal = true) → accesses n pre = 0)

/-- Position of the first symbol of `p` at which repeated `descend` from `v` returns
not-found, if there is one (the callers stop their walk there). -/
def first_not_found (t : Trie) (v : Option Nat) : List Nat → Option Nat
  | [] => none
  | c :: p =>
    match descend t v c with
    | none => some 0
    | some u => (first_not_found t (some u) p).map (fun i => i + 1)

/-- Terminals and inserted words correspond: every terminal spells the canonical form of an
inserted text, and every inserted text with a non-empty canonical form has its terminal. -/
def Words (pre : List Op) (t : Trie) (sp : Nat → List Nat) : Prop :=
  (∀ n, n < t.brk → (t.mem n).is_terminal = true →
    ∃ raw, Op.insert raw ∈ pre ∧ sp n = slots (canon raw) ++ [26]) ∧
  (∀ raw, Op.insert raw ∈ pre → canon raw ≠ [] →
    ∃ n, n < t.brk ∧ (t.mem n).is_terminal = true ∧ sp n = slots (canon raw) ++ [26])

/-- The demonstration state: "cat" and "car" inserted, then "car" accessed twice. -/
def demo_freq : Trie :=
  (run (Trie.new Variant.MOST_FREQUENT)
    [Op.insert (bytes "cat"), Op.insert (bytes "car"), Op.update_priority 6,
      Op.update_priority 6]).getD (Trie.new Variant.MOST_FREQUENT)

/-- The node `update_priority` is called with when a word is accessed: its terminal. -/
def terminal_of (t : Trie) (w : List Nat) : Option Nat :=
  descend_all t (some t.root_) (w ++ [36])

/-- Access to a stored word: `update_priority` on its terminal. -/
def access (t : Trie) (w : List Nat) : Option Trie := update_priority t (terminal_of t w)

/-- The word suggested for prefix `p`: descend `p` from the root, then `autocomplete`. -/
def best_word (t : Trie) (p : List Nat) : Option (List Nat) :=
  word_of t (autocomplete t (descend_all t (some t.root_) p))

/-- Scenario state: "cat", "car", "cart" inserted in this order into an empty trie. -/
def scenario3 (v : Variant) : Trie :=
  (insert (insert (insert (Trie.new v) (bytes "cat")).1 (bytes "car")).1 (bytes "cart")).1

/-- Scenario state: then "car" accessed twice. -/
def scenario5 (v : Variant) : Option Trie :=
  (access (scenario3 v) (bytes "car")).bind (fun t => access t (bytes "car"))

/-- Scenario state: then "cart" accessed three times. -/
def scenario8 (v : Variant) : Option Trie :=
  (((scenario5 v).bind (fun t => access t (bytes "cart"))).bind
    (fun t => access t (bytes "cart"))).bind (fun t => access t (bytes "cart"))

/-- Number of `update_priority` calls in a sequence of calls. -/
def updates : List Op → Nat
  | [] => 0
  | Op.insert _ :: ops => updates ops
  | Op.update_priority _ :: ops => 1 + updates ops

/-- How priorities and the access counter reflect the calls made so far. -/
structure Hist (pre : List Op) (t : Trie) : Prop where
  unborn : ∀ n, ¬ (n < t.brk ∧ (t.mem n).is_terminal = true) → accesses n pre = 0
  accessed : ∀ n, n < t.brk → (t.mem n).is_terminal = true → 1 ≤ accesses n pre →
    1 ≤ (t.mem n).priority
  counter : t.variant = Variant.MOST_RECENT → t.access_counter_ = updates pre
  distinct : t.variant = Variant.MOST_RECENT → ∀ x y, x < t.brk → y < t.brk →
    (t.mem x).is_terminal = true → (t.mem y).is_terminal = true → x ≠ y →
    1 ≤ accesses x pre → 1 ≤ accesses y pre → (t.mem x).priority ≠ (t.mem y).priority

/-- Demonstration state under MOST_RECENT: "cat" and "car" inserted, then "car" accessed. -/
def demo_recent : Trie :=
  (run (Trie.new Variant.MOST_RECENT)
    [Op.insert (bytes "cat"), Op.insert (bytes "car"), Op.update_priority 6]).getD
    (Trie.new Variant.MOST_RECENT)

/-- Demonstration state under MOST_FREQUENT: "cat" and "car" inserted, "car" accessed twice
and "cat" once, so that one more access of "cat" ties with the priority cached for "car". -/
def demo_tie : Trie :=
  (run (Trie.new Variant.MOST_FREQUENT)
    [Op.insert (bytes "cat"), Op.insert (bytes "car"), Op.update_priority 6,
      Op.update_priority 6, Op.update_priority 4]).getD (Trie.new Variant.MOST_FREQUENT)

/-- Follow the `parent` pointer `d` times from node `n`. -/
def nth_parent (mem : Nat → Node) : Nat → Nat → Option Nat
  | 0, n => some n
  | d + 1, n =>
    match (mem n).parent with
    | none => none
    | some p => nth_parent mem d p

/-- Number of nodes that already exist along the slot path `ks` below node `u`: the length
of the longest prefix of `ks` that can be walked. -/
def walk_depth (mem : Nat → Node) (u : Nat) : List Nat → Nat
  | [] => 0
  | k :: ks =>
    match (mem u).next k with
    | none => 0
    | some c => 1 + walk_depth mem c ks

/-- Every node on the parent chain from `c` up to `m` satisfies the loop condition. -/
def ChainNeeds (v : Variant) (T : Nat) (mem : Nat → Node) (brk : Nat) (sp : Nat → List Nat)
    (m c : Nat) : Prop :=
  sp m <+: sp c ∧ ∀ k, k < brk → sp m <+: sp k → sp k <+: sp c → needs_update v T mem k

/-- A cached terminal of a node is also the cached terminal of the child leading to it. -/
def StableSp (mem : Nat → Node) (brk : Nat) (sp : Nat → List Nat) : Prop :=
  ∀ N k c X, N < brk → (mem N).next k = some c → (mem N).best_terminal = some X →
    sp c <+: sp X → (mem c).best_terminal = some X

/-- Iterations made by the `while (cur)` loop of `update_priority` (the ancestors it visits);
`none` when the step budget runs out before the loop has ended. -/
def update_loop_visits (variant : Variant) (terminal : Nat) :
    Nat → (Nat → Node) → Option Nat → Option Nat
  | 0, _, none => some 0
  | 0, _, some _ => none
  | _ + 1, _, none => some 0
  | fuel + 1, mem, some cur =>
    let needs_update : Bool :=
      if (mem cur).best_terminal = none then true
      else if (mem terminal).priority > (mem cur).best_priority then true
      else if (mem terminal).priority = (mem cur).best_priority ∧
          (mem cur).best_terminal ≠ some terminal ∧ variant = Variant.MOST_RECENT then true
      else false
    if needs_update then
      let mem1 := Function.update mem cur
        { mem cur with best_priority := (mem terminal).priority, best_terminal := some terminal }
      (update_loop_visits variant terminal fuel mem1 (mem1 cur).parent).map (fun n => n + 1)
    else some 1

/-- Iterations made by the `while (cur)` loop of `propagate_if_better`; `none` when the step
budget runs out before the loop has ended. -/
def propagate_loop_visits (terminal : Nat) : Nat → (Nat → Node) → Option Nat → Option Nat
  | 0, _, none => some 0
  | 0, _, some _ => none
  | _ + 1, _, none => some 0
  | fuel + 1, mem, some cur =>
    if (mem cur).best_terminal = none ∨ (mem terminal).priority > (mem cur).best_priority then
      let mem1 := Function.update mem cur
        { mem cur with best_priority := (mem terminal).priority, best_terminal := some terminal }
      (propagate_loop_visits terminal fuel mem1 (mem1 cur).parent).map (fun n => n + 1)
    else some 1

/-- Iterations of the loop in a call `propagate_if_better(terminal)`. -/
def propagate_visits (t : Trie) (terminal : Nat) : Option Nat :=
  let mem1 := Function.update t.mem terminal
    { t.mem terminal with
      best_priority := (t.mem terminal).priority, best_terminal := some terminal }
  propagate_loop_visits terminal t.brk mem1 (mem1 terminal).parent

/-- Iterations of the propagation loop in a call `insert(w_raw)`: the loop is not entered on
the early return and when the word is already stored. -/
def insert_visits (t : Trie) (w_raw : List Nat) : Option Nat :=
  let w := canon w_raw
  if w.isEmpty then some 0
  else
    let r1 := insert_walk t t.root_ w
    let r2 := ensure_child r1.1 r1.2 26
    let t3 := { r2.1 with total_chars_ := r2.1.total_chars_ + 1 }
    let u := r2.2
    if (t3.mem u).is_terminal then some 0
    else
      let t4 := { t3 with dict_ := t3.dict_ ++ [w], dict_bytes_ := t3.dict_bytes_ + w.length }
      let t5 := { t4 with
        mem := Function.update t4.mem u { t4.mem u with str := some (t4.dict_.length - 1) } }
      let t6 := { t5 with mem := Function.update t5.mem u { t5.mem u with priority := 0 } }
      propagate_visits t6 u

/-- Iterations of the loop in a call `update_priority(terminal)`; the loop is not entered
when the assertion fails. -/
def update_priority_visits (t : Trie) (terminal : Option Nat) : Option Nat :=
  match terminal with
  | none => some 0
  | some T =>
    if (t.mem T).is_terminal then
      let t1 : Trie :=
        match t.variant with
        | Variant.MOST_RECENT =>
          { t with
            access_counter_ := t.access_counter_ + 1
            mem := Function.update t.mem T { t.mem T with priority := t.access_counter_ + 1 } }
        | Variant.MOST_FREQUENT =>
          { t with
            mem := Function.update t.mem T { t.mem T with priority := (t.mem T).priority + 1 } }
      let mem2 := Function.update t1.mem T
        { t1.mem T with best_priority := (t1.mem T).priority, best_terminal := some T }
      update_loop_visits t1.variant T t1.brk mem2 (mem2 T).parent
    else some 0

/-- Calls of `ensure_child` made by the loop `for (char c : w)` of `insert`. -/
def insert_walk_steps : List Nat → Nat
  | [] => 0
  | c :: w => if idx_of c < 0 then insert_walk_steps w else insert_walk_steps w + 1

/-- Calls of `ensure_child` made by `insert(w_raw)`: none on the early return, otherwise those
of the loop and one for the terminator. -/
def insert_steps (w_raw : List Nat) : Nat :=
  let w := canon w_raw
  if w.isEmpty then 0 else insert_walk_steps w + 1

/-- Child links read by `descend(v, c)`. -/
def descend_steps (v : Option Nat) (c : Nat) : Nat :=
  match v with
  | none => 0
  | some _ =>
    let cc := if c = 36 then 36 else tolower c
    if idx_of cc < 0 then 0 else 1

/-- The record `SimulationResult`, without its timing field. -/
structure SimulationResult where
  chars_written : Nat
  chars_saved : Nat
  success : Bool

/-- The loop `for (char c : word) { temp = trie.descend(temp, c); if (!temp) break; }` with
which `simulate_word_typing` looks a word up: the node reached, or null. -/
def lookup_loop (t : Trie) : Option Nat → List Nat → Option Nat
  | temp, [] => temp
  | temp, c :: word =>
    match descend t temp c with
    | none => none
    | some n => lookup_loop t (some n) word

/-- The flag `word_exists` computed at the top of `simulate_word_typing`. -/
def word_exists (t : Trie) (word : List Nat) : Bool :=
  match lookup_loop t (some t.root_) word with
  | none => false
  | some temp =>
    match descend t (some temp) 36 with
    | none => false
    | some x => decide (word_of t (some x) = some word)

/-- The loop `for (size_t i = 0; i < word.length(); ++i)` of `simulate_word_typing`: the
final `chars_typed` and `autocomplete_success`. -/
def typing_loop (t : Trie) (word : List Nat) : Nat → Nat → List Nat → Nat × Bool
  | _, chars_typed, [] => (chars_typed, false)
  | current, chars_typed, c :: rest =>
    match descend t (some current) c with
    | none => (word.length, false)
    | some next_node =>
      if word_of t (autocomplete t (some next_node)) = some word then (chars_typed + 1, true)
      else typing_loop t word next_node (chars_typed + 1) rest

/-- The function `simulate_word_typing(trie, word)`: the trie after the call and the result
record; `none` is the failed assertion of `update_priority`. -/
def simulate_word_typing (t : Trie) (word : List Nat) : Option (Trie × SimulationResult) :=
  if word_exists t word = false then
    some (t, { chars_written := word.length, chars_saved := 0, success := false })
  else
    let r := typing_loop t word t.root_ 0 word
    let result : SimulationResult :=
      { chars_written := r.1, chars_saved := word.length - r.1, success := r.2 }
    match lookup_loop t (some t.root_) word with
    | none => some (t, result)
    | some word_node =>
      match descend t (some word_node) 36 with
      | none => some (t, result)
      | some x =>
        if word_of t (some x) = some word then
          (update_priority t (some x)).map (fun t2 => (t2, result))
        else some (t, result)

/-- The counters `run_simulation` prints at its end. -/
structure SimulationTotals where
  total_chars_without_autocomplete : Nat
  total_chars_with_autocomplete : Nat
  successful_autocompletes : Nat
  words_not_in_trie : Nat

/-- The loop `for (size_t i = 0; i < L; ++i)` of `run_simulation`, without its printing. -/
def run_simulation_loop (t : Trie) (acc : SimulationTotals) :
    List (List Nat) → Option (Trie × SimulationTotals)
  | [] => some (t, acc)
  | word :: words =>
    match simulate_word_typing t word with
    | none => none
    | some (t2, result) =>
      let acc1 : SimulationTotals :=
        { acc with
          total_chars_without_autocomplete := acc.total_chars_without_autocomplete + word.length
          total_chars_with_autocomplete :=
            acc.total_chars_with_autocomplete + result.chars_written }
      let acc2 : SimulationTotals :=
        if result.success then
          { acc1 with successful_autocompletes := acc1.successful_autocompletes + 1 }
        else acc1
      let acc3 : SimulationTotals :=
        if result.chars_written = word.length ∧ result.success = false then
          { acc2 with words_not_in_trie := acc2.words_not_in_trie + 1 }
        else acc2
      run_simulation_loop t2 acc3 words

/-- The counters computed by `run_simulation(trie, words, ...)`. -/
def run_simulation (t : Trie) (words : List (List Nat)) : Option (Trie × SimulationTotals) :=
  run_simulation_loop t
    { total_chars_without_autocomplete := 0, total_chars_with_autocomplete := 0,
      successful_autocompletes := 0, words_not_in_trie := 0 } words

/-- The trie `main` of `simulation.cpp` builds from the word list "cats", "cat". -/
def demo_cats_cat (v : Variant) : Trie :=
  (insert (insert (Trie.new v) (bytes "cats")).1 (bytes "cat")).1

/-! ## Paths, subtrees and the shape of the heap -/

theorem walk_append (mem : Nat → Node) (a b : List Nat) :
    ∀ u, walk mem u (a ++ b) = (walk mem u a).bind (fun v => walk mem v b) := by
  induction a with
  | nil => intro u; rfl
  | cons k ks ih =>
    intro u
    simp only [List.cons_append, walk]
    cases (mem u).next k with
    | none => rfl
    | some c => exact ih c

theorem walk_congr {mem mem2 : Nat → Node} (h : ∀ n, (mem2 n).next = (mem n).next) :
    ∀ ks u, walk mem2 u ks = walk mem u ks := by
  intro ks
  induction ks with
  | nil => intro u; rfl
  | cons k ks ih =>
    intro u
    simp only [walk, h u]
    cases (mem u).next k with
    | none => rfl
    | some c => exact ih c

theorem Shape.shape_congr {mem mem2 : Nat → Node} {brk : Nat} {sp : Nat → List Nat}
    (h : Shape mem brk sp)
    (hp : ∀ n, (mem2 n).parent = (mem n).parent) (hn : ∀ n, (mem2 n).next = (mem n).next) :
    Shape mem2 brk sp where
  brk_pos := h.brk_pos
  sp_root := h.sp_root
  root_parent := by rw [hp]; exact h.root_parent
  child := by
    intro u k c hu hc
    rw [hn] at hc
    rw [hp]
    exact h.child u k c hu hc
  parent := by
    intro c hc h0
    obtain ⟨u, k, hu, hk⟩ := h.parent c hc h0
    exact ⟨u, k, hu, by rw [hn]; exact hk⟩
  slot_le := h.slot_le
  slot_lt := h.slot_lt

theorem Shape.walk_spec {mem : Nat → Node} {brk : Nat} {sp : Nat → List Nat}
    (h : Shape mem brk sp) :
    ∀ ks u v, u < brk → walk mem u ks = some v → v < brk ∧ u ≤ v ∧ sp v = sp u ++ ks := by
  intro ks
  induction ks with
  | nil =>
    intro u v hu hw
    simp only [walk, Option.some.injEq] at hw
    subst hw
    simp [hu]
  | cons k ks ih =>
    intro u v hu hw
    simp only [walk] at hw
    cases hk : (mem u).next k with
    | none => rw [hk] at hw; cases hw
    | some c =>
      rw [hk] at hw
      obtain ⟨hc, huc, _, hsp⟩ := h.child u k c hu hk
      obtain ⟨hv, hcv, hspv⟩ := ih c v hc hw
      refine ⟨hv, by omega, ?_⟩
      rw [hspv, hsp]
      simp

theorem Shape.walk_sp {mem : Nat → Node} {brk : Nat} {sp : Nat → List Nat}
    (h : Shape mem brk sp) : ∀ c, c < brk → walk mem 0 (sp c) = some c := by
  intro c
  induction c using Nat.strong_induction_on with
  | _ c ih =>
    intro hc
    by_cases h0 : c = 0
    · subst h0
      rw [h.sp_root]
      rfl
    · obtain ⟨u, k, hu, hk⟩ := h.parent c hc h0
      obtain ⟨_, huc, _, hsp⟩ := h.child u k c hu hk
      rw [hsp, walk_append, ih u huc hu]
      simp [walk, hk]

theorem Shape.sp_inj {mem : Nat → Node} {brk : Nat} {sp : Nat → List Nat}
    (h : Shape mem brk sp) {a b : Nat} (ha : a < brk) (hb : b < brk) (hab : sp a = sp b) :
    a = b := by
  have h1 := h.walk_sp a ha
  have h2 := h.walk_sp b hb
  rw [hab, h2] at h1
  exact (Option.some.inj h1).symm

theorem Shape.walk_of_sp {mem : Nat → Node} {brk : Nat} {sp : Nat → List Nat}
    (h : Shape mem brk sp) {a w : Nat} {r : List Nat} (ha : a < brk) (hw : w < brk)
    (hr : sp w = sp a ++ r) : walk mem a r = some w := by
  have h1 := h.walk_sp w hw
  rw [hr, walk_append, h.walk_sp a ha] at h1
  exact h1

theorem Shape.le_of_sp {mem : Nat → Node} {brk : Nat} {sp : Nat → List Nat}
    (h : Shape mem brk sp) {a w : Nat} (ha : a < brk) (hw : w < brk)
    (hp : sp a <+: sp w) : a ≤ w := by
  obtain ⟨r, hr⟩ := hp
  exact (h.walk_spec r a w ha (h.walk_of_sp ha hw hr.symm)).2.1

theorem Shape.parent_some {mem : Nat → Node} {brk : Nat} {sp : Nat → List Nat}
    (h : Shape mem brk sp) {c p : Nat} (hc : c < brk) (hp : (mem c).parent = some p) :
    p < brk ∧ p < c ∧ ∃ k, (mem p).next k = some c ∧ sp c = sp p ++ [k] := by
  have h0 : c ≠ 0 := by
    intro h0
    subst h0
    rw [h.root_parent] at hp
    cases hp
  obtain ⟨u, k, hu, hk⟩ := h.parent c hc h0
  obtain ⟨_, huc, hpar, hsp⟩ := h.child u k c hu hk
  rw [hp] at hpar
  cases hpar
  exact ⟨hu, huc, k, hk, hsp⟩

theorem Shape.parent_none {mem : Nat → Node} {brk : Nat} {sp : Nat → List Nat}
    (h : Shape mem brk sp) {c : Nat} (hc : c < brk) (hp : (mem c).parent = none) : c = 0 := by
  by_contra h0
  obtain ⟨u, k, hu, hk⟩ := h.parent c hc h0
  obtain ⟨_, _, hpar, _⟩ := h.child u k c hu hk
  rw [hp] at hpar
  cases hpar

theorem InSubtree.subtree_trans {t : Trie} {a b c : Nat} (h1 : InSubtree t a b) (h2 : InSubtree t b c) :
    InSubtree t a c := by
  induction h1 with
  | refl n => exact h2
  | child hk _ ih => exact InSubtree.child hk (ih h2)

theorem inSubtree_of_walk {t : Trie} : ∀ ks u v, walk t.mem u ks = some v → InSubtree t u v := by
  intro ks
  induction ks with
  | nil =>
    intro u v hw
    simp only [walk, Option.some.injEq] at hw
    subst hw
    exact InSubtree.refl u
  | cons k ks ih =>
    intro u v hw
    simp only [walk] at hw
    cases hk : (t.mem u).next k with
    | none => rw [hk] at hw; cases hw
    | some c =>
      rw [hk] at hw
      exact InSubtree.child hk (ih c v hw)

theorem walk_of_inSubtree {t : Trie} {u v : Nat} (h : InSubtree t u v) :
    ∃ ks, walk t.mem u ks = some v := by
  induction h with
  | refl n => exact ⟨[], rfl⟩
  | child hk _ ih =>
    obtain ⟨ks, hks⟩ := ih
    rename_i n k c w _
    exact ⟨k :: ks, by simp [walk, hk, hks]⟩

/-- Under the shape invariant, the subtree relation is the prefix order on spellings. -/
theorem Shape.inSubtree_iff {t : Trie} {sp : Nat → List Nat} (h : Shape t.mem t.brk sp)
    {n w : Nat} (hn : n < t.brk) :
    InSubtree t n w ↔ w < t.brk ∧ sp n <+: sp w := by
  constructor
  · intro hs
    obtain ⟨ks, hks⟩ := walk_of_inSubtree hs
    obtain ⟨hw, _, hsp⟩ := h.walk_spec ks n w hn hks
    exact ⟨hw, ⟨ks, hsp.symm⟩⟩
  · rintro ⟨hw, r, hr⟩
    exact inSubtree_of_walk r n w (h.walk_of_sp hn hw hr.symm)

theorem Shape.isNode_iff {t : Trie} {sp : Nat → List Nat} (h : Shape t.mem t.brk sp)
    (hr : t.root_ = 0) {n : Nat} : IsNode t n ↔ n < t.brk := by
  unfold IsNode
  rw [hr, h.inSubtree_iff h.brk_pos, h.sp_root]
  simp

/-! ## Node creation: `ensure_child` and the descent loop of `insert` -/

theorem Grow.refl (t : Trie) : Grow t t where
  brk_le := le_refl _
  parent_eq := fun _ _ => rfl
  priority_eq := fun _ _ => rfl
  str_eq := fun _ _ => rfl
  best_terminal_eq := fun _ _ => rfl
  best_priority_eq := fun _ _ => rfl
  next_mono := fun _ _ _ _ h => h
  next_new := fun _ _ _ _ h => Or.inl h
  blank := fun n h1 h2 => absurd h2 (by omega)
  variant_eq := rfl
  root_eq := rfl
  counter_eq := rfl
  dict_eq := rfl
  dict_bytes_eq := rfl
  count_eq := rfl

theorem Grow.grow_trans {a b c : Trie} (h1 : Grow a b) (h2 : Grow b c) : Grow a c where
  brk_le := le_trans h1.brk_le h2.brk_le
  parent_eq := fun n hn => by
    rw [h2.parent_eq n (lt_of_lt_of_le hn h1.brk_le), h1.parent_eq n hn]
  priority_eq := fun n hn => by
    rw [h2.priority_eq n (lt_of_lt_of_le hn h1.brk_le), h1.priority_eq n hn]
  str_eq := fun n hn => by
    rw [h2.str_eq n (lt_of_lt_of_le hn h1.brk_le), h1.str_eq n hn]
  best_terminal_eq := fun n hn => by
    rw [h2.best_terminal_eq n (lt_of_lt_of_le hn h1.brk_le), h1.best_terminal_eq n hn]
  best_priority_eq := fun n hn => by
    rw [h2.best_priority_eq n (lt_of_lt_of_le hn h1.brk_le), h1.best_priority_eq n hn]
  next_mono := fun n k x hn h =>
    h2.next_mono n k x (lt_of_lt_of_le hn h1.brk_le) (h1.next_mono n k x hn h)
  next_new := fun n k x hn h => by
    rcases h2.next_new n k x (lt_of_lt_of_le hn h1.brk_le) h with h3 | h3
    · exact h1.next_new n k x hn h3
    · exact Or.inr (le_trans h1.brk_le h3)
  blank := fun n hn1 hn2 => by
    by_cases hb : n < b.brk
    · have h3 := h1.blank n hn1 hb
      rw [h2.str_eq n hb, h2.best_terminal_eq n hb, h2.priority_eq n hb]
      exact h3
    · exact h2.blank n (by omega) hn2
  variant_eq := by rw [h2.variant_eq, h1.variant_eq]
  root_eq := by rw [h2.root_eq, h1.root_eq]
  counter_eq := by rw [h2.counter_eq, h1.counter_eq]
  dict_eq := by rw [h2.dict_eq, h1.dict_eq]
  dict_bytes_eq := by rw [h2.dict_bytes_eq, h1.dict_bytes_eq]
  count_eq := by
    have e1 := h1.count_eq
    have e2 := h2.count_eq
    omega

theorem ensure_child_some {t : Trie} {u idx c : Nat} (h : (t.mem u).next idx = some c) :
    ensure_child t u idx = (t, c) := by
  unfold ensure_child
  rw [h]

theorem ensure_child_none_snd {t : Trie} {u idx : Nat} (h : (t.mem u).next idx = none) :
    (ensure_child t u idx).2 = t.brk := by
  unfold ensure_child
  rw [h]

theorem ensure_child_none_brk {t : Trie} {u idx : Nat} (h : (t.mem u).next idx = none) :
    (ensure_child t u idx).1.brk = t.brk + 1 := by
  unfold ensure_child
  rw [h]

theorem ensure_child_none_mem {t : Trie} {u idx : Nat} (h : (t.mem u).next idx = none)
    (hu : u ≠ t.brk) (n : Nat) :
    (ensure_child t u idx).1.mem n =
      if n = t.brk then { Node.new with parent := some u }
      else if n = u then
        { t.mem u with next := Function.update (t.mem u).next idx (some t.brk) }
      else t.mem n := by
  unfold ensure_child
  rw [h]
  by_cases h1 : n = t.brk
  · subst h1
    simp [Function.update_apply, Ne.symm hu]
  · by_cases h2 : n = u
    · subst h2
      simp [Function.update_apply, h1]
    · simp [Function.update_apply, h1, h2]

theorem ensure_child_fields (t : Trie) (u idx : Nat) :
    (ensure_child t u idx).1.variant = t.variant ∧
    (ensure_child t u idx).1.root_ = t.root_ ∧
    (ensure_child t u idx).1.access_counter_ = t.access_counter_ ∧
    (ensure_child t u idx).1.dict_ = t.dict_ ∧
    (ensure_child t u idx).1.dict_bytes_ = t.dict_bytes_ ∧
    (ensure_child t u idx).1.total_chars_ = t.total_chars_ ∧
    (ensure_child t u idx).1.node_count_ + t.brk = t.node_count_ + (ensure_child t u idx).1.brk := by
  unfold ensure_child
  cases (t.mem u).next idx with
  | none => simp; omega
  | some c => simp

/-- Effect of `ensure_child` on a well-shaped heap. -/
theorem ensure_child_spec (t : Trie) (u k : Nat) (sp : Nat → List Nat)
    (h : Shape t.mem t.brk sp) (hu : u < t.brk) (hsp : ∀ x ∈ sp u, x < 26) (hk : k ≤ 26) :
    ∃ sp2, Shape (ensure_child t u k).1.mem (ensure_child t u k).1.brk sp2 ∧
      Grow t (ensure_child t u k).1 ∧
      (∀ n, n < t.brk → sp2 n = sp n) ∧
      (ensure_child t u k).2 < (ensure_child t u k).1.brk ∧
      sp2 (ensure_child t u k).2 = sp u ++ [k] ∧
      ((ensure_child t u k).1.mem u).next k = some (ensure_child t u k).2 ∧
      (∀ n, t.brk ≤ n → n < (ensure_child t u k).1.brk → n = (ensure_child t u k).2) ∧
      ((t.mem u).next k = none → (ensure_child t u k).2 = t.brk ∧
        (ensure_child t u k).1.brk = t.brk + 1) ∧
      (∀ c, (t.mem u).next k = some c → ensure_child t u k = (t, c)) := by
  cases hn : (t.mem u).next k with
  | some c =>
    rw [ensure_child_some hn]
    obtain ⟨hc, _, _, hspc⟩ := h.child u k c hu hn
    refine ⟨sp, h, Grow.refl t, fun _ _ => rfl, hc, hspc, hn, ?_, ?_, ?_⟩
    · intro n h1 h2
      exact absurd h2 (by simp only; omega)
    · intro h1; cases h1
    · intro c2 h2
      cases h2
      rfl
  | none =>
    have hub : u ≠ t.brk := by omega
    have hmem := ensure_child_none_mem hn hub
    have hbrk := ensure_child_none_brk hn
    have hsnd := ensure_child_none_snd hn
    have hf := ensure_child_fields t u k
    have hold : ∀ n, n < t.brk → n ≠ u → (ensure_child t u k).1.mem n = t.mem n := by
      intro n h1 h2
      rw [hmem, if_neg (by omega), if_neg h2]
    have hmu : (ensure_child t u k).1.mem u =
        { t.mem u with next := Function.update (t.mem u).next k (some t.brk) } := by
      rw [hmem, if_neg hub, if_pos rfl]
    have hmb : (ensure_child t u k).1.mem t.brk = { Node.new with parent := some u } := by
      rw [hmem, if_pos rfl]
    have hnext : ∀ n j c, n < t.brk → ((ensure_child t u k).1.mem n).next j = some c →
        (n = u ∧ j = k ∧ c = t.brk) ∨ (t.mem n).next j = some c := by
      intro n j c h1 h2
      by_cases h3 : n = u
      · subst h3
        rw [hmu] at h2
        simp only [Function.update_apply] at h2
        by_cases h4 : j = k
        · rw [if_pos h4] at h2
          exact Or.inl ⟨rfl, h4, (Option.some.inj h2).symm⟩
        · rw [if_neg h4] at h2
          exact Or.inr h2
      · rw [hold n h1 h3] at h2
        exact Or.inr h2
    have hpar : ∀ n, n < t.brk → ((ensure_child t u k).1.mem n).parent = (t.mem n).parent := by
      intro n h1
      by_cases h3 : n = u
      · subst h3; rw [hmu]
      · rw [hold n h1 h3]
    have hmono : ∀ n j c, n < t.brk → (t.mem n).next j = some c →
        ((ensure_child t u k).1.mem n).next j = some c := by
      intro n j c h1 h2
      by_cases h3 : n = u
      · subst h3
        rw [hmu]
        simp only [Function.update_apply]
        by_cases h4 : j = k
        · subst h4; rw [hn] at h2; cases h2
        · rw [if_neg h4]; exact h2
      · rw [hold n h1 h3]; exact h2
    refine ⟨Function.update sp t.brk (sp u ++ [k]), ?_, ?_, ?_, ?_, ?_, ?_, ?_, ?_, ?_⟩
    · -- shape
      rw [hbrk]
      have hspo : ∀ n, n < t.brk → Function.update sp t.brk (sp u ++ [k]) n = sp n := by
        intro n h1
        rw [Function.update_apply, if_neg (by omega)]
      have hspb : Function.update sp t.brk (sp u ++ [k]) t.brk = sp u ++ [k] := by
        simp
      constructor
      · omega
      · rw [hspo 0 h.brk_pos]; exact h.sp_root
      · rw [hpar 0 h.brk_pos]; exact h.root_parent
      · intro n j c h1 h2
        by_cases h3 : n = t.brk
        · subst h3
          rw [hmb] at h2
          simp [Node.new] at h2
        · have h4 : n < t.brk := by omega
          rcases hnext n j c h4 h2 with ⟨e1, e2, e3⟩ | h5
          · subst e1 e2 e3
            refine ⟨by omega, hu, ?_, ?_⟩
            · rw [hmb]
            · rw [hspb, hspo n hu]
          · obtain ⟨g1, g2, g3, g4⟩ := h.child n j c h4 h5
            refine ⟨by omega, g2, ?_, ?_⟩
            · rw [hpar c g1]; exact g3
            · rw [hspo c g1, hspo n h4]; exact g4
      · intro c h1 h2
        by_cases h3 : c = t.brk
        · subst h3
          refine ⟨u, k, by omega, ?_⟩
          rw [hmu]
          simp
        · have h4 : c < t.brk := by omega
          obtain ⟨p, j, g1, g2⟩ := h.parent c h4 h2
          exact ⟨p, j, by omega, hmono p j c g1 g2⟩
      · intro c h1
        by_cases h3 : c = t.brk
        · subst h3
          rw [hspb]
          intro x hx
          rcases List.mem_append.mp hx with h5 | h5
          · exact le_of_lt (hsp x h5)
          · simp only [List.mem_singleton] at h5
            omega
        · rw [hspo c (by omega)]
          exact h.slot_le c (by omega)
      · intro c h1
        by_cases h3 : c = t.brk
        · subst h3
          rw [hspb, List.dropLast_concat]
          exact hsp
        · rw [hspo c (by omega)]
          exact h.slot_lt c (by omega)
    · -- grow
      constructor
      · rw [hbrk]; omega
      · exact hpar
      · intro n h1
        by_cases h3 : n = u
        · subst h3; rw [hmu]
        · rw [hold n h1 h3]
      · intro n h1
        by_cases h3 : n = u
        · subst h3; rw [hmu]
        · rw [hold n h1 h3]
      · intro n h1
        by_cases h3 : n = u
        · subst h3; rw [hmu]
        · rw [hold n h1 h3]
      · intro n h1
        by_cases h3 : n = u
        · subst h3; rw [hmu]
        · rw [hold n h1 h3]
      · exact hmono
      · intro n j c h1 h2
        rcases hnext n j c h1 h2 with ⟨_, _, e3⟩ | h5
        · exact Or.inr (by omega)
        · exact Or.inl h5
      · intro n h1 h2
        rw [hbrk] at h2
        have h3 : n = t.brk := by omega
        subst h3
        rw [hmb]
        simp [Node.new]
      · exact hf.1
      · exact hf.2.1
      · exact hf.2.2.1
      · exact hf.2.2.2.1
      · exact hf.2.2.2.2.1
      · exact hf.2.2.2.2.2.2
    · intro n h1
      rw [Function.update_apply, if_neg (by omega)]
    · rw [hsnd, hbrk]; omega
    · rw [hsnd]; simp
    · rw [hsnd, hmu]; simp
    · intro n h1 h2
      rw [hbrk] at h2
      rw [hsnd]
      omega
    · intro _
      exact ⟨hsnd, hbrk⟩
    · intro c h1
      cases h1

theorem idx_of_lower {c : Nat} (h : lower c) :
    idx_of c = (c : Int) - 97 ∧ ¬ idx_of c < 0 ∧ slot c = c - 97 ∧ slot c < 26 := by
  obtain ⟨h1, h2⟩ := h
  have e : idx_of c = (c : Int) - 97 := by
    unfold idx_of
    rw [if_neg (by omega), if_pos ⟨h1, h2⟩]
  refine ⟨e, by omega, ?_, ?_⟩ <;> (unfold slot; rw [e]; omega)

theorem canon_lower : ∀ w_raw : List Nat, ∀ c ∈ canon w_raw, lower c := by
  intro w_raw
  induction w_raw with
  | nil => intro c hc; simp [canon] at hc
  | cons a l ih =>
    intro c hc
    unfold canon at hc
    by_cases ha : isalpha a = true
    · rw [if_pos ha] at hc
      rcases List.mem_cons.mp hc with h1 | h1
      · subst h1
        simp only [isalpha, Bool.or_eq_true, Bool.and_eq_true, decide_eq_true_eq] at ha
        unfold lower tolower
        split <;> omega
      · exact ih c h1
    · rw [if_neg ha] at hc
      exact ih c hc

theorem canon_of_lower : ∀ w : List Nat, (∀ c ∈ w, lower c) → canon w = w := by
  intro w
  induction w with
  | nil => intro _; rfl
  | cons a l ih =>
    intro h
    have ha : lower a := h a (List.mem_cons_self a l)
    obtain ⟨h1, h2⟩ := ha
    have e1 : isalpha a = true := by
      simp only [isalpha, Bool.or_eq_true, Bool.and_eq_true, decide_eq_true_eq]
      omega
    have e2 : tolower a = a := by
      unfold tolower
      rw [if_neg (by omega)]
    unfold canon
    rw [if_pos e1, e2, ih (fun c hc => h c (List.mem_cons_of_mem a hc))]

/-- Canonicalisation is idempotent. -/
theorem canon_idem (w_raw : List Nat) : canon (canon w_raw) = canon w_raw :=
  canon_of_lower _ (canon_lower w_raw)

theorem Grow.grow_with_total_chars {t t2 : Trie} (h : Grow t t2) (x : Nat) :
    Grow t { t2 with total_chars_ := x } :=
  ⟨h.brk_le, h.parent_eq, h.priority_eq, h.str_eq, h.best_terminal_eq, h.best_priority_eq,
    h.next_mono, h.next_new, h.blank, h.variant_eq, h.root_eq, h.counter_eq, h.dict_eq,
    h.dict_bytes_eq, h.count_eq⟩

theorem insert_walk_cons (t : Trie) (u c : Nat) (w : List Nat) (hc : lower c) :
    insert_walk t u (c :: w) =
      insert_walk
        { (ensure_child t u (slot c)).1 with
          total_chars_ := (ensure_child t u (slot c)).1.total_chars_ + 1 }
        (ensure_child t u (slot c)).2 w := by
  have h := (idx_of_lower hc).2.1
  simp only [insert_walk, if_neg h, slot]

/-- Effect of the descent loop of `insert` on a well-shaped heap. -/
theorem insert_walk_spec : ∀ (w : List Nat) (t : Trie) (u : Nat) (sp : Nat → List Nat),
    Shape t.mem t.brk sp → u < t.brk → (∀ x ∈ sp u, x < 26) → (∀ c ∈ w, lower c) →
    ∃ sp2, Shape (insert_walk t u w).1.mem (insert_walk t u w).1.brk sp2 ∧
      Grow t (insert_walk t u w).1 ∧
      (∀ n, n < t.brk → sp2 n = sp n) ∧
      (insert_walk t u w).2 < (insert_walk t u w).1.brk ∧
      sp2 (insert_walk t u w).2 = sp u ++ slots w ∧
      (∀ n, t.brk ≤ n → n < (insert_walk t u w).1.brk →
        ∃ q, q ≠ [] ∧ sp2 n = sp u ++ q ∧ q <+: slots w) ∧
      (insert_walk t u w).1.total_chars_ = t.total_chars_ + w.length := by
  intro w
  induction w with
  | nil =>
    intro t u sp h hu _ _
    refine ⟨sp, h, Grow.refl t, fun _ _ => rfl, hu, by simp [slots, insert_walk], ?_, rfl⟩
    intro n h1 h2
    exact absurd h2 (by simp only [insert_walk]; omega)
  | cons c w ih =>
    intro t u sp h hu hsp hw
    have hc : lower c := hw c (List.mem_cons_self c w)
    have hk := (idx_of_lower hc).2.2.2
    rw [insert_walk_cons t u c w hc]
    obtain ⟨sp1, s1, g1, e1, b1, p1, _, n1, _, _⟩ :=
      ensure_child_spec t u (slot c) sp h hu hsp (le_of_lt hk)
    have hf := ensure_child_fields t u (slot c)
    have hsp1 : ∀ x ∈ sp1 (ensure_child t u (slot c)).2, x < 26 := by
      rw [p1]
      intro x hx
      rcases List.mem_append.mp hx with h5 | h5
      · exact hsp x h5
      · simp only [List.mem_singleton] at h5
        omega
    obtain ⟨sp2, s2, g2, e2, b2, p2, n2, c2⟩ :=
      ih { (ensure_child t u (slot c)).1 with
            total_chars_ := (ensure_child t u (slot c)).1.total_chars_ + 1 }
        (ensure_child t u (slot c)).2 sp1 s1 b1 hsp1
        (fun x hx => hw x (List.mem_cons_of_mem c hx))
    refine ⟨sp2, s2, Grow.grow_trans (g1.grow_with_total_chars _) g2, ?_, b2, ?_, ?_, ?_⟩
    · intro n hn
      rw [e2 n (lt_of_lt_of_le hn g1.brk_le), e1 n hn]
    · rw [p2, p1]
      simp [slots]
    · intro n h1 h2
      by_cases h3 : n < (ensure_child t u (slot c)).1.brk
      · have h4 := n1 n h1 h3
        refine ⟨[slot c], by simp, ?_, ?_⟩
        · rw [e2 n h3, h4, p1]
        · simp [slots]
      · have h3b : (ensure_child t u (slot c)).1.brk ≤ n := Nat.le_of_not_lt h3
        obtain ⟨q, _, q2, q3⟩ := n2 n h3b h2
        refine ⟨slot c :: q, by simp, ?_, ?_⟩
        · rw [q2, p1]
          simp
        · simp only [slots, List.map_cons]
          exact (List.prefix_cons_inj (slot c)).mpr q3
    · rw [c2]
      simp only [List.length_cons]
      rw [hf.2.2.2.2.2.1]
      omega

/-! ## The upward propagation loops -/

theorem update_loop_zero (v : Variant) (T : Nat) (mem : Nat → Node) (cur : Option Nat) :
    update_loop v T 0 mem cur = mem := by
  unfold update_loop
  rfl

theorem update_loop_none (v : Variant) (T fuel : Nat) (mem : Nat → Node) :
    update_loop v T fuel mem none = mem := by
  cases fuel <;> (unfold update_loop; rfl)

theorem update_loop_succ (v : Variant) (T fuel : Nat) (mem : Nat → Node) (cur : Nat) :
    update_loop v T (fuel + 1) mem (some cur) =
      if needs_update v T mem cur then
        update_loop v T fuel (set_best T mem cur) (mem cur).parent
      else mem := by
  by_cases h1 : (mem cur).best_terminal = none
  · have hn : needs_update v T mem cur := Or.inl h1
    simp [update_loop, set_best, h1, hn]
  · by_cases h2 : (mem T).priority > (mem cur).best_priority
    · have hn : needs_update v T mem cur := Or.inr (Or.inl h2)
      simp [update_loop, set_best, h1, h2, hn]
    · by_cases h3 : (mem T).priority = (mem cur).best_priority ∧
          (mem cur).best_terminal ≠ some T ∧ v = Variant.MOST_RECENT
      · have hn : needs_update v T mem cur := Or.inr (Or.inr h3)
        rw [if_pos hn]
        simp only [update_loop, set_best, Function.update_same, if_neg h1, if_neg h2, if_pos h3]
        simp
      · have hn : ¬ needs_update v T mem cur := by
          intro h4
          rcases h4 with h4 | h4 | h4
          · exact h1 h4
          · exact h2 h4
          · exact h3 h4
        rw [if_neg hn]
        simp only [update_loop, if_neg h1, if_neg h2, if_neg h3]
        simp

theorem propagate_loop_eq (T : Nat) : ∀ (fuel : Nat) (mem : Nat → Node) (cur : Option Nat),
    propagate_loop T fuel mem cur = update_loop Variant.MOST_FREQUENT T fuel mem cur := by
  intro fuel
  induction fuel with
  | zero =>
    intro mem cur
    rw [update_loop_zero]
    unfold propagate_loop
    rfl
  | succ fuel ih =>
    intro mem cur
    cases cur with
    | none =>
      rw [update_loop_none]
      unfold propagate_loop
      rfl
    | some c =>
      rw [update_loop_succ]
      simp only [propagate_loop, Function.update_same]
      by_cases h : (mem c).best_terminal = none ∨ (mem T).priority > (mem c).best_priority
      · have h2 : needs_update Variant.MOST_FREQUENT T mem c := by
          rcases h with h | h
          · exact Or.inl h
          · exact Or.inr (Or.inl h)
        rw [if_pos h, if_pos h2, ih]
        rfl
      · have h2 : ¬ needs_update Variant.MOST_FREQUENT T mem c := by
          intro h3
          rcases h3 with h3 | h3 | ⟨_, _, h3⟩
          · exact h (Or.inl h3)
          · exact h (Or.inr h3)
          · cases h3
        rw [if_neg h, if_neg h2]

theorem set_best_frame (T : Nat) (mem : Nat → Node) (cur n : Nat) :
    (set_best T mem cur n).parent = (mem n).parent ∧
    (set_best T mem cur n).next = (mem n).next ∧
    (set_best T mem cur n).priority = (mem n).priority ∧
    (set_best T mem cur n).str = (mem n).str := by
  unfold set_best
  by_cases h : n = cur
  · subst h; simp
  · simp [Function.update_apply, h]

theorem set_best_other (T : Nat) (mem : Nat → Node) {cur n : Nat} (h : n ≠ cur) :
    set_best T mem cur n = mem n := by
  unfold set_best
  simp [Function.update_apply, h]

theorem set_best_same (T : Nat) (mem : Nat → Node) (cur : Nat) :
    set_best T mem cur cur =
      { mem cur with best_priority := (mem T).priority, best_terminal := some T } := by
  unfold set_best
  simp

/-- The loops write nothing but the two cache fields. -/
theorem update_loop_frame (v : Variant) (T : Nat) :
    ∀ (fuel : Nat) (mem : Nat → Node) (cur : Option Nat) (n : Nat),
      (update_loop v T fuel mem cur n).parent = (mem n).parent ∧
      (update_loop v T fuel mem cur n).next = (mem n).next ∧
      (update_loop v T fuel mem cur n).priority = (mem n).priority ∧
      (update_loop v T fuel mem cur n).str = (mem n).str := by
  intro fuel
  induction fuel with
  | zero => intro mem cur n; rw [update_loop_zero]; simp
  | succ fuel ih =>
    intro mem cur n
    cases cur with
    | none => rw [update_loop_none]; simp
    | some c =>
      rw [update_loop_succ]
      by_cases h : needs_update v T mem c
      · rw [if_pos h]
        obtain ⟨a1, a2, a3, a4⟩ := ih (set_best T mem c) (mem c).parent n
        obtain ⟨b1, b2, b3, b4⟩ := set_best_frame T mem c n
        exact ⟨a1.trans b1, a2.trans b2, a3.trans b3, a4.trans b4⟩
      · rw [if_neg h]; simp

/-- Each node is either left alone by the loop, or its cache is overwritten with `T` and the
loop condition held for it. -/
theorem update_loop_cases (v : Variant) (T : Nat) :
    ∀ (fuel : Nat) (mem : Nat → Node) (cur : Option Nat) (n : Nat),
      update_loop v T fuel mem cur n = mem n ∨
      (needs_update v T mem n ∧ update_loop v T fuel mem cur n =
        { mem n with best_priority := (mem T).priority, best_terminal := some T }) := by
  intro fuel
  induction fuel with
  | zero => intro mem cur n; rw [update_loop_zero]; exact Or.inl rfl
  | succ fuel ih =>
    intro mem cur n
    cases cur with
    | none => rw [update_loop_none]; exact Or.inl rfl
    | some c =>
      rw [update_loop_succ]
      by_cases h : needs_update v T mem c
      · rw [if_pos h]
        have hT : (set_best T mem c T).priority = (mem T).priority :=
          (set_best_frame T mem c T).2.2.1
        by_cases hn : n = c
        · subst hn
          right
          refine ⟨h, ?_⟩
          rcases ih (set_best T mem n) (mem n).parent n with h1 | ⟨_, h1⟩
          · rw [h1, set_best_same]
          · rw [h1, hT, set_best_same]
        · rcases ih (set_best T mem c) (mem c).parent n with h1 | ⟨h0, h1⟩
          · left
            rw [h1, set_best_other T mem hn]
          · right
            rw [h1, hT, set_best_other T mem hn]
            refine ⟨?_, rfl⟩
            unfold needs_update at h0 ⊢
            rw [hT, set_best_other T mem hn] at h0
            exact h0
      · rw [if_neg h]; exact Or.inl rfl

theorem is_terminal_congr {a b : Node} (h : a.str = b.str) : a.is_terminal = b.is_terminal := by
  unfold Node.is_terminal
  rw [h]

theorem CacheOK.ok_congr {mem mem2 : Nat → Node} {brk : Nat} {sp : Nat → List Nat} {n : Nat}
    (hs : ∀ m, (mem2 m).str = (mem m).str)
    (hp : ∀ m, (mem2 m).priority = (mem m).priority)
    (hbt : (mem2 n).best_terminal = (mem n).best_terminal)
    (hbp : (mem2 n).best_priority = (mem n).best_priority)
    (h : CacheOK mem brk sp n) : CacheOK mem2 brk sp n := by
  have ht : ∀ m, (mem2 m).is_terminal = (mem m).is_terminal := fun m => is_terminal_congr (hs m)
  unfold CacheOK at h ⊢
  simp only [ht, hp, hbt, hbp]
  exact h

theorem CacheStale.stale_congr {mem mem2 : Nat → Node} {brk : Nat} {sp : Nat → List Nat} {T n : Nat}
    (hs : ∀ m, (mem2 m).str = (mem m).str)
    (hp : ∀ m, (mem2 m).priority = (mem m).priority)
    (hbt : (mem2 n).best_terminal = (mem n).best_terminal)
    (hbp : (mem2 n).best_priority = (mem n).best_priority)
    (h : CacheStale mem brk sp T n) : CacheStale mem2 brk sp T n := by
  have ht : ∀ m, (mem2 m).is_terminal = (mem m).is_terminal := fun m => is_terminal_congr (hs m)
  unfold CacheStale at h ⊢
  simp only [ht, hp, hbt, hbp]
  exact h

theorem Shape.prefix_cur {mem : Nat → Node} {brk : Nat} {sp : Nat → List Nat}
    (h : Shape mem brk sp) {n c : Nat} (hn : n < brk) (hc : c < brk)
    (hpre : sp n <+: sp c) :
    n = c ∨ ∃ p, (mem c).parent = some p ∧ sp n <+: sp p := by
  cases hp : (mem c).parent with
  | none =>
    left
    have h0 := h.parent_none hc hp
    subst h0
    rw [h.sp_root] at hpre
    have e : sp n = sp 0 := by rw [h.sp_root]; exact List.prefix_nil.mp hpre
    exact h.sp_inj hn hc e
  | some p =>
    obtain ⟨_, _, k, _, hsp⟩ := h.parent_some hc hp
    rw [hsp] at hpre
    rcases List.prefix_concat_iff.mp hpre with h1 | h1
    · left
      exact h.sp_inj hn hc (by rw [h1, hsp])
    · right
      exact ⟨p, rfl, h1⟩

/-- Main loop theorem: if every node off the remaining chain already has a correct cache and
every node on it is correct up to terminal `T`, the loop leaves every cache correct. -/
theorem update_loop_cache (v : Variant) (T brk : Nat) (sp : Nat → List Nat) :
    ∀ (fuel : Nat) (mem : Nat → Node) (cur : Option Nat),
      Shape mem brk sp → T < brk → (mem T).is_terminal = true →
      (∀ c, cur = some c → c < fuel ∧ c < brk ∧ sp c <+: sp T) →
      (∀ n, n < brk → (∀ c, cur = some c → ¬ sp n <+: sp c) → CacheOK mem brk sp n) →
      (∀ n c, n < brk → cur = some c → sp n <+: sp c → CacheStale mem brk sp T n) →
      ∀ n, n < brk → CacheOK (update_loop v T fuel mem cur) brk sp n := by
  intro fuel
  induction fuel with
  | zero =>
    intro mem cur _ _ _ hcur hoff _ n hn
    rw [update_loop_zero]
    exact hoff n hn (fun c hc => absurd (hcur c hc).1 (Nat.not_lt_zero _))
  | succ fuel ih =>
    intro mem cur hs hT hTt hcur hoff hon n hn
    cases cur with
    | none =>
      rw [update_loop_none]
      exact hoff n hn (fun c hc => by cases hc)
    | some c =>
      obtain ⟨hcf, hcb, hcT⟩ := hcur c rfl
      rw [update_loop_succ]
      by_cases hnu : needs_update v T mem c
      · rw [if_pos hnu]
        have hfr := set_best_frame T mem c
        have hstr : ∀ m, (set_best T mem c m).str = (mem m).str := fun m => (hfr m).2.2.2
        have hpri : ∀ m, (set_best T mem c m).priority = (mem m).priority :=
          fun m => (hfr m).2.2.1
        have htm : ∀ m, (set_best T mem c m).is_terminal = (mem m).is_terminal :=
          fun m => is_terminal_congr (hstr m)
        apply ih (set_best T mem c) (mem c).parent
          (hs.shape_congr (fun m => (hfr m).1) (fun m => (hfr m).2.1)) hT
          (by rw [htm]; exact hTt)
        · intro p hp
          obtain ⟨hpb, hpc, k, _, hsp⟩ := hs.parent_some hcb hp
          refine ⟨by omega, hpb, List.IsPrefix.trans ?_ hcT⟩
          rw [hsp]
          exact List.prefix_append _ _
        · intro m hm hoffm
          by_cases hmc : m = c
          · subst hmc
            have stale := hon m m hm rfl (List.prefix_refl _)
            unfold CacheOK
            rw [set_best_same]
            simp only [htm, hpri]
            refine ⟨fun h0 => Option.noConfusion h0, ?_⟩
            intro b hb
            cases hb
            refine ⟨hT, hTt, hcT, rfl, ?_⟩
            intro w hw hwt hwp
            by_cases hwT : w = T
            · rw [hwT]
            · cases hbt : (mem m).best_terminal with
              | none => exact absurd (stale.1 hbt w hw hwt hwp) hwT
              | some b2 =>
                have hmax := (stale.2 b2 hbt).2.2.2.2.2 w hw hwt hwT hwp
                rcases hnu with h1 | h1 | h1
                · rw [hbt] at h1; cases h1
                · exact le_trans hmax (le_of_lt h1)
                · rw [h1.1]; exact hmax
          · have hnp : ¬ sp m <+: sp c := by
              intro hpre
              rcases hs.prefix_cur hm hcb hpre with h1 | ⟨p, hp, h1⟩
              · exact hmc h1
              · exact hoffm p hp h1
            have h1 := hoff m hm (fun c2 hc2 => by cases hc2; exact hnp)
            exact h1.ok_congr hstr hpri (by rw [set_best_other T mem hmc])
              (by rw [set_best_other T mem hmc])
        · intro m p hm hp hpre
          obtain ⟨_, _, k, _, hsp⟩ := hs.parent_some hcb hp
          have hmc : m ≠ c := by
            intro e
            subst e
            have := hpre.length_le
            rw [hsp] at this
            simp at this
          have h1 := hon m c hm rfl (by
            rw [hsp]
            exact List.IsPrefix.trans hpre (List.prefix_append _ _))
          exact h1.stale_congr hstr hpri (by rw [set_best_other T mem hmc])
            (by rw [set_best_other T mem hmc])
        · exact hn
      · rw [if_neg hnu]
        by_cases hpre : sp n <+: sp c
        · have stn := hon n c hn rfl hpre
          have stc := hon c c hcb rfl (List.prefix_refl _)
          cases hbc : (mem c).best_terminal with
          | none => exact absurd (Or.inl hbc) hnu
          | some b =>
            obtain ⟨hb, hbt, hcb2, hb1, hb2, _⟩ := stc.2 b hbc
            have hle : (mem T).priority ≤ (mem c).best_priority := by
              by_contra hlt
              exact hnu (Or.inr (Or.inl (lt_of_not_le hlt)))
            have hbT : b ≠ T := by
              intro e
              have := hb2 e
              omega
            have hpb := hb1 hbT
            have hnb : sp n <+: sp b := List.IsPrefix.trans hpre hcb2
            unfold CacheOK
            constructor
            · intro h0
              exact absurd (stn.1 h0 b hb hbt hnb) hbT
            · intro b2 hb2n
              obtain ⟨g1, g2, g3, g4, g5, g6⟩ := stn.2 b2 hb2n
              have hbn : (mem b).priority ≤ (mem n).best_priority := g6 b hb hbt hbT hnb
              have hTn : (mem T).priority ≤ (mem n).best_priority := by omega
              have hb2T : b2 ≠ T := by
                intro e
                have := g5 e
                omega
              refine ⟨g1, g2, g3, g4 hb2T, ?_⟩
              intro w hw hwt hwp
              by_cases hwT : w = T
              · rw [hwT]; exact hTn
              · exact g6 w hw hwt hwT hwp
        · exact hoff n hn (fun c2 hc2 => by cases hc2; exact hpre)

/-! ## The state invariant and its preservation by `update_priority` -/

/-- A node whose path ends with the terminator slot has nothing below it. -/
theorem Shape.leaf {mem : Nat → Node} {brk : Nat} {sp : Nat → List Nat}
    (h : Shape mem brk sp) {T w : Nat} {l : List Nat} (hT : T < brk) (hw : w < brk)
    (hl : sp T = l ++ [26]) (hpre : sp T <+: sp w) : w = T := by
  obtain ⟨r, hr⟩ := hpre
  cases r with
  | nil =>
    rw [List.append_nil] at hr
    exact h.sp_inj hw hT hr.symm
  | cons a r =>
    exfalso
    have h1 := h.slot_lt w hw 26
    rw [← hr, hl, List.dropLast_append_cons] at h1
    have h2 := h1 (by simp)
    omega

/-- The empty trie satisfies the invariant. -/
theorem new_good (v : Variant) : Good (Trie.new v) (fun _ => []) := by
  have hm : ∀ n, (Trie.new v).mem n = Node.new := by
    intro n
    unfold Trie.new
    simp only [Function.update_apply]
    split <;> rfl
  have hb : (Trie.new v).brk = 1 := rfl
  have hz : ∀ c, c < (Trie.new v).brk → c = 0 := by
    intro c hc
    rw [hb] at hc
    omega
  constructor
  · constructor
    · rw [hb]; omega
    · rfl
    · rw [hm]; rfl
    · intro u k c _ hc
      rw [hm] at hc
      simp [Node.new] at hc
    · intro c hc h0
      exact absurd (hz c hc) h0
    · intro c _ x hx
      simp at hx
    · intro c _ x hx
      simp at hx
  · rfl
  · intro c _
    rw [hm]
    simp [Node.new, Node.is_terminal]
  · rw [hm]; rfl
  · intro c hc h0
    exact absurd (hz c hc) h0
  · intro c _ h
    rw [hm] at h
    simp [Node.new, Node.is_terminal] at h
  · intro n _
    unfold CacheOK
    simp only [hm]
    constructor
    · intro _ w _ hw
      simp [Node.new, Node.is_terminal] at hw
    · intro b hb
      simp [Node.new] at hb
  · intro _ c _ h
    rw [hm] at h
    simp [Node.new, Node.is_terminal] at h
  · exact le_refl _
  · intro c i _ h
    rw [hm] at h
    simp [Node.new] at h
  · rfl

theorem Good.good_with_total_chars {t : Trie} {sp : Nat → List Nat} (g : Good t sp) (x : Nat) :
    Good { t with total_chars_ := x } sp :=
  ⟨g.shape, g.root, g.term_iff, g.root_slot, g.has_term, g.prio_nonneg, g.cache, g.recent,
    g.counter_nonneg, g.str, g.count⟩

theorem update_priority_some {t : Trie} {T : Nat} (h : (t.mem T).is_terminal = true) :
    update_priority t (some T) =
      some { t with
        access_counter_ := new_counter t
        mem := update_loop t.variant T t.brk (pre_loop_mem t T) (t.mem T).parent } := by
  unfold update_priority
  simp only [h, if_true]
  cases hv : t.variant <;>
    simp [new_counter, new_priority, pre_loop_mem, hv, Function.update_same]

theorem update_priority_not_terminal {t : Trie} {T : Nat} (h : (t.mem T).is_terminal = false) :
    update_priority t (some T) = none := by
  unfold update_priority
  simp [h]

theorem pre_loop_mem_other (t : Trie) {T n : Nat} (h : n ≠ T) :
    pre_loop_mem t T n = t.mem n := by
  unfold pre_loop_mem
  simp [Function.update_apply, h]

theorem pre_loop_mem_same (t : Trie) (T : Nat) :
    pre_loop_mem t T T =
      { t.mem T with
        priority := new_priority t T, best_priority := new_priority t T
        best_terminal := some T } := by
  unfold pre_loop_mem
  simp

theorem pre_loop_mem_frame (t : Trie) (T n : Nat) :
    (pre_loop_mem t T n).parent = (t.mem n).parent ∧
    (pre_loop_mem t T n).next = (t.mem n).next ∧
    (pre_loop_mem t T n).str = (t.mem n).str := by
  by_cases h : n = T
  · subst h; rw [pre_loop_mem_same]; simp
  · rw [pre_loop_mem_other t h]; simp

theorem Good.priority_lt_new {t : Trie} {sp : Nat → List Nat} (g : Good t sp) {T : Nat}
    (hT : T < t.brk) (hTt : (t.mem T).is_terminal = true) :
    (t.mem T).priority < new_priority t T ∧ 1 ≤ new_priority t T ∧
    (t.variant = Variant.MOST_RECENT → new_priority t T = new_counter t) := by
  have h0 := g.prio_nonneg T hT hTt
  have h1 := g.counter_nonneg
  cases hv : t.variant with
  | MOST_RECENT =>
    have h2 := g.recent hv T hT hTt
    simp only [new_priority, new_counter, hv]
    refine ⟨by omega, by omega, ?_⟩
    simp
  | MOST_FREQUENT =>
    simp only [new_priority, hv]
    refine ⟨by omega, by omega, ?_⟩
    simp

theorem update_priority_eq {t : Trie} {T : Nat} (h : (t.mem T).is_terminal = true) :
    update_priority t (some T) = some (after_update t T) :=
  update_priority_some h

theorem after_update_frame (t : Trie) (T n : Nat) :
    ((after_update t T).mem n).parent = (t.mem n).parent ∧
    ((after_update t T).mem n).next = (t.mem n).next ∧
    ((after_update t T).mem n).str = (t.mem n).str ∧
    ((after_update t T).mem n).priority = (pre_loop_mem t T n).priority := by
  obtain ⟨a1, a2, a3, a4⟩ :=
    update_loop_frame t.variant T t.brk (pre_loop_mem t T) (t.mem T).parent n
  obtain ⟨b1, b2, b3⟩ := pre_loop_mem_frame t T n
  exact ⟨a1.trans b1, a2.trans b2, a4.trans b3, a3⟩

theorem after_update_priority_same (t : Trie) (T : Nat) :
    ((after_update t T).mem T).priority = new_priority t T := by
  rw [(after_update_frame t T T).2.2.2, pre_loop_mem_same]

theorem after_update_priority_other (t : Trie) {T n : Nat} (h : n ≠ T) :
    ((after_update t T).mem n).priority = (t.mem n).priority := by
  rw [(after_update_frame t T n).2.2.2, pre_loop_mem_other t h]

theorem after_update_terminal (t : Trie) (T n : Nat) :
    ((after_update t T).mem n).is_terminal = (t.mem n).is_terminal :=
  is_terminal_congr (after_update_frame t T n).2.2.1

/-- The invariant holds again after `update_priority` on a terminal node. -/
theorem after_update_good {t : Trie} {sp : Nat → List Nat} (g : Good t sp) {T : Nat}
    (hT : T < t.brk) (hTt : (t.mem T).is_terminal = true) : Good (after_update t T) sp := by
  have hfr := after_update_frame t T
  have htm := after_update_terminal t T
  obtain ⟨hlt, hone, hrec⟩ := g.priority_lt_new hT hTt
  obtain ⟨l, hl⟩ := (g.term_iff T hT).mp hTt
  have hpf := pre_loop_mem_frame t T
  have hptm : ∀ m, (pre_loop_mem t T m).is_terminal = (t.mem m).is_terminal :=
    fun m => is_terminal_congr (hpf m).2.2
  have hshape0 : Shape (pre_loop_mem t T) t.brk sp :=
    g.shape.shape_congr (fun m => (hpf m).1) (fun m => (hpf m).2.1)
  constructor
  · exact g.shape.shape_congr (fun m => (hfr m).1) (fun m => (hfr m).2.1)
  · exact g.root
  · intro c hc
    rw [htm]
    exact g.term_iff c hc
  · rw [(hfr 0).2.1]
    exact g.root_slot
  · intro c hc h0
    obtain ⟨w, hw, hwt, hwp⟩ := g.has_term c hc h0
    exact ⟨w, hw, by rw [htm]; exact hwt, hwp⟩
  · intro c hc hct
    rw [htm] at hct
    by_cases h : c = T
    · subst h
      rw [after_update_priority_same]
      omega
    · rw [after_update_priority_other t h]
      exact g.prio_nonneg c hc hct
  · -- caches
    apply update_loop_cache t.variant T t.brk sp t.brk (pre_loop_mem t T) (t.mem T).parent
      hshape0 hT (by rw [hptm]; exact hTt)
    · intro c hc
      obtain ⟨h1, _, k, _, h3⟩ := g.shape.parent_some hT hc
      refine ⟨h1, h1, ?_⟩
      rw [h3]
      exact List.prefix_append _ _
    · intro n hn hoff
      by_cases hnT : n = T
      · subst hnT
        unfold CacheOK
        rw [pre_loop_mem_same]
        simp only [hptm]
        refine ⟨fun h0 => Option.noConfusion h0, ?_⟩
        intro b hb
        cases hb
        refine ⟨hT, hTt, List.prefix_refl _, ?_, ?_⟩
        · rw [pre_loop_mem_same]
        · intro w hw _ hwp
          have := g.shape.leaf hT hw hl hwp
          subst this
          rw [pre_loop_mem_same]
      · have hnp : ¬ sp n <+: sp T := by
          intro hpre
          rcases g.shape.prefix_cur hn hT hpre with h1 | ⟨p, hp, h1⟩
          · exact hnT h1
          · exact hoff p hp h1
        have ok := g.cache n hn
        unfold CacheOK at ok ⊢
        simp only [hptm, pre_loop_mem_other t hnT]
        constructor
        · exact ok.1
        · intro b hb
          obtain ⟨g1, g2, g3, g4, g5⟩ := ok.2 b hb
          have hbT : b ≠ T := by
            intro e
            subst e
            exact hnp g3
          refine ⟨g1, g2, g3, ?_, ?_⟩
          · rw [pre_loop_mem_other t hbT]; exact g4
          · intro w hw hwt hwp
            have hwT : w ≠ T := by
              intro e
              subst e
              exact hnp hwp
            rw [pre_loop_mem_other t hwT]
            exact g5 w hw hwt hwp
    · intro n c hn hc hpre
      obtain ⟨_, _, k, _, h3⟩ := g.shape.parent_some hT hc
      have hnT : n ≠ T := by
        intro e
        subst e
        have := hpre.length_le
        rw [h3] at this
        simp at this
      have ok := g.cache n hn
      unfold CacheOK at ok
      unfold CacheStale
      simp only [hptm, pre_loop_mem_other t hnT]
      constructor
      · intro h0 w hw hwt hwp
        exact absurd hwp (ok.1 h0 w hw hwt)
      · intro b hb
        obtain ⟨g1, g2, g3, g4, g5⟩ := ok.2 b hb
        refine ⟨g1, g2, g3, ?_, ?_, ?_⟩
        · intro hbT
          rw [pre_loop_mem_other t hbT]; exact g4
        · intro hbT
          subst hbT
          rw [pre_loop_mem_same, ← g4]
          exact hlt
        · intro w hw hwt hwT hwp
          rw [pre_loop_mem_other t hwT]
          exact g5 w hw hwt hwp
  · intro hv c hc hct
    rw [htm] at hct
    show ((after_update t T).mem c).priority ≤ new_counter t
    by_cases h : c = T
    · subst h
      rw [after_update_priority_same, hrec hv]
    · rw [after_update_priority_other t h]
      have h1 := g.recent hv c hc hct
      have hv2 : t.variant = Variant.MOST_RECENT := hv
      have h2 : new_counter t = t.access_counter_ + 1 := by
        simp [new_counter, hv2]
      omega
  · show 0 ≤ new_counter t
    have := g.counter_nonneg
    unfold new_counter
    split <;> omega
  · intro c i hc hs
    rw [(hfr c).2.2.1] at hs
    exact g.str c i hc hs
  · exact g.count

/-! ## Closed forms of `insert` -/

/-- When the path of `w` already exists below `u`, the descent loop creates nothing. -/
theorem insert_walk_of_walk : ∀ (w : List Nat) (t : Trie) (u v : Nat),
    (∀ c ∈ w, lower c) → walk t.mem u (slots w) = some v →
    insert_walk t u w = ({ t with total_chars_ := t.total_chars_ + w.length }, v) := by
  intro w
  induction w with
  | nil =>
    intro t u v _ h
    simp only [slots, List.map_nil, walk, Option.some.injEq] at h
    subst h
    rfl
  | cons c w ih =>
    intro t u v hw h
    have hc : lower c := hw c (List.mem_cons_self c w)
    simp only [slots, List.map_cons, walk] at h
    cases hk : (t.mem u).next (slot c) with
    | none => rw [hk] at h; cases h
    | some x =>
      rw [hk] at h
      rw [insert_walk_cons t u c w hc, ensure_child_some hk]
      rw [ih { t with total_chars_ := t.total_chars_ + 1 } x v
        (fun y hy => hw y (List.mem_cons_of_mem c hy)) h]
      simp only [List.length_cons, Prod.mk.injEq, and_true]
      congr 1
      omega

theorem insert_empty {t : Trie} {w_raw : List Nat} (h : canon w_raw = []) :
    insert t w_raw = (t, none) := by
  unfold insert
  simp [h]

theorem insert_nonempty {t : Trie} {w_raw : List Nat} (h : canon w_raw ≠ []) :
    insert t w_raw =
      if (((ensure_child (insert_walk t t.root_ (canon w_raw)).1
            (insert_walk t t.root_ (canon w_raw)).2 26).1.mem
          (ensure_child (insert_walk t t.root_ (canon w_raw)).1
            (insert_walk t t.root_ (canon w_raw)).2 26).2).is_terminal) = true then
        ({ (ensure_child (insert_walk t t.root_ (canon w_raw)).1
              (insert_walk t t.root_ (canon w_raw)).2 26).1 with
            total_chars_ := (ensure_child (insert_walk t t.root_ (canon w_raw)).1
              (insert_walk t t.root_ (canon w_raw)).2 26).1.total_chars_ + 1 },
          some (ensure_child (insert_walk t t.root_ (canon w_raw)).1
            (insert_walk t t.root_ (canon w_raw)).2 26).2)
      else
        (insert_new (ensure_child (insert_walk t t.root_ (canon w_raw)).1
            (insert_walk t t.root_ (canon w_raw)).2 26).1
          (ensure_child (insert_walk t t.root_ (canon w_raw)).1
            (insert_walk t t.root_ (canon w_raw)).2 26).2 (canon w_raw),
          some (ensure_child (insert_walk t t.root_ (canon w_raw)).1
            (insert_walk t t.root_ (canon w_raw)).2 26).2) := by
  have he : (canon w_raw).isEmpty = false := by
    cases hc : canon w_raw with
    | nil => exact absurd hc h
    | cons a l => rfl
  unfold insert
  simp only [he, Bool.false_eq_true, if_false]
  split
  · rfl
  · simp only [insert_new, with_word, Prod.mk.injEq, and_true]
    congr 1
    simp [Function.update_same, Function.update_idem]

/-- Re-inserting a stored word: the terminal is returned and only `total_chars_` moves. -/
theorem insert_existing {t : Trie} {w_raw : List Nat} {T : Nat} (h : canon w_raw ≠ [])
    (hw : walk t.mem t.root_ (slots (canon w_raw) ++ [26]) = some T)
    (hT : (t.mem T).is_terminal = true) :
    insert t w_raw =
      ({ t with total_chars_ := t.total_chars_ + (canon w_raw).length + 1 }, some T) := by
  rw [walk_append] at hw
  cases h1 : walk t.mem t.root_ (slots (canon w_raw)) with
  | none => rw [h1] at hw; cases hw
  | some v =>
    rw [h1] at hw
    simp only [Option.some_bind, walk] at hw
    cases h2 : (t.mem v).next 26 with
    | none => rw [h2] at hw; cases hw
    | some x =>
      rw [h2] at hw
      cases hw
      rw [insert_nonempty h, insert_walk_of_walk (canon w_raw) t t.root_ v (canon_lower w_raw) h1]
      have h3 : (({ t with total_chars_ := t.total_chars_ + (canon w_raw).length } : Trie).mem
          v).next 26 = some T := h2
      rw [ensure_child_some h3]
      simp only []
      rw [if_pos hT]

/-! ## `insert` of a word that is not stored yet -/

theorem slots_lt {w : List Nat} (hw : ∀ c ∈ w, lower c) : ∀ x ∈ slots w, x < 26 := by
  intro x hx
  simp only [slots, List.mem_map] at hx
  obtain ⟨c, hc, rfl⟩ := hx
  exact (idx_of_lower (hw c hc)).2.2.2

theorem unslots_slots {w : List Nat} (hw : ∀ c ∈ w, lower c) : unslots (slots w) = w := by
  induction w with
  | nil => rfl
  | cons a l ih =>
    have ha : lower a := hw a (List.mem_cons_self a l)
    have h1 := (idx_of_lower ha).2.2.1
    simp only [unslots, slots, List.map_cons, List.map_map] at ih ⊢
    rw [ih (fun c hc => hw c (List.mem_cons_of_mem a hc)), h1]
    congr 1
    unfold lower at ha
    omega

theorem insert_path_spec {t : Trie} {sp : Nat → List Nat} (g : Good t sp) {w : List Nat}
    (hw : ∀ c ∈ w, lower c) (hnone : walk t.mem 0 (slots w ++ [26]) = none) :
    ∃ sp2, PathPost t sp w
      (ensure_child (insert_walk t t.root_ w).1 (insert_walk t t.root_ w).2 26).1
      (ensure_child (insert_walk t t.root_ w).1 (insert_walk t t.root_ w).2 26).2 sp2 := by
  rw [g.root]
  have hs := slots_lt hw
  obtain ⟨sp1, s1, g1, e1, b1, p1, n1, c1⟩ :=
    insert_walk_spec w t 0 sp g.shape g.shape.brk_pos
      (by rw [g.shape.sp_root]; intro x hx; simp at hx) hw
  rw [g.shape.sp_root, List.nil_append] at p1
  obtain ⟨sp2, s2, g2, e2, b2, p2, _, n2, hnc, _⟩ :=
    ensure_child_spec (insert_walk t 0 w).1 (insert_walk t 0 w).2 26 sp1 s1 b1
      (by rw [p1]; exact hs) (le_refl 26)
  have hf := ensure_child_fields (insert_walk t 0 w).1 (insert_walk t 0 w).2 26
  cases hslot : ((insert_walk t 0 w).1.mem (insert_walk t 0 w).2).next 26 with
  | some c =>
    exfalso
    obtain ⟨hc, _, _, hspc⟩ := s1.child _ 26 c b1 hslot
    rw [p1] at hspc
    by_cases hold : c < t.brk
    · have h1 := g.shape.walk_sp c hold
      rw [← e1 c hold, hspc, hnone] at h1
      cases h1
    · obtain ⟨q, _, hq1, hq2⟩ := n1 c (Nat.le_of_not_lt hold) hc
      rw [g.shape.sp_root, List.nil_append] at hq1
      have h26 : (26 : Nat) ∈ slots w := by
        obtain ⟨r, hr⟩ := hq2
        rw [← hr]
        apply List.mem_append_left
        rw [← hq1, hspc]
        simp
      have := hs 26 h26
      omega
  | none =>
    obtain ⟨hT, hbrk⟩ := hnc hslot
    refine ⟨sp2, s2, g1.grow_trans g2, ?_, ?_, b2, ?_, ?_, ?_⟩
    · intro n hn
      rw [e2 n (lt_of_lt_of_le hn g1.brk_le), e1 n hn]
    · rw [hT]; exact g1.brk_le
    · rw [p2, p1]
    · intro n h1 h2 h3
      rw [hbrk] at h2
      rw [hT] at h3
      have h4 : n < (insert_walk t 0 w).1.brk := by omega
      obtain ⟨q, hq0, hq1, hq2⟩ := n1 n h1 h4
      rw [g.shape.sp_root, List.nil_append] at hq1
      rw [e2 n h4, hq1]
      exact ⟨hq0, hq2⟩
    · rw [hf.2.2.2.2.2.1, c1]

theorem insert_new_mem (t2 : Trie) (T : Nat) (w : List Nat) :
    (insert_new t2 T w).mem =
      update_loop Variant.MOST_FREQUENT T t2.brk (ins_mem0 t2 T) (t2.mem T).parent := by
  simp only [insert_new, propagate_if_better, with_word, ins_mem0, propagate_loop_eq,
    Function.update_same, Function.update_idem]

theorem insert_new_fields (t2 : Trie) (T : Nat) (w : List Nat) :
    (insert_new t2 T w).brk = t2.brk ∧
    (insert_new t2 T w).variant = t2.variant ∧
    (insert_new t2 T w).root_ = t2.root_ ∧
    (insert_new t2 T w).access_counter_ = t2.access_counter_ ∧
    (insert_new t2 T w).node_count_ = t2.node_count_ ∧
    (insert_new t2 T w).dict_ = t2.dict_ ++ [w] ∧
    (insert_new t2 T w).total_chars_ = t2.total_chars_ + 1 ∧
    (insert_new t2 T w).dict_bytes_ = t2.dict_bytes_ + w.length :=
  ⟨rfl, rfl, rfl, rfl, rfl, rfl, rfl, rfl⟩

theorem ins_mem0_other (t2 : Trie) {T n : Nat} (h : n ≠ T) : ins_mem0 t2 T n = t2.mem n := by
  unfold ins_mem0
  simp [Function.update_apply, h]

theorem ins_mem0_same (t2 : Trie) (T : Nat) :
    ins_mem0 t2 T T =
      { t2.mem T with
        str := some t2.dict_.length, priority := 0, best_priority := 0
        best_terminal := some T } := by
  unfold ins_mem0
  simp

theorem insert_new_frame (t2 : Trie) (T : Nat) (w : List Nat) (n : Nat) :
    ((insert_new t2 T w).mem n).parent = (t2.mem n).parent ∧
    ((insert_new t2 T w).mem n).next = (t2.mem n).next ∧
    ((insert_new t2 T w).mem n).str = (ins_mem0 t2 T n).str ∧
    ((insert_new t2 T w).mem n).priority = (ins_mem0 t2 T n).priority := by
  rw [insert_new_mem]
  obtain ⟨a1, a2, a3, a4⟩ :=
    update_loop_frame Variant.MOST_FREQUENT T t2.brk (ins_mem0 t2 T) (t2.mem T).parent n
  refine ⟨a1.trans ?_, a2.trans ?_, a4, a3⟩
  · by_cases h : n = T
    · subst h; rw [ins_mem0_same]
    · rw [ins_mem0_other t2 h]
  · by_cases h : n = T
    · subst h; rw [ins_mem0_same]
    · rw [ins_mem0_other t2 h]

theorem PathPost.preProp {t : Trie} {sp : Nat → List Nat} {w : List Nat} {t2 : Trie} {T : Nat}
    {sp2 : Nat → List Nat} (p : PathPost t sp w t2 T sp2) : PreProp t sp t2 T sp2 := by
  have hTo : ∀ n, n < t.brk → n ≠ T := by
    intro n hn e
    have := p.T_new
    omega
  have hfr : ∀ n, (ins_mem0 t2 T n).parent = (t2.mem n).parent ∧
      (ins_mem0 t2 T n).next = (t2.mem n).next := by
    intro n
    by_cases h : n = T
    · subst h; rw [ins_mem0_same]; simp
    · rw [ins_mem0_other t2 h]; simp
  have hterm_old : ∀ n, n < t.brk → (ins_mem0 t2 T n).is_terminal = (t.mem n).is_terminal := by
    intro n hn
    rw [ins_mem0_other t2 (hTo n hn)]
    exact is_terminal_congr (p.grow.str_eq n hn)
  have hterm_T : (ins_mem0 t2 T T).is_terminal = true := by
    rw [ins_mem0_same]; rfl
  constructor
  · exact p.shape.shape_congr (fun n => (hfr n).1) (fun n => (hfr n).2)
  · exact hterm_T
  · rw [ins_mem0_same]
  · rw [ins_mem0_same]
  · rw [ins_mem0_same]
  · exact hTo
  · exact hterm_old
  · intro n hn
    rw [ins_mem0_other t2 (hTo n hn)]
    exact p.grow.priority_eq n hn
  · intro n hn
    rw [ins_mem0_other t2 (hTo n hn)]
    exact p.grow.best_terminal_eq n hn
  · intro n hn
    rw [ins_mem0_other t2 (hTo n hn)]
    exact p.grow.best_priority_eq n hn
  · intro n hn hnt
    by_cases h1 : n = T
    · exact Or.inl h1
    · right
      by_cases h2 : n < t.brk
      · exact ⟨h2, by rw [← hterm_old n h2]; exact hnt⟩
      · exfalso
        rw [ins_mem0_other t2 h1] at hnt
        have := (p.grow.blank n (Nat.le_of_not_lt h2) hn).1
        simp [Node.is_terminal, this] at hnt
  · intro n h1 h2 h3
    rw [ins_mem0_other t2 h3]
    exact (p.grow.blank n h1 h2).2.1
  · intro x hx hpre
    exact p.shape.leaf p.T_lt hx p.T_sp hpre
  · intro n h1 h2
    by_cases h3 : n = T
    · subst h3; exact List.prefix_refl _
    · rw [p.T_sp]
      exact List.IsPrefix.trans (p.new_sp n h1 h2 h3).2 (List.prefix_append _ _)
  · intro n x hn hx hpre
    have := p.shape.le_of_sp hn (lt_of_lt_of_le hx p.grow.brk_le) hpre
    omega

/-- After the propagation of a fresh insertion every cache is correct. -/
theorem insert_new_cache {t : Trie} {sp : Nat → List Nat} {w : List Nat} {t2 : Trie} {T : Nat}
    {sp2 : Nat → List Nat} (g : Good t sp) (p : PathPost t sp w t2 T sp2) :
    ∀ n, n < t2.brk → CacheOK (insert_new t2 T w).mem t2.brk sp2 n := by
  have q := p.preProp
  have hspo : ∀ a b, a < t.brk → b < t.brk → (sp2 a <+: sp2 b ↔ sp a <+: sp b) := by
    intro a b ha hb
    rw [p.sp_eq a ha, p.sp_eq b hb]
  rw [insert_new_mem]
  apply update_loop_cache Variant.MOST_FREQUENT T t2.brk sp2 t2.brk (ins_mem0 t2 T)
    (t2.mem T).parent q.shape0 p.T_lt q.term_T
  · intro c hc
    obtain ⟨h1, _, k, _, h3⟩ := p.shape.parent_some p.T_lt hc
    refine ⟨h1, h1, ?_⟩
    rw [h3]
    exact List.prefix_append _ _
  · intro n hn hoff
    by_cases hnT : n = T
    · subst hnT
      unfold CacheOK
      rw [q.bt_T, q.bp_T]
      refine ⟨fun h0 => Option.noConfusion h0, ?_⟩
      intro b hb
      cases hb
      refine ⟨hn, q.term_T, List.prefix_refl _, q.prio_T, ?_⟩
      intro x hx _ hxp
      rw [q.leaf x hx hxp, q.prio_T]
    · have hnp : ¬ sp2 n <+: sp2 T := by
        intro hpre
        rcases p.shape.prefix_cur hn p.T_lt hpre with h1 | ⟨c, hc, h1⟩
        · exact hnT h1
        · exact hoff c hc h1
      have hno : n < t.brk := by
        by_contra hge
        exact hnp (q.chain n (Nat.le_of_not_lt hge) hn)
      have ok := g.cache n hno
      unfold CacheOK at ok ⊢
      rw [q.bt_old n hno, q.bp_old n hno]
      constructor
      · intro h0 x hx hxt hxp
        rcases q.term_cases x hx hxt with e | ⟨hxo, hxt2⟩
        · subst e; exact hnp hxp
        · exact ok.1 h0 x hxo hxt2 ((hspo n x hno hxo).mp hxp)
      · intro b hb
        obtain ⟨g1, g2, g3, g4, g5⟩ := ok.2 b hb
        refine ⟨lt_of_lt_of_le g1 p.grow.brk_le, ?_, (hspo n b hno g1).mpr g3, ?_, ?_⟩
        · rw [q.term_old b g1]; exact g2
        · rw [q.prio_old b g1]; exact g4
        · intro x hx hxt hxp
          rcases q.term_cases x hx hxt with e | ⟨hxo, hxt2⟩
          · subst e; exact absurd hxp hnp
          · rw [q.prio_old x hxo]
            exact g5 x hxo hxt2 ((hspo n x hno hxo).mp hxp)
  · intro n c hn hc hpre
    obtain ⟨_, _, k, _, h3⟩ := p.shape.parent_some p.T_lt hc
    by_cases hno : n < t.brk
    · have ok := g.cache n hno
      unfold CacheOK at ok
      unfold CacheStale
      rw [q.bt_old n hno, q.bp_old n hno]
      constructor
      · intro h0 x hx hxt hxp
        rcases q.term_cases x hx hxt with e | ⟨hxo, hxt2⟩
        · exact e
        · exact absurd ((hspo n x hno hxo).mp hxp) (ok.1 h0 x hxo hxt2)
      · intro b hb
        obtain ⟨g1, g2, g3, g4, g5⟩ := ok.2 b hb
        refine ⟨lt_of_lt_of_le g1 p.grow.brk_le, ?_, (hspo n b hno g1).mpr g3, ?_, ?_, ?_⟩
        · rw [q.term_old b g1]; exact g2
        · intro _
          rw [q.prio_old b g1]; exact g4
        · intro e
          exact absurd e (q.T_not_old b g1)
        · intro x hx hxt hxT hxp
          rcases q.term_cases x hx hxt with e | ⟨hxo, hxt2⟩
          · exact absurd e hxT
          · rw [q.prio_old x hxo]
            exact g5 x hxo hxt2 ((hspo n x hno hxo).mp hxp)
    · have hge : t.brk ≤ n := Nat.le_of_not_lt hno
      have hnT : n ≠ T := by
        intro e
        subst e
        have := hpre.length_le
        rw [h3] at this
        simp at this
      unfold CacheStale
      rw [q.bt_new n hge hn hnT]
      constructor
      · intro _ x hx hxt hxp
        rcases q.term_cases x hx hxt with e | ⟨hxo, _⟩
        · exact e
        · exact absurd (q.above n x hn hxo hxp) hno
      · intro b hb
        cases hb

/-- The invariant holds again after an insertion that created a new terminal. -/
theorem insert_new_good {t : Trie} {sp : Nat → List Nat} {w : List Nat} {t2 : Trie} {T : Nat}
    {sp2 : Nat → List Nat} (g : Good t sp) (p : PathPost t sp w t2 T sp2)
    (hw : ∀ c ∈ w, lower c) (hne : w ≠ []) : Good (insert_new t2 T w) sp2 := by
  have q := p.preProp
  have hfr := insert_new_frame t2 T w
  have htm : ∀ n, ((insert_new t2 T w).mem n).is_terminal = (ins_mem0 t2 T n).is_terminal :=
    fun n => is_terminal_congr (hfr n).2.2.1
  have hs := slots_lt hw
  have hnew26 : ∀ n, t.brk ≤ n → n < t2.brk → n ≠ T → ∀ l, sp2 n ≠ l ++ [26] := by
    intro n h1 h2 h3 l e
    obtain ⟨_, r, hr⟩ := p.new_sp n h1 h2 h3
    have h26 : (26 : Nat) ∈ slots w := by
      rw [← hr, e]
      simp
    have := hs 26 h26
    omega
  constructor
  · exact p.shape.shape_congr (fun n => (hfr n).1) (fun n => (hfr n).2.1)
  · show t2.root_ = 0
    rw [p.grow.root_eq]; exact g.root
  · intro c hc
    rw [htm]
    by_cases hcT : c = T
    · subst hcT
      exact ⟨fun _ => ⟨slots w, p.T_sp⟩, fun _ => q.term_T⟩
    · by_cases hco : c < t.brk
      · rw [q.term_old c hco, p.sp_eq c hco]
        exact g.term_iff c hco
      · constructor
        · intro h1
          rcases q.term_cases c hc h1 with e | ⟨e, _⟩
          · exact absurd e hcT
          · exact absurd e hco
        · rintro ⟨l, hl⟩
          exact absurd hl (hnew26 c (Nat.le_of_not_lt hco) hc hcT l)
  · rw [(hfr 0).2.1]
    cases h0 : (t2.mem 0).next 26 with
    | none => rfl
    | some c =>
      exfalso
      rcases p.grow.next_new 0 26 c g.shape.brk_pos h0 with h1 | h1
      · rw [g.root_slot] at h1; cases h1
      · obtain ⟨hc, _, _, hspc⟩ := p.shape.child 0 26 c p.shape.brk_pos h0
        rw [p.shape.sp_root, List.nil_append] at hspc
        by_cases hcT : c = T
        · subst hcT
          rw [p.T_sp] at hspc
          have hl := congrArg List.length hspc
          simp only [List.length_append, List.length_singleton, slots, List.length_map] at hl
          have : w.length = 0 := by omega
          exact hne (List.length_eq_zero.mp this)
        · exact hnew26 c h1 hc hcT [] (by rw [hspc]; rfl)
  · intro c hc h0
    by_cases hco : c < t.brk
    · obtain ⟨x, hx, hxt, hxp⟩ := g.has_term c hco h0
      refine ⟨x, lt_of_lt_of_le hx p.grow.brk_le, ?_, ?_⟩
      · rw [htm, q.term_old x hx]; exact hxt
      · rw [p.sp_eq c hco, p.sp_eq x hx]; exact hxp
    · exact ⟨T, p.T_lt, by rw [htm]; exact q.term_T, q.chain c (Nat.le_of_not_lt hco) hc⟩
  · intro c hc hct
    rw [htm] at hct
    rw [(hfr c).2.2.2]
    rcases q.term_cases c hc hct with e | ⟨hco, hct2⟩
    · subst e; rw [q.prio_T]
    · rw [q.prio_old c hco]
      exact g.prio_nonneg c hco hct2
  · exact insert_new_cache g p
  · intro hv c hc hct
    have hv2 : t.variant = Variant.MOST_RECENT := by
      rw [← p.grow.variant_eq]; exact hv
    rw [htm] at hct
    rw [(hfr c).2.2.2]
    show _ ≤ t2.access_counter_
    rw [p.grow.counter_eq]
    rcases q.term_cases c hc hct with e | ⟨hco, hct2⟩
    · subst e; rw [q.prio_T]; exact g.counter_nonneg
    · rw [q.prio_old c hco]
      exact g.recent hv2 c hco hct2
  · show 0 ≤ t2.access_counter_
    rw [p.grow.counter_eq]; exact g.counter_nonneg
  · intro c i hc hstr
    show (t2.dict_ ++ [w]).get? i = _
    rw [(hfr c).2.2.1] at hstr
    rw [p.grow.dict_eq]
    by_cases hcT : c = T
    · subst hcT
      rw [ins_mem0_same] at hstr
      simp only [Option.some.injEq] at hstr
      rw [p.grow.dict_eq] at hstr
      subst hstr
      rw [p.T_sp, List.dropLast_concat, unslots_slots hw]
      simp
    · rw [ins_mem0_other t2 hcT] at hstr
      by_cases hco : c < t.brk
      · rw [p.grow.str_eq c hco] at hstr
        have h1 := g.str c i hco hstr
        rw [p.sp_eq c hco, ← h1]
        have hi : i < t.dict_.length := by
          by_contra hge
          rw [List.get?_eq_none.mpr (Nat.le_of_not_lt hge)] at h1
          cases h1
        simp only [List.get?_eq_getElem?]
        exact List.getElem?_append_left hi
      · rw [(p.grow.blank c (Nat.le_of_not_lt hco) hc).1] at hstr
        cases hstr
  · show t2.node_count_ = t2.brk
    have h1 := p.grow.count_eq
    have h2 := g.count
    omega

/-! ## `insert` as a whole, operation sequences and reachable states -/

theorem Good.walk_word {t : Trie} {sp : Nat → List Nat} (g : Good t sp) {w : List Nat}
    {T : Nat} (h : walk t.mem 0 (slots w ++ [26]) = some T) :
    T < t.brk ∧ sp T = slots w ++ [26] ∧ (t.mem T).is_terminal = true := by
  obtain ⟨h1, _, h2⟩ := g.shape.walk_spec _ 0 T g.shape.brk_pos h
  rw [g.shape.sp_root, List.nil_append] at h2
  exact ⟨h1, h2, (g.term_iff T h1).mpr ⟨slots w, h2⟩⟩

theorem Good.best_priority_nonneg {t : Trie} {sp : Nat → List Nat} (g : Good t sp) {n : Nat}
    (hn : n < t.brk) (hb : (t.mem n).best_terminal ≠ none) : 0 ≤ (t.mem n).best_priority := by
  cases h : (t.mem n).best_terminal with
  | none => exact absurd h hb
  | some b =>
    obtain ⟨g1, g2, _, g4, _⟩ := (g.cache n hn).2 b h
    rw [← g4]
    exact g.prio_nonneg b g1 g2

/-- Full effect of `insert` on a state satisfying the invariant. -/
theorem insert_post {t : Trie} {sp : Nat → List Nat} (g : Good t sp) (w_raw : List Nat)
    (hne : canon w_raw ≠ []) :
    ∃ T sp2, (insert t w_raw).2 = some T ∧
      InsertPost t sp (canon w_raw) (insert t w_raw).1 T sp2 := by
  have hw := canon_lower w_raw
  cases hwalk : walk t.mem 0 (slots (canon w_raw) ++ [26]) with
  | some T =>
    obtain ⟨h1, h2, h3⟩ := g.walk_word hwalk
    have hwalk2 : walk t.mem t.root_ (slots (canon w_raw) ++ [26]) = some T := by
      rw [g.root]; exact hwalk
    rw [insert_existing hne hwalk2 h3]
    refine ⟨T, sp, rfl, ?_⟩
    exact
      { good := g.good_with_total_chars _
        sp_eq := fun _ _ => rfl
        brk_le := le_refl _
        T_lt := h1
        T_term := h3
        T_sp := h2
        str_eq := fun _ _ => rfl
        priority_eq := fun _ _ => rfl
        new_term := fun n a b _ => absurd b (by simp only; omega)
        variant_eq := rfl
        counter_eq := rfl
        next_mono := fun _ _ _ _ h => h
        cache_old := fun _ _ _ => ⟨rfl, rfl⟩ }
  | none =>
    obtain ⟨sp2, p⟩ := insert_path_spec g hw hwalk
    have q := p.preProp
    have hblank := p.grow.blank _ p.T_new p.T_lt
    have hnt : ¬ ((ensure_child (insert_walk t t.root_ (canon w_raw)).1
        (insert_walk t t.root_ (canon w_raw)).2 26).1.mem
        (ensure_child (insert_walk t t.root_ (canon w_raw)).1
        (insert_walk t t.root_ (canon w_raw)).2 26).2).is_terminal = true := by
      simp [Node.is_terminal, hblank.1]
    rw [insert_nonempty hne, if_neg hnt]
    refine ⟨_, sp2, rfl, ?_⟩
    simp only []
    have hfr := insert_new_frame
      (ensure_child (insert_walk t t.root_ (canon w_raw)).1
        (insert_walk t t.root_ (canon w_raw)).2 26).1
      (ensure_child (insert_walk t t.root_ (canon w_raw)).1
        (insert_walk t t.root_ (canon w_raw)).2 26).2 (canon w_raw)
    have htm : ∀ n, ((insert_new
        (ensure_child (insert_walk t t.root_ (canon w_raw)).1
          (insert_walk t t.root_ (canon w_raw)).2 26).1
        (ensure_child (insert_walk t t.root_ (canon w_raw)).1
          (insert_walk t t.root_ (canon w_raw)).2 26).2 (canon w_raw)).mem n).is_terminal =
        (ins_mem0 (ensure_child (insert_walk t t.root_ (canon w_raw)).1
          (insert_walk t t.root_ (canon w_raw)).2 26).1
        (ensure_child (insert_walk t t.root_ (canon w_raw)).1
          (insert_walk t t.root_ (canon w_raw)).2 26).2 n).is_terminal :=
      fun n => is_terminal_congr (hfr n).2.2.1
    exact
      { good := insert_new_good g p hw hne
        sp_eq := p.sp_eq
        brk_le := p.grow.brk_le
        T_lt := p.T_lt
        T_term := by rw [htm]; exact q.term_T
        T_sp := p.T_sp
        str_eq := fun n hn => by
          rw [(hfr n).2.2.1, ins_mem0_other _ (q.T_not_old n hn)]
          exact p.grow.str_eq n hn
        priority_eq := fun n hn => by
          rw [(hfr n).2.2.2]
          exact q.prio_old n hn
        new_term := fun n h1 h2 h3 => by
          rw [htm] at h3
          rcases q.term_cases n h2 h3 with e | ⟨e, _⟩
          · refine ⟨e, ?_⟩
            rw [(hfr n).2.2.2, e]
            exact q.prio_T
          · exact absurd e (by omega)
        variant_eq := p.grow.variant_eq
        counter_eq := p.grow.counter_eq
        next_mono := fun n k c hn h => by
          rw [(hfr n).2.1]
          exact p.grow.next_mono n k c hn h
        cache_old := fun n hn hb => by
          rw [insert_new_mem]
          rcases update_loop_cases Variant.MOST_FREQUENT _ _ (ins_mem0 _ _) _ n with h1 | ⟨h1, _⟩
          · rw [h1]
            exact ⟨q.bt_old n hn, q.bp_old n hn⟩
          · exfalso
            rcases h1 with h1 | h1 | ⟨_, _, h1⟩
            · rw [q.bt_old n hn] at h1
              exact hb h1
            · rw [q.prio_T, q.bp_old n hn] at h1
              have := g.best_priority_nonneg hn hb
              omega
            · cases h1 }

theorem insert_good {t : Trie} {sp : Nat → List Nat} (g : Good t sp) (w_raw : List Nat) :
    ∃ sp2, Good (insert t w_raw).1 sp2 ∧ (∀ n, n < t.brk → sp2 n = sp n) ∧
      t.brk ≤ (insert t w_raw).1.brk := by
  by_cases hne : canon w_raw = []
  · rw [insert_empty hne]
    exact ⟨sp, g, fun _ _ => rfl, le_refl _⟩
  · obtain ⟨T, sp2, _, p⟩ := insert_post g w_raw hne
    exact ⟨sp2, p.good, p.sp_eq, p.brk_le⟩

theorem step_update {t t2 : Trie} {T : Nat} (h : step t (Op.update_priority T) = some t2) :
    T < t.brk ∧ (t.mem T).is_terminal = true ∧ t2 = after_update t T := by
  simp only [step] at h
  by_cases hT : T < t.brk
  · rw [if_pos hT] at h
    cases htm : (t.mem T).is_terminal with
    | false => rw [update_priority_not_terminal htm] at h; cases h
    | true =>
      rw [update_priority_eq htm] at h
      exact ⟨hT, rfl, (Option.some.inj h).symm⟩
  · rw [if_neg hT] at h; cases h

theorem step_good {t t2 : Trie} {sp : Nat → List Nat} (g : Good t sp) {op : Op}
    (h : step t op = some t2) :
    ∃ sp2, Good t2 sp2 ∧ (∀ n, n < t.brk → sp2 n = sp n) ∧ t.brk ≤ t2.brk := by
  cases op with
  | insert w_raw =>
    simp only [step, Option.some.injEq] at h
    subst h
    exact insert_good g w_raw
  | update_priority T =>
    obtain ⟨h1, h2, h3⟩ := step_update h
    subst h3
    exact ⟨sp, after_update_good g h1 h2, fun _ _ => rfl, le_refl _⟩

theorem run_cons (t : Trie) (op : Op) (ops : List Op) (t3 : Trie) :
    run t (op :: ops) = some t3 ↔ ∃ t2, step t op = some t2 ∧ run t2 ops = some t3 := by
  simp only [run]
  cases step t op with
  | none => simp
  | some t2 => simp

theorem run_good : ∀ (ops : List Op) (t t2 : Trie) (sp : Nat → List Nat),
    Good t sp → run t ops = some t2 → ∃ sp2, Good t2 sp2 := by
  intro ops
  induction ops with
  | nil =>
    intro t t2 sp g h
    simp only [run, Option.some.injEq] at h
    subst h
    exact ⟨sp, g⟩
  | cons op ops ih =>
    intro t t2 sp g h
    obtain ⟨t1, h1, h2⟩ := (run_cons t op ops t2).mp h
    obtain ⟨sp1, g1, _, _⟩ := step_good g h1
    exact ih t1 t2 sp1 g1 h2

/-- Every reachable state satisfies the invariant. -/
theorem reachable_good {t : Trie} (h : Reachable t) : ∃ sp, Good t sp := by
  obtain ⟨v, ops, hr⟩ := h
  exact run_good ops _ t _ (new_good v) hr

/-! ## The step budget of the loops is never what stops them -/

theorem update_loop_fuel_irrelevant (v : Variant) (T brk : Nat) (sp : Nat → List Nat) :
    ∀ (fuel fuel2 : Nat) (mem : Nat → Node) (cur : Option Nat), Shape mem brk sp →
      (∀ c, cur = some c → c < brk ∧ c < fuel ∧ c < fuel2) →
      update_loop v T fuel mem cur = update_loop v T fuel2 mem cur := by
  intro fuel
  induction fuel with
  | zero =>
    intro fuel2 mem cur _ h
    cases cur with
    | none => rw [update_loop_none, update_loop_none]
    | some c => exact absurd (h c rfl).2.1 (Nat.not_lt_zero _)
  | succ fuel ih =>
    intro fuel2 mem cur hs h
    cases cur with
    | none => rw [update_loop_none, update_loop_none]
    | some c =>
      obtain ⟨hcb, hcf, hcf2⟩ := h c rfl
      cases fuel2 with
      | zero => exact absurd hcf2 (Nat.not_lt_zero _)
      | succ fuel2 =>
        rw [update_loop_succ, update_loop_succ]
        by_cases hn : needs_update v T mem c
        · rw [if_pos hn, if_pos hn]
          have hfr := set_best_frame T mem c
          apply ih fuel2 _ _ (hs.shape_congr (fun m => (hfr m).1) (fun m => (hfr m).2.1))
          intro p hp
          obtain ⟨h1, h2, _⟩ := hs.parent_some hcb hp
          exact ⟨h1, by omega, by omega⟩
        · rw [if_neg hn, if_neg hn]

theorem propagate_loop_fuel_irrelevant (T brk : Nat) (sp : Nat → List Nat)
    (fuel fuel2 : Nat) (mem : Nat → Node) (cur : Option Nat) (hs : Shape mem brk sp)
    (h : ∀ c, cur = some c → c < brk ∧ c < fuel ∧ c < fuel2) :
    propagate_loop T fuel mem cur = propagate_loop T fuel2 mem cur := by
  rw [propagate_loop_eq, propagate_loop_eq]
  exact update_loop_fuel_irrelevant Variant.MOST_FREQUENT T brk sp fuel fuel2 mem cur hs h

/-- On a state satisfying the invariant, the loop of `update_priority` computes the same heap
with every step budget of at least `brk`: it always ends by reaching the root or by its
`break`. -/
theorem update_priority_budget {t : Trie} {sp : Nat → List Nat} (g : Good t sp) {T : Nat}
    (hT : T < t.brk) (fuel : Nat) (hf : t.brk ≤ fuel) :
    update_loop t.variant T fuel (pre_loop_mem t T) (t.mem T).parent =
      update_loop t.variant T t.brk (pre_loop_mem t T) (t.mem T).parent := by
  have hpf := pre_loop_mem_frame t T
  apply update_loop_fuel_irrelevant t.variant T t.brk sp fuel t.brk _ _
    (g.shape.shape_congr (fun m => (hpf m).1) (fun m => (hpf m).2.1))
  intro c hc
  obtain ⟨h1, _, _⟩ := g.shape.parent_some hT hc
  exact ⟨h1, by omega, h1⟩

/-- The same for the loop of `propagate_if_better` run by an insertion that created the
terminal `T`. -/
theorem insert_budget {t : Trie} {sp : Nat → List Nat} {w : List Nat} {t2 : Trie} {T : Nat}
    {sp2 : Nat → List Nat} (p : PathPost t sp w t2 T sp2) (fuel : Nat) (hf : t2.brk ≤ fuel) :
    propagate_loop T fuel (ins_mem0 t2 T) (t2.mem T).parent =
      propagate_loop T t2.brk (ins_mem0 t2 T) (t2.mem T).parent := by
  apply propagate_loop_fuel_irrelevant T t2.brk sp2 fuel t2.brk _ _ p.preProp.shape0
  intro c hc
  obtain ⟨h1, _, _⟩ := p.shape.parent_some p.T_lt hc
  exact ⟨h1, by omega, h1⟩

/-! ## `descend` and paths -/

theorem tolower_lower {c : Nat} (h : lower c) : tolower c = c := by
  unfold lower at h
  unfold tolower
  rw [if_neg (by omega)]

theorem descend_lower (t : Trie) (v : Nat) {c : Nat} (h : lower c) :
    descend t (some v) c = (t.mem v).next (slot c) := by
  have h36 : c ≠ 36 := by
    unfold lower at h
    omega
  simp only [descend, if_neg h36, tolower_lower h, if_neg (idx_of_lower h).2.1, slot]

theorem descend_dollar (t : Trie) (v : Nat) : descend t (some v) 36 = (t.mem v).next 26 := by
  simp [descend, idx_of]

theorem descend_all_none (t : Trie) : ∀ p : List Nat, descend_all t none p = none := by
  intro p
  induction p with
  | nil => rfl
  | cons c p ih => simp only [descend_all, descend]; exact ih

theorem descend_all_append (t : Trie) (p q : List Nat) :
    ∀ v, descend_all t v (p ++ q) = descend_all t (descend_all t v p) q := by
  induction p with
  | nil => intro v; rfl
  | cons c p ih => intro v; simp only [List.cons_append, descend_all]; exact ih _

theorem descend_all_lower (t : Trie) : ∀ (p : List Nat) (v : Nat), (∀ c ∈ p, lower c) →
    descend_all t (some v) p = walk t.mem v (slots p) := by
  intro p
  induction p with
  | nil => intro v _; rfl
  | cons c p ih =>
    intro v h
    simp only [descend_all, slots, List.map_cons, walk]
    rw [descend_lower t v (h c (List.mem_cons_self c p))]
    cases (t.mem v).next (slot c) with
    | none => exact descend_all_none t p
    | some x => exact ih x (fun y hy => h y (List.mem_cons_of_mem c hy))

theorem descend_all_word (t : Trie) (w : List Nat) (v : Nat) (h : ∀ c ∈ w, lower c) :
    descend_all t (some v) (w ++ [36]) = walk t.mem v (slots w ++ [26]) := by
  rw [descend_all_append, descend_all_lower t w v h, walk_append]
  cases walk t.mem v (slots w) with
  | none => rfl
  | some x =>
    simp only [descend_all, Option.some_bind, walk]
    rw [descend_dollar]
    cases (t.mem x).next 26 <;> rfl

theorem demo_cat_reachable (v : Variant) : Reachable (demo_cat v) :=
  ⟨v, [Op.insert (bytes "cat")], rfl⟩

theorem demo_cat_car_reachable (v : Variant) : Reachable (demo_cat_car v) :=
  ⟨v, [Op.insert (bytes "cat"), Op.insert (bytes "car")], rfl⟩

/-- C1 (cache consistency): in every state reachable from the empty trie by `insert` and
`update_priority` calls, under either policy, for every node `N` whose subtree holds a stored
word, `autocomplete N` is a terminal node of `N`'s own subtree (`N` itself when `N` is
terminal), its priority equals `N.best_priority`, and no terminal in the subtree of `N` has
a strictly higher priority. -/
theorem cache_consistency (t : Trie) (hr : Reachable t) (N : Nat) (hN : IsNode t N)
    (hW : ∃ W, InSubtree t N W ∧ (t.mem W).is_terminal = true) :
    ∃ b, autocomplete t (some N) = some b ∧ (t.mem b).is_terminal = true ∧
      InSubtree t N b ∧ ((t.mem N).is_terminal = true → b = N) ∧
      (t.mem b).priority = (t.mem N).best_priority ∧
      ∀ W, InSubtree t N W → (t.mem W).is_terminal = true →
        (t.mem W).priority ≤ (t.mem N).best_priority := by
  obtain ⟨sp, g⟩ := reachable_good hr
  have hNb : N < t.brk := (g.shape.isNode_iff g.root).mp hN
  obtain ⟨W, hWs, hWt⟩ := hW
  obtain ⟨hWb, hWp⟩ := (g.shape.inSubtree_iff hNb).mp hWs
  cases hb : (t.mem N).best_terminal with
  | none => exact absurd hWp ((g.cache N hNb).1 hb W hWb hWt)
  | some b =>
    obtain ⟨g1, g2, g3, g4, g5⟩ := (g.cache N hNb).2 b hb
    refine ⟨b, hb, g2, (g.shape.inSubtree_iff hNb).mpr ⟨g1, g3⟩, ?_, g4, ?_⟩
    · intro hNt
      obtain ⟨l, hl⟩ := (g.term_iff N hNb).mp hNt
      exact g.shape.leaf hNb g1 hl g3
    · intro X hXs hXt
      obtain ⟨hXb, hXp⟩ := (g.shape.inSubtree_iff hNb).mp hXs
      exact g5 X hXb hXt hXp

/-- C1 at a concrete input: the node of prefix "ca" (node 2) in the MOST_FREQUENT trie holding
"cat" and "car". -/
theorem cache_consistency_witness :
    ∃ b, autocomplete (demo_cat_car Variant.MOST_FREQUENT) (some 2) = some b ∧
      ((demo_cat_car Variant.MOST_FREQUENT).mem b).is_terminal = true ∧
      InSubtree (demo_cat_car Variant.MOST_FREQUENT) 2 b ∧
      (((demo_cat_car Variant.MOST_FREQUENT).mem 2).is_terminal = true → b = 2) ∧
      ((demo_cat_car Variant.MOST_FREQUENT).mem b).priority =
        ((demo_cat_car Variant.MOST_FREQUENT).mem 2).best_priority ∧
      ∀ W, InSubtree (demo_cat_car Variant.MOST_FREQUENT) 2 W →
        ((demo_cat_car Variant.MOST_FREQUENT).mem W).is_terminal = true →
        ((demo_cat_car Variant.MOST_FREQUENT).mem W).priority ≤
          ((demo_cat_car Variant.MOST_FREQUENT).mem 2).best_priority :=
  cache_consistency (demo_cat_car Variant.MOST_FREQUENT)
    (demo_cat_car_reachable Variant.MOST_FREQUENT) 2
    (inSubtree_of_walk [2, 0] _ 2 (by decide!))
    ⟨6, inSubtree_of_walk [17, 26] 2 6 (by decide!), by decide!⟩

/-- C5 (idempotent insertion): in a reachable state, inserting a raw text whose canonical
form is already stored returns the existing terminal and leaves the node count, the heap
(hence the set of nodes, all links, every priority and every cache), the allocation
frontier, the word store and the access counter unchanged. -/
theorem idempotent_insertion (t : Trie) (hr : Reachable t) (w_raw : List Nat) (T : Nat)
    (hst : stored t (canon w_raw) T) :
    (insert t w_raw).2 = some T ∧
    (insert t w_raw).1.node_count_ = t.node_count_ ∧
    (insert t w_raw).1.mem = t.mem ∧
    (insert t w_raw).1.brk = t.brk ∧
    (insert t w_raw).1.dict_ = t.dict_ ∧
    (insert t w_raw).1.dict_bytes_ = t.dict_bytes_ ∧
    (insert t w_raw).1.access_counter_ = t.access_counter_ ∧
    (insert t w_raw).1.variant = t.variant ∧
    (insert t w_raw).1.root_ = t.root_ := by
  obtain ⟨sp, g⟩ := reachable_good hr
  obtain ⟨h1, h2⟩ := hst
  rw [descend_all_word t _ _ (canon_lower w_raw)] at h1
  have hne : canon w_raw ≠ [] := by
    intro e
    rw [e, g.root] at h1
    simp only [slots, List.map_nil, List.nil_append, walk] at h1
    rw [g.root_slot] at h1
    cases h1
  rw [insert_existing hne h1 h2]
  exact ⟨rfl, rfl, rfl, rfl, rfl, rfl, rfl, rfl, rfl⟩

/-- C5 at a concrete input: the text "C-a-T!" inserted into the trie that holds "cat", whose
terminal is node 4. -/
theorem idempotent_insertion_witness :
    (insert (demo_cat Variant.MOST_RECENT) (bytes "C-a-T!")).2 = some 4 ∧
    (insert (demo_cat Variant.MOST_RECENT) (bytes "C-a-T!")).1.node_count_ =
      (demo_cat Variant.MOST_RECENT).node_count_ ∧
    (insert (demo_cat Variant.MOST_RECENT) (bytes "C-a-T!")).1.mem =
      (demo_cat Variant.MOST_RECENT).mem ∧
    (insert (demo_cat Variant.MOST_RECENT) (bytes "C-a-T!")).1.brk =
      (demo_cat Variant.MOST_RECENT).brk ∧
    (insert (demo_cat Variant.MOST_RECENT) (bytes "C-a-T!")).1.dict_ =
      (demo_cat Variant.MOST_RECENT).dict_ ∧
    (insert (demo_cat Variant.MOST_RECENT) (bytes "C-a-T!")).1.dict_bytes_ =
      (demo_cat Variant.MOST_RECENT).dict_bytes_ ∧
    (insert (demo_cat Variant.MOST_RECENT) (bytes "C-a-T!")).1.access_counter_ =
      (demo_cat Variant.MOST_RECENT).access_counter_ ∧
    (insert (demo_cat Variant.MOST_RECENT) (bytes "C-a-T!")).1.variant =
      (demo_cat Variant.MOST_RECENT).variant ∧
    (insert (demo_cat Variant.MOST_RECENT) (bytes "C-a-T!")).1.root_ =
      (demo_cat Variant.MOST_RECENT).root_ :=
  idempotent_insertion (demo_cat Variant.MOST_RECENT) (demo_cat_reachable Variant.MOST_RECENT)
    (bytes "C-a-T!") 4 ⟨by decide!, by decide!⟩

/-- C6 (canonicalization and lookup): in a reachable state, for a raw text whose canonical
form `w` is non-empty, `insert raw` and `insert w` return the same terminal node (from the
same state, and also when `w` is inserted after `raw`); that node is the one reached from
the root by descending the characters of `w` followed by `'$'`, and its stored word is
`w`. -/
theorem canonicalization (t : Trie) (hr : Reachable t) (w_raw : List Nat)
    (hne : canon w_raw ≠ []) :
    ∃ T, (insert t w_raw).2 = some T ∧ (insert t (canon w_raw)).2 = some T ∧
      (insert (insert t w_raw).1 (canon w_raw)).2 = some T ∧
      descend_all (insert t w_raw).1 (some (insert t w_raw).1.root_) (canon w_raw ++ [36]) =
        some T ∧
      ((insert t w_raw).1.mem T).is_terminal = true ∧
      word_of (insert t w_raw).1 (some T) = some (canon w_raw) := by
  obtain ⟨sp, g⟩ := reachable_good hr
  obtain ⟨T, sp2, h1, p⟩ := insert_post g w_raw hne
  have hwalk : walk (insert t w_raw).1.mem 0 (slots (canon w_raw) ++ [26]) = some T := by
    have := p.good.shape.walk_sp T p.T_lt
    rw [p.T_sp] at this
    exact this
  have h2 : (insert t (canon w_raw)).2 = some T := by
    have e : insert t (canon w_raw) = insert t w_raw := by
      unfold insert
      rw [canon_idem]
    rw [e, h1]
  have hne2 : canon (canon w_raw) ≠ [] := by rw [canon_idem]; exact hne
  have h3 : (insert (insert t w_raw).1 (canon w_raw)).2 = some T := by
    have hw2 : walk (insert t w_raw).1.mem (insert t w_raw).1.root_
        (slots (canon (canon w_raw)) ++ [26]) = some T := by
      rw [canon_idem, p.good.root]; exact hwalk
    rw [insert_existing hne2 hw2 p.T_term]
  refine ⟨T, h1, h2, h3, ?_, p.T_term, ?_⟩
  · rw [descend_all_word _ _ _ (canon_lower w_raw), p.good.root]
    exact hwalk
  · cases hs : ((insert t w_raw).1.mem T).str with
    | none =>
      have := p.T_term
      simp [Node.is_terminal, hs] at this
    | some i =>
      have := p.good.str T i p.T_lt hs
      rw [p.T_sp, List.dropLast_concat, unslots_slots (canon_lower w_raw)] at this
      simp only [word_of, hs]
      exact this

/-- C6 at a concrete input: the text "Hello!!" inserted into the empty trie. -/
theorem canonicalization_witness :
    ∃ T, (insert (Trie.new Variant.MOST_FREQUENT) (bytes "Hello!!")).2 = some T ∧
      (insert (Trie.new Variant.MOST_FREQUENT) (canon (bytes "Hello!!"))).2 = some T ∧
      (insert (insert (Trie.new Variant.MOST_FREQUENT) (bytes "Hello!!")).1
        (canon (bytes "Hello!!"))).2 = some T ∧
      descend_all (insert (Trie.new Variant.MOST_FREQUENT) (bytes "Hello!!")).1
        (some (insert (Trie.new Variant.MOST_FREQUENT) (bytes "Hello!!")).1.root_)
        (canon (bytes "Hello!!") ++ [36]) = some T ∧
      ((insert (Trie.new Variant.MOST_FREQUENT) (bytes "Hello!!")).1.mem T).is_terminal = true ∧
      word_of (insert (Trie.new Variant.MOST_FREQUENT) (bytes "Hello!!")).1 (some T) =
        some (canon (bytes "Hello!!")) :=
  canonicalization (Trie.new Variant.MOST_FREQUENT) ⟨Variant.MOST_FREQUENT, [], rfl⟩
    (bytes "Hello!!") (by decide!)

/-- C7 (empty input is a no-op): `insert` returns no node exactly when the raw text contains
no letter, and in that case the whole trie state is returned unchanged (no node is created,
no counter moves, nothing fails). -/
theorem empty_input_noop (t : Trie) (w_raw : List Nat) :
    ((insert t w_raw).2 = none ↔ ∀ c ∈ w_raw, isalpha c = false) ∧
    ((insert t w_raw).2 = none → (insert t w_raw).1 = t) := by
  have hc : canon w_raw = [] ↔ ∀ c ∈ w_raw, isalpha c = false := by
    induction w_raw with
    | nil => simp [canon]
    | cons a l ih =>
      unfold canon
      by_cases ha : isalpha a = true
      · rw [if_pos ha]
        simp [ha]
      · rw [if_neg ha, ih]
        simp [ha]
  by_cases he : canon w_raw = []
  · rw [insert_empty he]
    exact ⟨⟨fun _ => hc.mp he, fun _ => rfl⟩, fun _ => rfl⟩
  · have h2 : (insert t w_raw).2 ≠ none := by
      rw [insert_nonempty he]
      split <;> simp
    exact ⟨⟨fun h => absurd h h2, fun h => absurd (hc.mpr h) he⟩, fun h => absurd h h2⟩

/-- C8, as amended: `descend` first lower-cases the symbol (unless it is `'$'`), so a symbol
that is not a letter of either case and not `'$'` always yields not-found, from every node
of every trie state, while an upper-case letter descends exactly like its lower-case form. -/
theorem descend_unrecognized (t : Trie) (v : Option Nat) (c : Nat) :
    (isalpha c = false → c ≠ 36 → descend t v c = none) ∧
    descend t v c = descend t v (tolower c) := by
  constructor
  · intro ha h36
    cases v with
    | none => rfl
    | some v =>
      simp only [isalpha, Bool.or_eq_false_iff, Bool.and_eq_false_iff, decide_eq_false_iff_not]
        at ha
      have e : tolower c = c := by
        unfold tolower
        rw [if_neg (by omega)]
      have hi : idx_of c < 0 := by
        unfold idx_of
        rw [if_neg h36, if_neg (by omega)]
        omega
      simp only [descend, if_neg h36, e, if_pos hi]
  · cases v with
    | none => rfl
    | some v =>
      have e : tolower (tolower c) = tolower c := by
        unfold tolower
        by_cases h : 65 ≤ c ∧ c ≤ 90
        · rw [if_pos h, if_neg (by omega)]
        · rw [if_neg h, if_neg h]
      by_cases h36 : c = 36
      · subst h36
        rfl
      · have h5 : tolower c ≠ 36 := by
          unfold tolower
          split <;> omega
        simp only [descend, if_neg h36, if_neg h5, e]

/-- C8, counterexample to the claim as stated: `'A'` (65) is neither a lower-case letter nor
`'$'`, yet descending it from the root of the trie that holds the word "a" finds the child
of `'a'` (node 1) instead of not-found. -/
theorem descend_uppercase_found :
    ¬ lower 65 ∧ (65 : Nat) ≠ 36 ∧
    descend (insert (Trie.new Variant.MOST_FREQUENT) (bytes "a")).1 (some 0) 65 = some 1 := by
  decide

/-! ## Recency and frequency -/

theorem dominant_autocomplete {t : Trie} {sp : Nat → List Nat} (g : Good t sp) {T : Nat}
    (d : Dominant t T) {A : Nat} (hA : IsNode t A) (hAT : InSubtree t A T) :
    autocomplete t (some A) = some T := by
  obtain ⟨hT, hTt, _, hdom⟩ := d
  have hAb : A < t.brk := (g.shape.isNode_iff g.root).mp hA
  obtain ⟨_, hpre⟩ := (g.shape.inSubtree_iff hAb).mp hAT
  cases hb : (t.mem A).best_terminal with
  | none => exact absurd hpre ((g.cache A hAb).1 hb T hT hTt)
  | some b =>
    obtain ⟨g1, g2, _, g4, g5⟩ := (g.cache A hAb).2 b hb
    have h1 := g5 T hT hTt hpre
    by_cases hbT : b = T
    · subst hbT
      exact hb
    · have := hdom b g1 g2 hbT
      omega

theorem dominant_after_update {t : Trie} {sp : Nat → List Nat} (g : Good t sp) {T : Nat}
    (hv : t.variant = Variant.MOST_RECENT) (hT : T < t.brk)
    (hTt : (t.mem T).is_terminal = true) : Dominant (after_update t T) T := by
  obtain ⟨_, hone, hrec⟩ := g.priority_lt_new hT hTt
  refine ⟨hT, by rw [after_update_terminal]; exact hTt, ?_, ?_⟩
  · rw [after_update_priority_same]; exact hone
  · intro x hx hxt hxT
    rw [after_update_terminal] at hxt
    rw [after_update_priority_same, after_update_priority_other t hxT, hrec hv]
    have h1 := g.recent hv x hx hxt
    have h2 : new_counter t = t.access_counter_ + 1 := by simp [new_counter, hv]
    omega

theorem insert_variant {t : Trie} {sp : Nat → List Nat} (g : Good t sp) (w_raw : List Nat) :
    (insert t w_raw).1.variant = t.variant := by
  by_cases hne : canon w_raw = []
  · rw [insert_empty hne]
  · obtain ⟨T, sp2, _, p⟩ := insert_post g w_raw hne
    exact p.variant_eq

/-- An insertion never replaces a non-empty cache of an existing node, under either policy:
the propagation it runs overwrites only empty caches (a fresh terminal has priority 0, which
is never strictly above a cached priority). -/
theorem Good.insert_keeps_cache {t : Trie} {sp : Nat → List Nat} (g : Good t sp)
    (w_raw : List Nat) {n : Nat} (hn : n < t.brk) (hb : (t.mem n).best_terminal ≠ none) :
    ((insert t w_raw).1.mem n).best_terminal = (t.mem n).best_terminal ∧
    ((insert t w_raw).1.mem n).best_priority = (t.mem n).best_priority := by
  by_cases hne : canon w_raw = []
  · rw [insert_empty hne]
    exact ⟨rfl, rfl⟩
  · obtain ⟨T, sp2, _, p⟩ := insert_post g w_raw hne
    exact p.cache_old n hn hb

theorem dominant_insert {t : Trie} {sp : Nat → List Nat} (g : Good t sp) {T : Nat}
    (d : Dominant t T) (w_raw : List Nat) : Dominant (insert t w_raw).1 T := by
  by_cases hne : canon w_raw = []
  · rw [insert_empty hne]; exact d
  · obtain ⟨T2, sp2, _, p⟩ := insert_post g w_raw hne
    obtain ⟨hT, hTt, hone, hdom⟩ := d
    have hTt2 : ((insert t w_raw).1.mem T).is_terminal = true := by
      rw [is_terminal_congr (p.str_eq T hT)]; exact hTt
    refine ⟨lt_of_lt_of_le hT p.brk_le, hTt2, ?_, ?_⟩
    · rw [p.priority_eq T hT]; exact hone
    · intro x hx hxt hxT
      rw [p.priority_eq T hT]
      by_cases hxo : x < t.brk
      · rw [p.priority_eq x hxo]
        rw [is_terminal_congr (p.str_eq x hxo)] at hxt
        exact hdom x hxo hxt hxT
      · rw [(p.new_term x (Nat.le_of_not_lt hxo) hx hxt).2]
        omega

theorem dominant_run (T : Nat) : ∀ (ops : List Op) (t : Trie) (sp : Nat → List Nat),
    Good t sp → t.variant = Variant.MOST_RECENT → Dominant t T → (∀ op ∈ ops, quiet T op) →
    ∃ t2 sp2, run t ops = some t2 ∧ Good t2 sp2 ∧ Dominant t2 T := by
  intro ops
  induction ops with
  | nil =>
    intro t sp g _ d _
    exact ⟨t, sp, rfl, g, d⟩
  | cons op ops ih =>
    intro t sp g hv d hq
    have hq2 : ∀ o ∈ ops, quiet T o := fun o ho => hq o (List.mem_cons_of_mem op ho)
    have hop := hq op (List.mem_cons_self op ops)
    cases op with
    | insert w_raw =>
      obtain ⟨sp1, g1, _, _⟩ := insert_good g w_raw
      obtain ⟨t2, sp2, h1, h2, h3⟩ := ih (insert t w_raw).1 sp1 g1
        (by rw [insert_variant g]; exact hv) (dominant_insert g d w_raw) hq2
      exact ⟨t2, sp2, by simp only [run, step]; exact h1, h2, h3⟩
    | update_priority n =>
      simp only [quiet] at hop
      subst hop
      obtain ⟨hT, hTt, _, _⟩ := d
      obtain ⟨t2, sp2, h1, h2, h3⟩ := ih (after_update t n) sp (after_update_good g hT hTt)
        hv (dominant_after_update g hv hT hTt) hq2
      refine ⟨t2, sp2, ?_, h2, h3⟩
      simp only [run, step, if_pos hT, update_priority_eq hTt]
      exact h1

/-- C2 (monotonic recency): under the MOST_RECENT policy, for every reachable state and
every terminal `T` in it, `update_priority T` succeeds, and in the state it returns, as well
as after any later calls that are insertions or further updates of `T` itself, the
autocomplete result of every ancestor of `T` (every node whose subtree contains `T`, the
root and `T` included) is `T`. -/
theorem monotonic_recency (t : Trie) (hr : Reachable t)
    (hv : t.variant = Variant.MOST_RECENT) (T : Nat) (hT : IsNode t T)
    (hTt : (t.mem T).is_terminal = true) :
    ∃ t1, update_priority t (some T) = some t1 ∧
      ∀ ops, (∀ op ∈ ops, quiet T op) →
        ∃ t2, run t1 ops = some t2 ∧
          ∀ A, IsNode t2 A → InSubtree t2 A T → autocomplete t2 (some A) = some T := by
  obtain ⟨sp, g⟩ := reachable_good hr
  have hTb : T < t.brk := (g.shape.isNode_iff g.root).mp hT
  refine ⟨after_update t T, update_priority_eq hTt, ?_⟩
  intro ops hq
  obtain ⟨t2, sp2, h1, h2, h3⟩ := dominant_run T ops (after_update t T) sp
    (after_update_good g hTb hTt) hv (dominant_after_update g hv hTb hTt) hq
  exact ⟨t2, h1, fun A hA hAT => dominant_autocomplete h2 h3 hA hAT⟩

/-- C2 at a concrete input: the terminal of "car" (node 6) accessed in the MOST_RECENT trie
holding "cat" and "car". -/
theorem monotonic_recency_witness :
    ∃ t1, update_priority (demo_cat_car Variant.MOST_RECENT) (some 6) = some t1 ∧
      ∀ ops, (∀ op ∈ ops, quiet 6 op) →
        ∃ t2, run t1 ops = some t2 ∧
          ∀ A, IsNode t2 A → InSubtree t2 A 6 → autocomplete t2 (some A) = some 6 :=
  monotonic_recency (demo_cat_car Variant.MOST_RECENT)
    (demo_cat_car_reachable Variant.MOST_RECENT) rfl 6
    (inSubtree_of_walk [2, 0, 17, 26] _ 6 (by decide!)) (by decide!)

theorem accesses_append (T : Nat) (a b : List Op) :
    accesses T (a ++ b) = accesses T a + accesses T b := by
  induction a with
  | nil => simp [accesses]
  | cons op a ih =>
    cases op with
    | insert w =>
      show accesses T (a ++ b) = accesses T a + accesses T b
      exact ih
    | update_priority n =>
      show (if n = T then 1 else 0) + accesses T (a ++ b) =
        (if n = T then 1 else 0) + accesses T a + accesses T b
      rw [ih]
      omega

theorem counted_step {t t2 : Trie} {sp : Nat → List Nat} (g : Good t sp) {pre : List Op}
    (c : Counted pre t) {op : Op} (h : step t op = some t2) : Counted (pre ++ [op]) t2 := by
  obtain ⟨hv, hc⟩ := c
  cases op with
  | insert w_raw =>
    simp only [step, Option.some.injEq] at h
    subst h
    have hacc : ∀ n, accesses n (pre ++ [Op.insert w_raw]) = accesses n pre := by
      intro n
      rw [accesses_append]
      simp [accesses]
    refine ⟨by rw [insert_variant g]; exact hv, ?_⟩
    intro n
    rw [hacc]
    by_cases hne : canon w_raw = []
    · rw [insert_empty hne]; exact hc n
    · obtain ⟨T, sp2, _, p⟩ := insert_post g w_raw hne
      by_cases hno : n < t.brk
      · rw [is_terminal_congr (p.str_eq n hno), p.priority_eq n hno]
        constructor
        · intro h1
          exact (hc n).1 ⟨hno, h1.2⟩
        · intro h1
          exact (hc n).2 (fun h2 => h1 ⟨lt_of_lt_of_le hno p.brk_le, h2.2⟩)
      · have h0 := (hc n).2 (fun h2 => hno h2.1)
        constructor
        · intro h1
          rw [(p.new_term n (Nat.le_of_not_lt hno) h1.1 h1.2).2, h0]
          rfl
        · intro _
          exact h0
  | update_priority T =>
    obtain ⟨hT, hTt, e⟩ := step_update h
    subst e
    refine ⟨hv, ?_⟩
    intro n
    rw [accesses_append, after_update_terminal]
    show (n < t.brk ∧ _ → _) ∧ (¬ (n < t.brk ∧ _) → _)
    by_cases hn : n = T
    · subst hn
      constructor
      · intro _
        rw [after_update_priority_same]
        have e := (hc n).1 ⟨hT, hTt⟩
        have e2 : accesses n [Op.update_priority n] = 1 := by simp [accesses]
        have e3 : new_priority t n = (t.mem n).priority + 1 := by simp [new_priority, hv]
        rw [e3, e, e2]
        push_cast
        rfl
      · intro h1
        exact absurd ⟨hT, hTt⟩ h1
    · have hacc : accesses n [Op.update_priority T] = 0 := by
        simp [accesses, Ne.symm hn]
      rw [after_update_priority_other t hn, hacc, Nat.add_zero]
      exact hc n

theorem counted_run : ∀ (ops pre : List Op) (t t2 : Trie) (sp : Nat → List Nat),
    Good t sp → Counted pre t → run t ops = some t2 → Counted (pre ++ ops) t2 := by
  intro ops
  induction ops with
  | nil =>
    intro pre t t2 sp _ c h
    simp only [run, Option.some.injEq] at h
    subst h
    rw [List.append_nil]
    exact c
  | cons op ops ih =>
    intro pre t t2 sp g c h
    obtain ⟨t1, h1, h2⟩ := (run_cons t op ops t2).mp h
    obtain ⟨sp1, g1, _, _⟩ := step_good g h1
    have := ih (pre ++ [op]) t1 t2 sp1 g1 (counted_step g c h1) h2
    rw [List.append_assoc] at this
    exact this

/-- C3 (frequency accumulation): under the MOST_FREQUENT policy, in the state reached from
the empty trie by any sequence of calls, the priority of every terminal `T` equals the
number of `update_priority` calls made on `T`, whatever insertions and updates of other
terminals were interleaved; one more `update_priority T` succeeds, raises the priority of
`T` by exactly one and changes the priority of no other node. -/
theorem frequency_accumulation (ops : List Op) (t : Trie)
    (hrun : run (Trie.new Variant.MOST_FREQUENT) ops = some t) (T : Nat) (hT : IsNode t T)
    (hTt : (t.mem T).is_terminal = true) :
    (t.mem T).priority = accesses T ops ∧
    ∃ t2, update_priority t (some T) = some t2 ∧
      (t2.mem T).priority = (t.mem T).priority + 1 ∧
      ∀ n, n ≠ T → (t2.mem n).priority = (t.mem n).priority := by
  obtain ⟨sp, g⟩ := run_good ops _ t _ (new_good Variant.MOST_FREQUENT) hrun
  have hTb : T < t.brk := (g.shape.isNode_iff g.root).mp hT
  have c0 : Counted [] (Trie.new Variant.MOST_FREQUENT) := by
    refine ⟨rfl, fun n => ⟨?_, fun _ => rfl⟩⟩
    rintro ⟨h1, h2⟩
    have hb : (Trie.new Variant.MOST_FREQUENT).brk = 1 := rfl
    rw [hb] at h1
    have : n = 0 := by omega
    subst this
    exact absurd h2 (by decide!)
  have c := counted_run ops [] _ t _ (new_good Variant.MOST_FREQUENT) c0 hrun
  rw [List.nil_append] at c
  refine ⟨(c.2 T).1 ⟨hTb, hTt⟩, after_update t T, update_priority_eq hTt, ?_, ?_⟩
  · rw [after_update_priority_same]
    simp [new_priority, c.1]
  · intro n hn
    exact after_update_priority_other t hn

/-! ## Prefix descent and the inserted words -/

/-- C3 at a concrete input: "cat" and "car" inserted, then the terminal of "car" (node 6)
accessed twice. -/
theorem frequency_accumulation_witness :
    (demo_freq.mem 6).priority =
      accesses 6 [Op.insert (bytes "cat"), Op.insert (bytes "car"), Op.update_priority 6,
        Op.update_priority 6] ∧
    ∃ t2, update_priority demo_freq (some 6) = some t2 ∧
      (t2.mem 6).priority = (demo_freq.mem 6).priority + 1 ∧
      ∀ n, n ≠ 6 → (t2.mem n).priority = (demo_freq.mem n).priority :=
  frequency_accumulation
    [Op.insert (bytes "cat"), Op.insert (bytes "car"), Op.update_priority 6,
      Op.update_priority 6] demo_freq rfl 6
    (inSubtree_of_walk [2, 0, 17, 26] _ 6 (by decide!)) (by decide!)

theorem words_step {t t2 : Trie} {sp : Nat → List Nat} (g : Good t sp) {pre : List Op}
    (w : Words pre t sp) {op : Op} (h : step t op = some t2) :
    ∃ sp2, Good t2 sp2 ∧ Words (pre ++ [op]) t2 sp2 := by
  obtain ⟨w1, w2⟩ := w
  cases op with
  | insert w_raw =>
    simp only [step, Option.some.injEq] at h
    subst h
    by_cases hne : canon w_raw = []
    · rw [insert_empty hne]
      refine ⟨sp, g, ?_, ?_⟩
      · intro n hn hnt
        obtain ⟨raw, h1, h2⟩ := w1 n hn hnt
        exact ⟨raw, List.mem_append_left _ h1, h2⟩
      · intro raw hraw hc
        rcases List.mem_append.mp hraw with h1 | h1
        · exact w2 raw h1 hc
        · simp only [List.mem_singleton, Op.insert.injEq] at h1
          subst h1
          exact absurd hne hc
    · obtain ⟨T, sp2, _, p⟩ := insert_post g w_raw hne
      refine ⟨sp2, p.good, ?_, ?_⟩
      · intro n hn hnt
        by_cases hno : n < t.brk
        · rw [is_terminal_congr (p.str_eq n hno)] at hnt
          obtain ⟨raw, h1, h2⟩ := w1 n hno hnt
          exact ⟨raw, List.mem_append_left _ h1, by rw [p.sp_eq n hno]; exact h2⟩
        · have e := (p.new_term n (Nat.le_of_not_lt hno) hn hnt).1
          subst e
          exact ⟨w_raw, List.mem_append_right _ (List.mem_singleton_self _), p.T_sp⟩
      · intro raw hraw hc
        rcases List.mem_append.mp hraw with h1 | h1
        · obtain ⟨n, hn, hnt, hsp⟩ := w2 raw h1 hc
          refine ⟨n, lt_of_lt_of_le hn p.brk_le, ?_, by rw [p.sp_eq n hn]; exact hsp⟩
          rw [is_terminal_congr (p.str_eq n hn)]
          exact hnt
        · simp only [List.mem_singleton, Op.insert.injEq] at h1
          subst h1
          exact ⟨T, p.T_lt, p.T_term, p.T_sp⟩
  | update_priority T =>
    obtain ⟨hT, hTt, e⟩ := step_update h
    subst e
    refine ⟨sp, after_update_good g hT hTt, ?_, ?_⟩
    · intro n hn hnt
      rw [after_update_terminal] at hnt
      obtain ⟨raw, h1, h2⟩ := w1 n hn hnt
      exact ⟨raw, List.mem_append_left _ h1, h2⟩
    · intro raw hraw hc
      rcases List.mem_append.mp hraw with h1 | h1
      · obtain ⟨n, hn, hnt, hsp⟩ := w2 raw h1 hc
        exact ⟨n, hn, by rw [after_update_terminal]; exact hnt, hsp⟩
      · simp at h1

theorem words_run : ∀ (ops pre : List Op) (t t2 : Trie) (sp : Nat → List Nat),
    Good t sp → Words pre t sp → run t ops = some t2 →
    ∃ sp2, Good t2 sp2 ∧ Words (pre ++ ops) t2 sp2 := by
  intro ops
  induction ops with
  | nil =>
    intro pre t t2 sp g w h
    simp only [run, Option.some.injEq] at h
    subst h
    rw [List.append_nil]
    exact ⟨sp, g, w⟩
  | cons op ops ih =>
    intro pre t t2 sp g w h
    obtain ⟨t1, h1, h2⟩ := (run_cons t op ops t2).mp h
    obtain ⟨sp1, g1, w1⟩ := words_step g w h1
    have := ih (pre ++ [op]) t1 t2 sp1 g1 w1 h2
    rw [List.append_assoc] at this
    exact this

theorem words_new (v : Variant) : Words [] (Trie.new v) (fun _ => []) := by
  constructor
  · intro n hn hnt
    have hb : (Trie.new v).brk = 1 := rfl
    rw [hb] at hn
    have : n = 0 := by omega
    subst this
    exact absurd hnt (by cases v <;> decide)
  · intro raw hraw
    simp at hraw

/-- In a state satisfying the invariant, a non-empty lower-case string can be descended from
the root exactly when it is a prefix of the canonical form of an inserted text. -/
theorem Good.descend_iff {t : Trie} {sp : Nat → List Nat} (g : Good t sp) {ops : List Op}
    (w : Words ops t sp) {p : List Nat} (hp : ∀ c ∈ p, lower c) (hne : p ≠ []) :
    descend_all t (some t.root_) p ≠ none ↔
      ∃ raw, Op.insert raw ∈ ops ∧ p <+: canon raw := by
  rw [g.root, descend_all_lower t p 0 hp]
  have hsl := slots_lt hp
  constructor
  · intro h
    cases hw : walk t.mem 0 (slots p) with
    | none => exact absurd hw h
    | some v =>
      obtain ⟨hv, _, hsp⟩ := g.shape.walk_spec _ 0 v g.shape.brk_pos hw
      rw [g.shape.sp_root, List.nil_append] at hsp
      have hv0 : v ≠ 0 := by
        intro e
        subst e
        rw [g.shape.sp_root] at hsp
        have := congrArg List.length hsp
        simp only [List.length_nil, slots, List.length_map] at this
        exact hne (List.length_eq_zero.mp this.symm)
      obtain ⟨x, hx, hxt, hxp⟩ := g.has_term v hv hv0
      obtain ⟨raw, hraw, hspx⟩ := w.1 x hx hxt
      refine ⟨raw, hraw, ?_⟩
      rw [hsp, hspx] at hxp
      rcases List.prefix_concat_iff.mp hxp with h1 | h1
      · exfalso
        have := hsl 26 (by rw [h1]; simp)
        omega
      · have h2 := List.IsPrefix.map (fun k => k + 97) h1
        have e1 := unslots_slots hp
        have e2 := unslots_slots (canon_lower raw)
        unfold unslots at e1 e2
        rw [e1, e2] at h2
        exact h2
  · rintro ⟨raw, hraw, hpre⟩
    have hc : canon raw ≠ [] := by
      intro e
      rw [e] at hpre
      exact hne (List.prefix_nil.mp hpre)
    obtain ⟨n, hn, _, hsp⟩ := w.2 raw hraw hc
    have h1 := g.shape.walk_sp n hn
    obtain ⟨r, hr⟩ := hpre
    rw [hsp, ← hr] at h1
    simp only [slots, List.map_append, List.append_assoc] at h1
    rw [walk_append] at h1
    intro h2
    simp only [slots] at h2
    rw [h2] at h1
    cases h1

theorem descend_all_cons_none (t : Trie) (v : Option Nat) (c : Nat) (q : List Nat)
    (h : descend t v c = none) : descend_all t v (c :: q) = none := by
  simp only [descend_all, h]
  exact descend_all_none t q

/-- The walk stops at position `i` exactly when the first `i + 1` symbols cannot be descended
while every shorter non-empty prefix can. -/
theorem first_not_found_spec (t : Trie) : ∀ (p : List Nat) (v : Option Nat) (i : Nat),
    v ≠ none →
    (first_not_found t v p = some i ↔
      i < p.length ∧ descend_all t v (p.take (i + 1)) = none ∧
      ∀ j, j < i → descend_all t v (p.take (j + 1)) ≠ none) := by
  intro p
  induction p with
  | nil =>
    intro v i _
    simp [first_not_found]
  | cons c p ih =>
    intro v i hv
    simp only [first_not_found, List.length_cons, List.take_succ_cons]
    cases hd : descend t v c with
    | none =>
      simp only [Option.some.injEq]
      constructor
      · intro e
        subst e
        refine ⟨by omega, descend_all_cons_none t v c _ hd, ?_⟩
        intro j hj
        omega
      · rintro ⟨_, _, h3⟩
        by_contra hi
        have h0 : 0 < i := by omega
        exact h3 0 h0 (descend_all_cons_none t v c _ hd)
    | some u =>
      have hstep : ∀ q, descend_all t v (c :: q) = descend_all t (some u) q := by
        intro q
        simp only [descend_all, hd]
      simp only [hstep]
      cases i with
      | zero =>
        simp only [List.take_zero, descend_all]
        constructor
        · intro h
          cases hf : first_not_found t (some u) p with
          | none => rw [hf] at h; cases h
          | some k => rw [hf] at h; simp at h
        · rintro ⟨_, h2, _⟩
          cases h2
      | succ k =>
        have hih := ih (some u) k (by simp)
        constructor
        · intro h
          have hk : first_not_found t (some u) p = some k := by
            cases hf : first_not_found t (some u) p with
            | none => rw [hf] at h; cases h
            | some m =>
              rw [hf] at h
              simp only [Option.map_some', Option.some.injEq] at h
              rw [show m = k by omega]
          obtain ⟨h1, h2, h3⟩ := hih.mp hk
          refine ⟨by omega, h2, ?_⟩
          intro j hj
          cases j with
          | zero => simp [descend_all]
          | succ m => exact h3 m (by omega)
        · rintro ⟨h1, h2, h3⟩
          have hk : first_not_found t (some u) p = some k :=
            hih.mpr ⟨by omega, h2, fun j hj => h3 (j + 1) (by omega)⟩
          rw [hk]
          rfl

/-- C9, as amended (prefix descent is exact): in the state reached from an empty trie by any
sequence of calls, for every string `p` of lower-case letters, repeated `descend` from the
root along `p` reaches a node if and only if `p` is empty or `p` is a prefix of the
canonical form of some inserted text; and the walk returns not-found at position `i`
exactly when `p[0..i]` is a prefix of no inserted word while every shorter non-empty prefix
of `p` is a prefix of one.  `descend` is total: it never fails. -/
theorem prefix_descent_exact (v : Variant) (ops : List Op) (t : Trie)
    (hrun : run (Trie.new v) ops = some t) (p : List Nat) (hp : ∀ c ∈ p, lower c) :
    (descend_all t (some t.root_) p ≠ none ↔
      p = [] ∨ ∃ raw, Op.insert raw ∈ ops ∧ p <+: canon raw) ∧
    ∀ i, first_not_found t (some t.root_) p = some i ↔
      (i < p.length ∧ (¬ ∃ raw, Op.insert raw ∈ ops ∧ p.take (i + 1) <+: canon raw) ∧
        ∀ j, j < i → ∃ raw, Op.insert raw ∈ ops ∧ p.take (j + 1) <+: canon raw) := by
  obtain ⟨sp, g, w⟩ := words_run ops [] _ t _ (new_good v) (words_new v) hrun
  rw [List.nil_append] at w
  have htake : ∀ j, j < p.length →
      (descend_all t (some t.root_) (p.take (j + 1)) ≠ none ↔
        ∃ raw, Op.insert raw ∈ ops ∧ p.take (j + 1) <+: canon raw) := by
    intro j hj
    apply g.descend_iff w
    · intro c hc
      exact hp c (List.mem_of_mem_take hc)
    · intro e
      have := congrArg List.length e
      simp only [List.length_take, List.length_nil] at this
      omega
  constructor
  · by_cases hne : p = []
    · subst hne
      simp [descend_all]
    · rw [g.descend_iff w hp hne]
      simp [hne]
  · intro i
    rw [first_not_found_spec t p (some t.root_) i (by simp)]
    constructor
    · rintro ⟨h1, h2, h3⟩
      refine ⟨h1, ?_, ?_⟩
      · intro h4
        exact (htake i h1).mpr h4 h2
      · intro j hj
        exact (htake j (by omega)).mp (h3 j hj)
    · rintro ⟨h1, h2, h3⟩
      refine ⟨h1, ?_, ?_⟩
      · by_contra h4
        exact h2 ((htake i h1).mp h4)
      · intro j hj
        exact (htake j (by omega)).mpr (h3 j hj)

/-- C9 at a concrete input: the prefix "xyz" in the trie holding only "cat". -/
theorem prefix_descent_exact_witness :
    (descend_all (demo_cat Variant.MOST_FREQUENT)
        (some (demo_cat Variant.MOST_FREQUENT).root_) (bytes "xyz") ≠ none ↔
      bytes "xyz" = [] ∨
        ∃ raw, Op.insert raw ∈ [Op.insert (bytes "cat")] ∧ bytes "xyz" <+: canon raw) ∧
    ∀ i, first_not_found (demo_cat Variant.MOST_FREQUENT)
        (some (demo_cat Variant.MOST_FREQUENT).root_) (bytes "xyz") = some i ↔
      (i < (bytes "xyz").length ∧
        (¬ ∃ raw, Op.insert raw ∈ [Op.insert (bytes "cat")] ∧
          (bytes "xyz").take (i + 1) <+: canon raw) ∧
        ∀ j, j < i → ∃ raw, Op.insert raw ∈ [Op.insert (bytes "cat")] ∧
          (bytes "xyz").take (j + 1) <+: canon raw) :=
  prefix_descent_exact Variant.MOST_FREQUENT [Op.insert (bytes "cat")]
    (demo_cat Variant.MOST_FREQUENT) rfl (bytes "xyz") (by decide!)

/-- C9, counterexample to the claim as stated: in the empty trie (no call made) the empty
string is descended successfully, it reaches the root, although no word was inserted that it
could be a prefix of. -/
theorem prefix_descent_empty_trie :
    run (Trie.new Variant.MOST_FREQUENT) [] = some (Trie.new Variant.MOST_FREQUENT) ∧
    descend_all (Trie.new Variant.MOST_FREQUENT)
      (some (Trie.new Variant.MOST_FREQUENT).root_) [] = some 0 ∧
    ¬ ∃ raw, Op.insert raw ∈ ([] : List Op) ∧ ([] : List Nat) <+: canon raw := by
  refine ⟨rfl, rfl, ?_⟩
  rintro ⟨raw, h, _⟩
  cases h

/-- C4 (frequency-mode scenario): starting from an empty MOST_FREQUENT trie and inserting
"cat", "car", "cart" in that order, the completion of "ca" is "cat"; after two accesses to
"car" it is "car"; after three further accesses to "cart" the completion of "ca" is "cart"
and the completion of "car" is "cart" too. -/
theorem frequency_scenario :
    best_word (scenario3 Variant.MOST_FREQUENT) (bytes "ca") = some (bytes "cat") ∧
    (scenario5 Variant.MOST_FREQUENT).map (fun t => best_word t (bytes "ca")) =
      some (some (bytes "car")) ∧
    (scenario8 Variant.MOST_FREQUENT).map (fun t => best_word t (bytes "ca")) =
      some (some (bytes "cart")) ∧
    (scenario8 Variant.MOST_FREQUENT).map (fun t => best_word t (bytes "car")) =
      some (some (bytes "cart")) := by
  refine ⟨by decide!, by decide!, by decide!, by decide!⟩

/-- C10, the code at the failing input: in an empty MOST_RECENT trie, after `insert("cat")`
and then `insert("car")`, the completion of "ca" is still "cat": the propagation run by
`insert` (`propagate_if_better`) has no recency tie-break, unlike the loop of
`update_priority`. -/
theorem recency_tie_on_insert :
    best_word (demo_cat_car Variant.MOST_RECENT) (bytes "ca") = some (bytes "cat") ∧
    best_word (demo_cat_car Variant.MOST_RECENT) (bytes "ca") ≠ some (bytes "car") := by
  refine ⟨by decide!, by decide!⟩

/-! ## The history of accesses -/

theorem updates_append (a b : List Op) : updates (a ++ b) = updates a + updates b := by
  induction a with
  | nil => simp [updates]
  | cons op a ih =>
    cases op with
    | insert w =>
      show updates (a ++ b) = updates a + updates b
      exact ih
    | update_priority n =>
      show 1 + updates (a ++ b) = 1 + updates a + updates b
      rw [ih]
      omega

theorem hist_new (v : Variant) : Hist [] (Trie.new v) where
  unborn := fun _ _ => rfl
  accessed := fun n _ _ h => by simp [accesses] at h
  counter := fun _ => rfl
  distinct := fun _ x y _ _ _ _ _ h _ => by simp [accesses] at h

theorem hist_step {t t2 : Trie} {sp : Nat → List Nat} (g : Good t sp) {pre : List Op}
    (h : Hist pre t) {op : Op} (hs : step t op = some t2) : Hist (pre ++ [op]) t2 := by
  cases op with
  | insert w_raw =>
    simp only [step, Option.some.injEq] at hs
    subst hs
    have hacc : ∀ n, accesses n (pre ++ [Op.insert w_raw]) = accesses n pre := by
      intro n
      rw [accesses_append]
      simp [accesses]
    have hupd : updates (pre ++ [Op.insert w_raw]) = updates pre := by
      rw [updates_append]
      simp [updates]
    by_cases hne : canon w_raw = []
    · rw [insert_empty hne]
      exact
        { unborn := fun n hn => by rw [hacc]; exact h.unborn n hn
          accessed := fun n hn hnt ha => by rw [hacc] at ha; exact h.accessed n hn hnt ha
          counter := fun hv => by rw [hupd]; exact h.counter hv
          distinct := fun hv x y hx hy hxt hyt hxy ax ay => by
            rw [hacc] at ax ay
            exact h.distinct hv x y hx hy hxt hyt hxy ax ay }
    · obtain ⟨T, sp2, _, p⟩ := insert_post g w_raw hne
      have hold : ∀ n, n < (insert t w_raw).1.brk →
          ((insert t w_raw).1.mem n).is_terminal = true → 1 ≤ accesses n pre →
          n < t.brk ∧ (t.mem n).is_terminal = true := by
        intro n hn hnt ha
        by_cases hno : n < t.brk
        · rw [is_terminal_congr (p.str_eq n hno)] at hnt
          exact ⟨hno, hnt⟩
        · have := h.unborn n (fun hh => hno hh.1)
          omega
      exact
        { unborn := fun n hn => by
            rw [hacc]
            apply h.unborn n
            rintro ⟨h1, h2⟩
            apply hn
            refine ⟨lt_of_lt_of_le h1 p.brk_le, ?_⟩
            rw [is_terminal_congr (p.str_eq n h1)]
            exact h2
          accessed := fun n hn hnt ha => by
            rw [hacc] at ha
            obtain ⟨h1, h2⟩ := hold n hn hnt ha
            rw [p.priority_eq n h1]
            exact h.accessed n h1 h2 ha
          counter := fun hv => by
            rw [hupd, p.counter_eq]
            exact h.counter (by rw [← p.variant_eq]; exact hv)
          distinct := fun hv x y hx hy hxt hyt hxy ax ay => by
            rw [hacc] at ax ay
            obtain ⟨x1, x2⟩ := hold x hx hxt ax
            obtain ⟨y1, y2⟩ := hold y hy hyt ay
            rw [p.priority_eq x x1, p.priority_eq y y1]
            exact h.distinct (by rw [← p.variant_eq]; exact hv) x y x1 y1 x2 y2 hxy ax ay }
  | update_priority T =>
    obtain ⟨hT, hTt, e⟩ := step_update hs
    subst e
    obtain ⟨_, hone, hrec⟩ := g.priority_lt_new hT hTt
    have hacc : ∀ n, n ≠ T → accesses n (pre ++ [Op.update_priority T]) = accesses n pre := by
      intro n hn
      rw [accesses_append]
      simp [accesses, Ne.symm hn]
    have hupd : updates (pre ++ [Op.update_priority T]) = updates pre + 1 := by
      rw [updates_append]
      simp [updates]
    have hcnt : ∀ hv : t.variant = Variant.MOST_RECENT,
        new_counter t = t.access_counter_ + 1 := by
      intro hv
      simp [new_counter, hv]
    exact
      { unborn := fun n hn => by
          rw [after_update_terminal] at hn
          have hnT : n ≠ T := by
            intro e
            subst e
            exact hn ⟨hT, hTt⟩
          rw [hacc n hnT]
          exact h.unborn n hn
        accessed := fun n hn hnt ha => by
          rw [after_update_terminal] at hnt
          by_cases hnT : n = T
          · subst hnT
            rw [after_update_priority_same]
            exact hone
          · rw [hacc n hnT] at ha
            rw [after_update_priority_other t hnT]
            exact h.accessed n hn hnt ha
        counter := fun hv => by
          show new_counter t = _
          rw [hcnt hv, hupd, h.counter hv]
          push_cast
          rfl
        distinct := fun hv x y hx hy hxt hyt hxy ax ay => by
          have hv2 : t.variant = Variant.MOST_RECENT := hv
          rw [after_update_terminal] at hxt hyt
          have hx2 : x < t.brk := hx
          have hy2 : y < t.brk := hy
          by_cases hxT : x = T
          · subst hxT
            rw [after_update_priority_same, after_update_priority_other t (Ne.symm hxy),
              hrec hv2, hcnt hv2]
            have := g.recent hv2 y hy2 hyt
            omega
          · by_cases hyT : y = T
            · subst hyT
              rw [after_update_priority_same, after_update_priority_other t hxT,
                hrec hv2, hcnt hv2]
              have := g.recent hv2 x hx2 hxt
              omega
            · rw [hacc x hxT] at ax
              rw [hacc y hyT] at ay
              rw [after_update_priority_other t hxT, after_update_priority_other t hyT]
              exact h.distinct hv2 x y hx2 hy2 hxt hyt hxy ax ay }

theorem hist_run : ∀ (ops pre : List Op) (t t2 : Trie) (sp : Nat → List Nat),
    Good t sp → Hist pre t → run t ops = some t2 →
    ∃ sp2, Good t2 sp2 ∧ Hist (pre ++ ops) t2 := by
  intro ops
  induction ops with
  | nil =>
    intro pre t t2 sp g h hr
    simp only [run, Option.some.injEq] at hr
    subst hr
    rw [List.append_nil]
    exact ⟨sp, g, h⟩
  | cons op ops ih =>
    intro pre t t2 sp g h hr
    obtain ⟨t1, h1, h2⟩ := (run_cons t op ops t2).mp hr
    obtain ⟨sp1, g1, _, _⟩ := step_good g h1
    have := ih (pre ++ [op]) t1 t2 sp1 g1 (hist_step g h h1) h2
    rw [List.append_assoc] at this
    exact this

theorem run_variant : ∀ (ops : List Op) (t t2 : Trie) (sp : Nat → List Nat),
    Good t sp → run t ops = some t2 → t2.variant = t.variant := by
  intro ops
  induction ops with
  | nil =>
    intro t t2 sp _ hr
    simp only [run, Option.some.injEq] at hr
    subst hr
    rfl
  | cons op ops ih =>
    intro t t2 sp g hr
    obtain ⟨t1, h1, h2⟩ := (run_cons t op ops t2).mp hr
    obtain ⟨sp1, g1, _, _⟩ := step_good g h1
    rw [ih t1 t2 sp1 g1 h2]
    cases op with
    | insert w_raw =>
      simp only [step, Option.some.injEq] at h1
      subst h1
      exact insert_variant g w_raw
    | update_priority T =>
      obtain ⟨_, _, e⟩ := step_update h1
      subst e
      rfl

/-- In a state satisfying the invariant that holds a terminal, every node has a non-empty
cache. -/
theorem Good.best_ne_none {t : Trie} {sp : Nat → List Nat} (g : Good t sp) {T n : Nat}
    (hT : T < t.brk) (hTt : (t.mem T).is_terminal = true) (hn : n < t.brk) :
    (t.mem n).best_terminal ≠ none := by
  intro h0
  by_cases hz : n = 0
  · subst hz
    apply (g.cache 0 hn).1 h0 T hT hTt
    rw [g.shape.sp_root]
    exact List.nil_prefix
  · obtain ⟨w, hw, hwt, hwp⟩ := g.has_term n hn hz
    exact (g.cache n hn).1 h0 w hw hwt hwp

/-! ## Tie-breaks, fresh words and timestamps -/

theorem demo_tie_reachable : Reachable demo_tie :=
  ⟨Variant.MOST_FREQUENT,
    [Op.insert (bytes "cat"), Op.insert (bytes "car"), Op.update_priority 6,
      Op.update_priority 6, Op.update_priority 4], rfl⟩

theorem demo_freq_reachable : Reachable demo_freq :=
  ⟨Variant.MOST_FREQUENT,
    [Op.insert (bytes "cat"), Op.insert (bytes "car"), Op.update_priority 6,
      Op.update_priority 6], rfl⟩

theorem needs_update_pre (t : Trie) {T n : Nat} (hn : n ≠ T) :
    needs_update t.variant T (pre_loop_mem t T) n ↔
      ((t.mem n).best_terminal = none ∨ new_priority t T > (t.mem n).best_priority ∨
        (new_priority t T = (t.mem n).best_priority ∧ (t.mem n).best_terminal ≠ some T ∧
          t.variant = Variant.MOST_RECENT)) := by
  unfold needs_update
  rw [pre_loop_mem_other t hn, pre_loop_mem_same]

/-- Effect of `update_priority T` on the cache of another node: nothing, or it is overwritten
with `T` because the loop condition held for it. -/
theorem after_update_cases (t : Trie) {T n : Nat} (hn : n ≠ T) :
    (after_update t T).mem n = t.mem n ∨
    (needs_update t.variant T (pre_loop_mem t T) n ∧
      (after_update t T).mem n =
        { t.mem n with best_priority := new_priority t T, best_terminal := some T }) := by
  have h := update_loop_cases t.variant T t.brk (pre_loop_mem t T) (t.mem T).parent n
  rw [pre_loop_mem_other t hn, pre_loop_mem_same] at h
  exact h

/-- C11 (frequency tie-break is first-seen-wins): under the MOST_FREQUENT policy, in every
reachable state, `update_priority` on a terminal `T` succeeds and (a) if an ancestor `A` of `T`
caches another terminal with a priority equal to the new priority of `T`, the caches of `A`
and of every node above `A` are left unchanged; (b) the cache of a node other than `T` changes
only by being replaced with `T`, and only when the new priority of `T` is strictly higher
than the cached one; (c) an insertion never changes a non-empty cache. -/
theorem frequency_tie_break (t : Trie) (hr : Reachable t)
    (hv : t.variant = Variant.MOST_FREQUENT) (T : Nat) (hT : IsNode t T)
    (hTt : (t.mem T).is_terminal = true) :
    ∃ t2, update_priority t (some T) = some t2 ∧
      (∀ A, IsNode t A → A ≠ T → InSubtree t A T →
        (t.mem A).best_priority = (t2.mem T).priority →
        (t.mem A).best_terminal ≠ some T →
        ∀ A2, IsNode t A2 → InSubtree t A2 A →
          (t2.mem A2).best_terminal = (t.mem A2).best_terminal ∧
          (t2.mem A2).best_priority = (t.mem A2).best_priority) ∧
      (∀ n, IsNode t n → n ≠ T →
        ¬ ((t2.mem n).best_terminal = (t.mem n).best_terminal ∧
          (t2.mem n).best_priority = (t.mem n).best_priority) →
        (t2.mem n).best_terminal = some T ∧
          (t.mem n).best_priority < (t2.mem T).priority) ∧
      (∀ w_raw n, IsNode t n → (t.mem n).best_terminal ≠ none →
        ((insert t w_raw).1.mem n).best_terminal = (t.mem n).best_terminal ∧
        ((insert t w_raw).1.mem n).best_priority = (t.mem n).best_priority) := by
  obtain ⟨sp, g⟩ := reachable_good hr
  have hTb : T < t.brk := (g.shape.isNode_iff g.root).mp hT
  obtain ⟨l, hl⟩ := (g.term_iff T hTb).mp hTt
  have hnode : ∀ n, IsNode t n → n < t.brk := fun n hn => (g.shape.isNode_iff g.root).mp hn
  refine ⟨after_update t T, update_priority_eq hTt, ?_, ?_, ?_⟩
  · intro A hA hAT _ hbp _ A2 hA2 hA2A
    rw [after_update_priority_same] at hbp
    have hAb := hnode A hA
    have hA2b := hnode A2 hA2
    obtain ⟨_, hpre⟩ := (g.shape.inSubtree_iff hA2b).mp hA2A
    have hA2T : A2 ≠ T := by
      intro e
      subst e
      exact hAT (g.shape.leaf hTb hAb hl hpre)
    rcases after_update_cases t hA2T with h1 | ⟨h1, _⟩
    · rw [h1]
      exact ⟨rfl, rfl⟩
    · exfalso
      rcases (needs_update_pre t hA2T).mp h1 with h2 | h2 | ⟨_, _, h2⟩
      · exact g.best_ne_none hTb hTt hA2b h2
      · cases hb : (t.mem A).best_terminal with
        | none => exact g.best_ne_none hTb hTt hAb hb
        | some b =>
          obtain ⟨b1, b2, b3, b4, _⟩ := (g.cache A hAb).2 b hb
          cases hb2 : (t.mem A2).best_terminal with
          | none => exact g.best_ne_none hTb hTt hA2b hb2
          | some c =>
            have := ((g.cache A2 hA2b).2 c hb2).2.2.2.2 b b1 b2
              (List.IsPrefix.trans hpre b3)
            omega
      · rw [hv] at h2
        cases h2
  · intro n hn hnT hch
    have hnb := hnode n hn
    rcases after_update_cases t hnT with h1 | ⟨h1, h3⟩
    · exact absurd (by rw [h1]; exact ⟨rfl, rfl⟩) hch
    · rw [after_update_priority_same, h3]
      refine ⟨rfl, ?_⟩
      rcases (needs_update_pre t hnT).mp h1 with h2 | h2 | ⟨_, _, h2⟩
      · exact absurd h2 (g.best_ne_none hTb hTt hnb)
      · exact h2
      · rw [hv] at h2
        cases h2
  · intro w_raw n hn hb
    exact g.insert_keeps_cache w_raw (hnode n hn) hb

/-- C11 at a concrete input: the MOST_FREQUENT trie holding "cat" and "car", where "car" has
been accessed twice and "cat" once.  One more access of "cat" (node 4, priority 1) gives it
priority 2, which is the priority node "ca" (node 2) caches for "car" (node 6): the tie of
part (a) occurs at `A = 2`, and node 2 keeps "car" while node "cat" (node 3) names node 4. -/
theorem frequency_tie_break_witness :
    (demo_tie.mem 4).priority = 1 ∧
    (demo_tie.mem 2).best_terminal = some 6 ∧ (demo_tie.mem 2).best_priority = 2 ∧
    InSubtree demo_tie 2 4 ∧
    (update_priority demo_tie (some 4)).map
      (fun t2 => ((t2.mem 4).priority, (t2.mem 3).best_terminal, (t2.mem 2).best_terminal,
        (t2.mem 2).best_priority)) = some (2, some 4, some 6, 2) ∧
    ∃ t2, update_priority demo_tie (some 4) = some t2 ∧
      (∀ A, IsNode demo_tie A → A ≠ 4 → InSubtree demo_tie A 4 →
        (demo_tie.mem A).best_priority = (t2.mem 4).priority →
        (demo_tie.mem A).best_terminal ≠ some 4 →
        ∀ A2, IsNode demo_tie A2 → InSubtree demo_tie A2 A →
          (t2.mem A2).best_terminal = (demo_tie.mem A2).best_terminal ∧
          (t2.mem A2).best_priority = (demo_tie.mem A2).best_priority) ∧
      (∀ n, IsNode demo_tie n → n ≠ 4 →
        ¬ ((t2.mem n).best_terminal = (demo_tie.mem n).best_terminal ∧
          (t2.mem n).best_priority = (demo_tie.mem n).best_priority) →
        (t2.mem n).best_terminal = some 4 ∧
          (demo_tie.mem n).best_priority < (t2.mem 4).priority) ∧
      (∀ w_raw n, IsNode demo_tie n → (demo_tie.mem n).best_terminal ≠ none →
        ((insert demo_tie w_raw).1.mem n).best_terminal = (demo_tie.mem n).best_terminal ∧
        ((insert demo_tie w_raw).1.mem n).best_priority =
          (demo_tie.mem n).best_priority) :=
  ⟨by decide!, by decide!, by decide!, inSubtree_of_walk [19, 26] 2 4 (by decide!),
    by decide!,
    frequency_tie_break demo_tie demo_tie_reachable (by decide!) 4
      (inSubtree_of_walk [2, 0, 19, 26] _ 4 (by decide!)) (by decide!)⟩

/-- C12 (fresh words rank lowest): in the state reached from an empty trie by any sequence of
calls, under either policy, (a) a terminal newly created by `insert` has priority 0, (b)
every terminal on which `update_priority` has been called at least once has priority at least
1, and (c) an insertion leaves unchanged the cache of every existing node whose cached word
has been accessed. -/
theorem fresh_words_rank_lowest (v : Variant) (ops : List Op) (t : Trie)
    (hrun : run (Trie.new v) ops = some t) :
    (∀ w_raw T, (insert t w_raw).2 = some T → ¬ IsNode t T →
      ((insert t w_raw).1.mem T).is_terminal = true ∧
      ((insert t w_raw).1.mem T).priority = 0) ∧
    (∀ T, IsNode t T → (t.mem T).is_terminal = true → 1 ≤ accesses T ops →
      1 ≤ (t.mem T).priority) ∧
    (∀ w_raw n b, IsNode t n → (t.mem n).best_terminal = some b → 1 ≤ accesses b ops →
      ((insert t w_raw).1.mem n).best_terminal = some b ∧
      ((insert t w_raw).1.mem n).best_priority = (t.mem n).best_priority) := by
  obtain ⟨sp, g, h⟩ := hist_run ops [] _ t _ (new_good v) (hist_new v) hrun
  rw [List.nil_append] at h
  have hnode : ∀ n, IsNode t n ↔ n < t.brk := fun n => g.shape.isNode_iff g.root
  refine ⟨?_, ?_, ?_⟩
  · intro w_raw T hres hnew
    have hne : canon w_raw ≠ [] := by
      intro e
      rw [insert_empty e] at hres
      cases hres
    obtain ⟨T2, sp2, h2, p⟩ := insert_post g w_raw hne
    rw [hres] at h2
    cases h2
    have hge : t.brk ≤ T := Nat.le_of_not_lt (fun hh => hnew ((hnode T).mpr hh))
    exact ⟨p.T_term, (p.new_term T hge p.T_lt p.T_term).2⟩
  · intro T hT hTt ha
    exact h.accessed T ((hnode T).mp hT) hTt ha
  · intro w_raw n b hn hb _
    have := g.insert_keeps_cache w_raw ((hnode n).mp hn) (by rw [hb]; simp)
    rw [hb] at this
    exact this

/-- C12 at a concrete input: the state after "cat", "car" and two accesses to "car". -/
theorem fresh_words_rank_lowest_witness :
    (∀ w_raw T, (insert demo_freq w_raw).2 = some T → ¬ IsNode demo_freq T →
      ((insert demo_freq w_raw).1.mem T).is_terminal = true ∧
      ((insert demo_freq w_raw).1.mem T).priority = 0) ∧
    (∀ T, IsNode demo_freq T → (demo_freq.mem T).is_terminal = true →
      1 ≤ accesses T [Op.insert (bytes "cat"), Op.insert (bytes "car"),
        Op.update_priority 6, Op.update_priority 6] →
      1 ≤ (demo_freq.mem T).priority) ∧
    (∀ w_raw n b, IsNode demo_freq n → (demo_freq.mem n).best_terminal = some b →
      1 ≤ accesses b [Op.insert (bytes "cat"), Op.insert (bytes "car"),
        Op.update_priority 6, Op.update_priority 6] →
      ((insert demo_freq w_raw).1.mem n).best_terminal = some b ∧
      ((insert demo_freq w_raw).1.mem n).best_priority = (demo_freq.mem n).best_priority) :=
  fresh_words_rank_lowest Variant.MOST_FREQUENT
    [Op.insert (bytes "cat"), Op.insert (bytes "car"), Op.update_priority 6,
      Op.update_priority 6] demo_freq rfl

/-- C13 (recency timestamps are strictly increasing): in the state reached from an empty
MOST_RECENT trie by any sequence of calls, the access counter equals the number of
`update_priority` calls made, the priorities of accessed terminals are pairwise distinct, and
`update_priority` on a terminal `T` succeeds, raises the counter by exactly one and sets the
priority of `T` to the new counter value, which is strictly above the priority every terminal
had and above every `best_priority` cached in the trie before the call; no other priority
changes. -/
theorem recency_timestamps (ops : List Op) (t : Trie)
    (hrun : run (Trie.new Variant.MOST_RECENT) ops = some t) :
    t.access_counter_ = updates ops ∧
    (∀ x y, IsNode t x → IsNode t y → (t.mem x).is_terminal = true →
      (t.mem y).is_terminal = true → x ≠ y → 1 ≤ accesses x ops → 1 ≤ accesses y ops →
      (t.mem x).priority ≠ (t.mem y).priority) ∧
    (∀ T, IsNode t T → (t.mem T).is_terminal = true →
      ∃ t2, update_priority t (some T) = some t2 ∧
        t2.access_counter_ = t.access_counter_ + 1 ∧
        (t2.mem T).priority = t2.access_counter_ ∧
        (∀ x, IsNode t x → (t.mem x).is_terminal = true →
          (t.mem x).priority < (t2.mem T).priority) ∧
        (∀ n, IsNode t n → (t.mem n).best_priority < (t2.mem T).priority) ∧
        (∀ x, x ≠ T → (t2.mem x).priority = (t.mem x).priority)) := by
  obtain ⟨sp, g, h⟩ := hist_run ops [] _ t _ (new_good Variant.MOST_RECENT)
    (hist_new Variant.MOST_RECENT) hrun
  rw [List.nil_append] at h
  have hv : t.variant = Variant.MOST_RECENT :=
    run_variant ops _ t _ (new_good Variant.MOST_RECENT) hrun
  have hnode : ∀ n, IsNode t n → n < t.brk := fun n hn => (g.shape.isNode_iff g.root).mp hn
  refine ⟨h.counter hv, ?_, ?_⟩
  · intro x y hx hy hxt hyt hxy ax ay
    exact h.distinct hv x y (hnode x hx) (hnode y hy) hxt hyt hxy ax ay
  · intro T hT hTt
    have hTb := hnode T hT
    have hcnt : new_counter t = t.access_counter_ + 1 := by simp [new_counter, hv]
    have hpri : new_priority t T = t.access_counter_ + 1 := by simp [new_priority, hv]
    refine ⟨after_update t T, update_priority_eq hTt, hcnt, ?_, ?_, ?_, ?_⟩
    · rw [after_update_priority_same, hpri]
      exact hcnt.symm
    · intro x hx hxt
      rw [after_update_priority_same, hpri]
      have := g.recent hv x (hnode x hx) hxt
      omega
    · intro n hn
      rw [after_update_priority_same, hpri]
      have hnb := hnode n hn
      cases hb : (t.mem n).best_terminal with
      | none => exact absurd hb (g.best_ne_none hTb hTt hnb)
      | some b =>
        obtain ⟨b1, b2, _, b4, _⟩ := (g.cache n hnb).2 b hb
        have := g.recent hv b b1 b2
        omega
    · intro x hx
      exact after_update_priority_other t hx

/-- C13 at a concrete input: the MOST_RECENT state after "cat", "car" and one access to
"car". -/
theorem recency_timestamps_witness :
    demo_recent.access_counter_ =
      updates [Op.insert (bytes "cat"), Op.insert (bytes "car"), Op.update_priority 6] ∧
    (∀ x y, IsNode demo_recent x → IsNode demo_recent y →
      (demo_recent.mem x).is_terminal = true → (demo_recent.mem y).is_terminal = true →
      x ≠ y →
      1 ≤ accesses x [Op.insert (bytes "cat"), Op.insert (bytes "car"),
        Op.update_priority 6] →
      1 ≤ accesses y [Op.insert (bytes "cat"), Op.insert (bytes "car"),
        Op.update_priority 6] →
      (demo_recent.mem x).priority ≠ (demo_recent.mem y).priority) ∧
    (∀ T, IsNode demo_recent T → (demo_recent.mem T).is_terminal = true →
      ∃ t2, update_priority demo_recent (some T) = some t2 ∧
        t2.access_counter_ = demo_recent.access_counter_ + 1 ∧
        (t2.mem T).priority = t2.access_counter_ ∧
        (∀ x, IsNode demo_recent x → (demo_recent.mem x).is_terminal = true →
          (demo_recent.mem x).priority < (t2.mem T).priority) ∧
        (∀ n, IsNode demo_recent n →
          (demo_recent.mem n).best_priority < (t2.mem T).priority) ∧
        (∀ x, x ≠ T → (t2.mem x).priority = (demo_recent.mem x).priority)) :=
  recency_timestamps
    [Op.insert (bytes "cat"), Op.insert (bytes "car"), Op.update_priority 6] demo_recent rfl

/-! ## Failure, counters and completions of reached prefixes -/

/-- C14 (priority update precondition): `update_priority` fails its assertion (result `none`,
the call yields no new state: the test is made before any write) exactly when the handle is
null or designates a node that is not terminal; on every terminal node it succeeds.  The
other mutating operation, `insert`, always yields a state; `descend` and `autocomplete` are
total functions that answer not-found by `none`. -/
theorem update_precondition (t : Trie) (h : Option Nat) :
    (update_priority t h = none ↔
      (h = none ∨ ∃ T, h = some T ∧ (t.mem T).is_terminal = false)) ∧
    (∀ T, (t.mem T).is_terminal = true → ∃ t2, update_priority t (some T) = some t2) ∧
    (∀ w_raw, step t (Op.insert w_raw) = some (insert t w_raw).1) := by
  refine ⟨?_, ?_, fun _ => rfl⟩
  · cases h with
    | none => simp [update_priority]
    | some T =>
      cases hT : (t.mem T).is_terminal with
      | false =>
        rw [update_priority_not_terminal hT]
        simp [hT]
      | true =>
        rw [update_priority_eq hT]
        simp [hT]
  · intro T hT
    exact ⟨after_update t T, update_priority_eq hT⟩

theorem insert_walk_chars : ∀ (w : List Nat) (t : Trie) (u : Nat), (∀ c ∈ w, lower c) →
    (insert_walk t u w).1.total_chars_ = t.total_chars_ + w.length := by
  intro w
  induction w with
  | nil => intro t u _; rfl
  | cons c w ih =>
    intro t u hw
    rw [insert_walk_cons t u c w (hw c (List.mem_cons_self c w)),
      ih _ _ (fun x hx => hw x (List.mem_cons_of_mem c hx))]
    simp only [List.length_cons]
    rw [(ensure_child_fields t u (slot c)).2.2.2.2.2.1]
    omega

/-- C15, as amended (total-characters side effect): in every state, an `insert` whose
canonical word `w` is non-empty raises `total_chars` by exactly `|w| + 1`, one for every
symbol it walks over including the terminator, whether or not the symbol's node had to be
created; an `insert` of a text without letters leaves it unchanged. -/
theorem insert_total_chars (t : Trie) (w_raw : List Nat) :
    total_chars (insert t w_raw).1 =
      total_chars t + (if canon w_raw = [] then 0 else (canon w_raw).length + 1) := by
  unfold total_chars
  by_cases hne : canon w_raw = []
  · rw [insert_empty hne, if_pos hne]
    rfl
  · rw [if_neg hne, insert_nonempty hne]
    have h1 := insert_walk_chars (canon w_raw) t t.root_ (canon_lower w_raw)
    have h2 := (ensure_child_fields (insert_walk t t.root_ (canon w_raw)).1
      (insert_walk t t.root_ (canon w_raw)).2 26).2.2.2.2.2.1
    split
    · simp only []
      rw [h2, h1]
      omega
    · simp only []
      rw [(insert_new_fields _ _ _).2.2.2.2.2.2.1, h2, h1]
      omega

/-- C15, counterexample to the claim as stated: re-inserting "cat" into the trie that holds
"cat" creates no node, the node count stays 5, yet `total_chars` goes from 4 to 8. -/
theorem reinsert_total_chars :
    stored (demo_cat Variant.MOST_FREQUENT) (bytes "cat") 4 ∧
    node_count (insert (demo_cat Variant.MOST_FREQUENT) (bytes "cat")).1 = 5 ∧
    node_count (demo_cat Variant.MOST_FREQUENT) = 5 ∧
    total_chars (demo_cat Variant.MOST_FREQUENT) = 4 ∧
    total_chars (insert (demo_cat Variant.MOST_FREQUENT) (bytes "cat")).1 = 8 := by
  refine ⟨⟨by decide!, by decide!⟩, by decide!, by decide!, by decide!, by decide!⟩

theorem descend_some {t : Trie} {v c x : Nat} (h : descend t (some v) c = some x) :
    ∃ k, (t.mem v).next k = some x := by
  simp only [descend] at h
  by_cases h1 : idx_of (if c = 36 then 36 else tolower c) < 0
  · rw [if_pos h1] at h
    cases h
  · rw [if_neg h1] at h
    exact ⟨_, h⟩

theorem Shape.descend_all_lt {t : Trie} {sp : Nat → List Nat} (hs : Shape t.mem t.brk sp) :
    ∀ (p : List Nat) (v N : Nat), v < t.brk → descend_all t (some v) p = some N →
      N < t.brk ∧ v ≤ N ∧ (p ≠ [] → v < N) := by
  intro p
  induction p with
  | nil =>
    intro v N hv h
    simp only [descend_all, Option.some.injEq] at h
    subst h
    exact ⟨hv, le_refl _, fun h => absurd rfl h⟩
  | cons c p ih =>
    intro v N hv h
    simp only [descend_all] at h
    cases hd : descend t (some v) c with
    | none =>
      rw [hd, descend_all_none] at h
      cases h
    | some x =>
      rw [hd] at h
      obtain ⟨k, hk⟩ := descend_some hd
      obtain ⟨hx, hvx, _, _⟩ := hs.child v k x hv hk
      obtain ⟨h1, h2, _⟩ := ih x N hx h
      exact ⟨h1, by omega, fun _ => by omega⟩

/-- The root cache is in its initial state as long as it is empty. -/
theorem sentinel_run : ∀ (ops : List Op) (t t2 : Trie) (sp : Nat → List Nat),
    Good t sp →
    ((t.mem 0).best_terminal = none → (t.mem 0).best_priority = INT64_MIN) →
    run t ops = some t2 →
    ((t2.mem 0).best_terminal = none → (t2.mem 0).best_priority = INT64_MIN) := by
  intro ops
  induction ops with
  | nil =>
    intro t t2 sp _ h hr
    simp only [run, Option.some.injEq] at hr
    subst hr
    exact h
  | cons op ops ih =>
    intro t t2 sp g h hr
    obtain ⟨t1, h1, h2⟩ := (run_cons t op ops t2).mp hr
    obtain ⟨sp1, g1, _, _⟩ := step_good g h1
    apply ih t1 t2 sp1 g1 _ h2
    cases op with
    | insert w_raw =>
      simp only [step, Option.some.injEq] at h1
      subst h1
      by_cases hne : canon w_raw = []
      · rw [insert_empty hne]
        exact h
      · obtain ⟨T, sp2, _, p⟩ := insert_post g w_raw hne
        intro h0
        exact absurd h0 (p.good.best_ne_none p.T_lt p.T_term p.good.shape.brk_pos)
    | update_priority T =>
      obtain ⟨hT, hTt, e⟩ := step_update h1
      subst e
      intro h0
      have g2 := after_update_good g hT hTt
      exact absurd h0
        (g2.best_ne_none hT (by rw [after_update_terminal]; exact hTt) g2.shape.brk_pos)

/-- C20 (a reached prefix always has a completion): in the state reached from an empty trie
by any sequence of calls, every non-root node has a present `autocomplete` result with
`best_priority >= 0`; the root's `autocomplete` result is absent exactly when no text with a
letter has been inserted, and then its `best_priority` is the minimum sentinel; and whenever
the descent of a non-empty prefix succeeds, `autocomplete` on the reached node returns a
terminal whose word is in the word store. -/
theorem reached_prefix_has_completion (v : Variant) (ops : List Op) (t : Trie)
    (hrun : run (Trie.new v) ops = some t) :
    (∀ n, IsNode t n → n ≠ t.root_ →
      ∃ b, autocomplete t (some n) = some b ∧ 0 ≤ (t.mem n).best_priority) ∧
    (autocomplete t (some t.root_) = none ↔ ∀ raw, Op.insert raw ∈ ops → canon raw = []) ∧
    (autocomplete t (some t.root_) = none → (t.mem t.root_).best_priority = INT64_MIN) ∧
    (∀ p N, p ≠ [] → descend_all t (some t.root_) p = some N →
      ∃ b w, autocomplete t (some N) = some b ∧ (t.mem b).is_terminal = true ∧
        word_of t (some b) = some w ∧ w ∈ t.dict_) := by
  obtain ⟨sp, g, w⟩ := words_run ops [] _ t _ (new_good v) (words_new v) hrun
  rw [List.nil_append] at w
  have hsent := sentinel_run ops _ t _ (new_good v) (fun _ => rfl) hrun
  have hnonroot : ∀ n, n < t.brk → n ≠ 0 →
      ∃ b, (t.mem n).best_terminal = some b ∧ b < t.brk ∧ (t.mem b).is_terminal = true ∧
        0 ≤ (t.mem n).best_priority := by
    intro n hn h0
    obtain ⟨x, hx, hxt, _⟩ := g.has_term n hn h0
    have hb := g.best_ne_none hx hxt hn
    cases hbt : (t.mem n).best_terminal with
    | none => exact absurd hbt hb
    | some b =>
      obtain ⟨b1, b2, _, _, _⟩ := (g.cache n hn).2 b hbt
      exact ⟨b, rfl, b1, b2, g.best_priority_nonneg hn hb⟩
  refine ⟨?_, ?_, ?_, ?_⟩
  · intro n hn hnr
    rw [g.root] at hnr
    obtain ⟨b, hb, _, _, h0⟩ := hnonroot n ((g.shape.isNode_iff g.root).mp hn) hnr
    exact ⟨b, hb, h0⟩
  · rw [g.root]
    simp only [autocomplete]
    constructor
    · intro h0 raw hraw
      by_contra hne
      obtain ⟨n, hn, hnt, _⟩ := w.2 raw hraw hne
      exact g.best_ne_none hn hnt g.shape.brk_pos h0
    · intro hall
      cases hb : (t.mem 0).best_terminal with
      | none => rfl
      | some b =>
        exfalso
        obtain ⟨b1, b2, _, _, _⟩ := (g.cache 0 g.shape.brk_pos).2 b hb
        obtain ⟨raw, hraw, hsp⟩ := w.1 b b1 b2
        have hc := hall raw hraw
        rw [hc] at hsp
        have hw := g.shape.walk_sp b b1
        rw [hsp] at hw
        simp only [slots, List.map_nil, List.nil_append, walk] at hw
        rw [g.root_slot] at hw
        cases hw
  · rw [g.root]
    exact hsent
  · intro p N hp hd
    rw [g.root] at hd
    obtain ⟨hN, _, hlt⟩ := g.shape.descend_all_lt p 0 N g.shape.brk_pos hd
    have hN0 : N ≠ 0 := by
      have := hlt hp
      omega
    obtain ⟨b, hb, b1, b2, _⟩ := hnonroot N hN hN0
    cases hs : (t.mem b).str with
    | none => simp [Node.is_terminal, hs] at b2
    | some i =>
      have hget := g.str b i b1 hs
      refine ⟨b, _, hb, b2, ?_, List.get?_mem hget⟩
      simp only [word_of, hs]
      exact hget

/-- C20 at a concrete input: the trie holding the one word "cat". -/
theorem reached_prefix_has_completion_witness :
    (∀ n, IsNode (demo_cat Variant.MOST_RECENT) n → n ≠ (demo_cat Variant.MOST_RECENT).root_ →
      ∃ b, autocomplete (demo_cat Variant.MOST_RECENT) (some n) = some b ∧
        0 ≤ ((demo_cat Variant.MOST_RECENT).mem n).best_priority) ∧
    (autocomplete (demo_cat Variant.MOST_RECENT) (some (demo_cat Variant.MOST_RECENT).root_) =
        none ↔ ∀ raw, Op.insert raw ∈ [Op.insert (bytes "cat")] → canon raw = []) ∧
    (autocomplete (demo_cat Variant.MOST_RECENT) (some (demo_cat Variant.MOST_RECENT).root_) =
        none →
      ((demo_cat Variant.MOST_RECENT).mem (demo_cat Variant.MOST_RECENT).root_).best_priority =
        INT64_MIN) ∧
    (∀ p N, p ≠ [] →
      descend_all (demo_cat Variant.MOST_RECENT) (some (demo_cat Variant.MOST_RECENT).root_) p =
        some N →
      ∃ b w, autocomplete (demo_cat Variant.MOST_RECENT) (some N) = some b ∧
        ((demo_cat Variant.MOST_RECENT).mem b).is_terminal = true ∧
        word_of (demo_cat Variant.MOST_RECENT) (some b) = some w ∧
        w ∈ (demo_cat Variant.MOST_RECENT).dict_) :=
  reached_prefix_has_completion Variant.MOST_RECENT [Op.insert (bytes "cat")]
    (demo_cat Variant.MOST_RECENT) rfl

/-! ## The shape of the tree -/

theorem Shape.climb {mem : Nat → Node} {brk : Nat} {sp : Nat → List Nat}
    (h : Shape mem brk sp) : ∀ c, c < brk → nth_parent mem (sp c).length c = some 0 := by
  intro c
  induction c using Nat.strong_induction_on with
  | _ c ih =>
    intro hc
    by_cases h0 : c = 0
    · subst h0
      rw [h.sp_root]
      rfl
    · obtain ⟨u, k, hu, hk⟩ := h.parent c hc h0
      obtain ⟨_, huc, hpar, hsp⟩ := h.child u k c hu hk
      rw [hsp]
      simp only [List.length_append, List.length_singleton, nth_parent, hpar]
      exact ih u huc hu

theorem slots_unslots {l : List Nat} (hl : ∀ x ∈ l, x < 26) :
    slots (unslots l) = l ∧ ∀ c ∈ unslots l, lower c := by
  induction l with
  | nil =>
    refine ⟨rfl, ?_⟩
    intro c hc
    simp [unslots] at hc
  | cons a l ih =>
    obtain ⟨h1, h2⟩ := ih (fun x hx => hl x (List.mem_cons_of_mem a hx))
    have ha := hl a (List.mem_cons_self a l)
    have hlow : lower (a + 97) := by
      unfold lower
      omega
    constructor
    · simp only [unslots, slots, List.map_cons] at h1 ⊢
      rw [h1, (idx_of_lower hlow).2.2.1]
      simp
    · intro c hc
      simp only [unslots, List.map_cons, List.mem_cons] at hc
      rcases hc with e | hc
      · rw [e]; exact hlow
      · exact h2 c hc

theorem unslots_inj {a b : List Nat} (h : unslots a = unslots b) : a = b := by
  unfold unslots at h
  exact List.map_injective_iff.mpr (fun x y hxy => by simpa using hxy) h

/-- The word stored at a terminal spells the letter slots on the path to its parent. -/
theorem Good.word_of_terminal {t : Trie} {sp : Nat → List Nat} (g : Good t sp) {T : Nat}
    (hT : T < t.brk) (hTt : (t.mem T).is_terminal = true) :
    ∃ l, sp T = l ++ [26] ∧ (∀ x ∈ l, x < 26) ∧ word_of t (some T) = some (unslots l) := by
  obtain ⟨l, hl⟩ := (g.term_iff T hT).mp hTt
  have hlt : ∀ x ∈ l, x < 26 := by
    have := g.shape.slot_lt T hT
    rw [hl, List.dropLast_concat] at this
    exact this
  refine ⟨l, hl, hlt, ?_⟩
  cases hs : (t.mem T).str with
  | none => simp [Node.is_terminal, hs] at hTt
  | some i =>
    have := g.str T i hT hs
    rw [hl, List.dropLast_concat] at this
    simp only [word_of, hs]
    exact this

/-- C17 (tree shape invariant): in every reachable state, (a) the child in any slot of a node
has that node as its `parent`, the root has no parent, every non-root node is the child of
exactly one (parent, slot) pair, and following parent links from any node reaches the root;
(b) a node is terminal if and only if it occupies the terminator slot (index 26) of a node;
(c) distinct terminals store distinct words, and the word stored at a terminal consists of
lower-case letters that lead from the root to the terminal's parent, whose `'$'` child it
is. -/
theorem tree_shape (t : Trie) (hr : Reachable t) :
    (∀ u k c, IsNode t u → (t.mem u).next k = some c →
      IsNode t c ∧ (t.mem c).parent = some u) ∧
    (t.mem t.root_).parent = none ∧
    (∀ c, IsNode t c → c ≠ t.root_ →
      ∃ u k, IsNode t u ∧ (t.mem u).next k = some c ∧ (t.mem c).parent = some u ∧
        ∀ u2 k2, IsNode t u2 → (t.mem u2).next k2 = some c → u2 = u ∧ k2 = k) ∧
    (∀ c, IsNode t c → ∃ d, nth_parent t.mem d c = some t.root_) ∧
    (∀ c, IsNode t c →
      ((t.mem c).is_terminal = true ↔ ∃ u, IsNode t u ∧ (t.mem u).next 26 = some c)) ∧
    (∀ a b, IsNode t a → IsNode t b → (t.mem a).is_terminal = true →
      (t.mem b).is_terminal = true → word_of t (some a) = word_of t (some b) → a = b) ∧
    (∀ T, IsNode t T → (t.mem T).is_terminal = true →
      ∃ w p, word_of t (some T) = some w ∧ (∀ c ∈ w, lower c) ∧
        (t.mem T).parent = some p ∧ descend_all t (some t.root_) w = some p ∧
        descend t (some p) 36 = some T) := by
  obtain ⟨sp, g⟩ := reachable_good hr
  have hnode : ∀ n, IsNode t n ↔ n < t.brk := fun n => g.shape.isNode_iff g.root
  have hedge : ∀ c, c < t.brk → c ≠ 0 →
      ∃ u k, u < t.brk ∧ (t.mem u).next k = some c ∧ (t.mem c).parent = some u ∧
        sp c = sp u ++ [k] := by
    intro c hc h0
    obtain ⟨u, k, hu, hk⟩ := g.shape.parent c hc h0
    obtain ⟨_, _, hpar, hsp⟩ := g.shape.child u k c hu hk
    exact ⟨u, k, hu, hk, hpar, hsp⟩
  refine ⟨?_, ?_, ?_, ?_, ?_, ?_, ?_⟩
  · intro u k c hu hk
    obtain ⟨hc, _, hpar, _⟩ := g.shape.child u k c ((hnode u).mp hu) hk
    exact ⟨(hnode c).mpr hc, hpar⟩
  · rw [g.root]
    exact g.shape.root_parent
  · intro c hc h0
    rw [g.root] at h0
    obtain ⟨u, k, hu, hk, hpar, hsp⟩ := hedge c ((hnode c).mp hc) h0
    refine ⟨u, k, (hnode u).mpr hu, hk, hpar, ?_⟩
    intro u2 k2 hu2 hk2
    obtain ⟨_, _, hpar2, hsp2⟩ := g.shape.child u2 k2 c ((hnode u2).mp hu2) hk2
    rw [hpar] at hpar2
    have e : u2 = u := (Option.some.inj hpar2).symm
    subst e
    rw [hsp] at hsp2
    have := List.append_cancel_left hsp2
    simp only [List.cons.injEq, and_true] at this
    exact ⟨rfl, this.symm⟩
  · intro c hc
    rw [g.root]
    exact ⟨_, g.shape.climb c ((hnode c).mp hc)⟩
  · intro c hc
    have hcb := (hnode c).mp hc
    rw [g.term_iff c hcb]
    constructor
    · rintro ⟨l, hl⟩
      have h0 : c ≠ 0 := by
        intro e
        subst e
        rw [g.shape.sp_root] at hl
        simp at hl
      obtain ⟨u, k, hu, hk, _, hsp⟩ := hedge c hcb h0
      rw [hl] at hsp
      have hk26 : k = 26 := by
        have := congrArg List.getLast? hsp
        simp only [List.getLast?_concat, Option.some.injEq] at this
        exact this.symm
      subst hk26
      exact ⟨u, (hnode u).mpr hu, hk⟩
    · rintro ⟨u, hu, hk⟩
      obtain ⟨_, _, _, hsp⟩ := g.shape.child u 26 c ((hnode u).mp hu) hk
      exact ⟨sp u, hsp⟩
  · intro a b ha hb hat hbt hw
    have hab := (hnode a).mp ha
    have hbb := (hnode b).mp hb
    obtain ⟨la, hla, _, hwa⟩ := g.word_of_terminal hab hat
    obtain ⟨lb, hlb, _, hwb⟩ := g.word_of_terminal hbb hbt
    rw [hwa, hwb] at hw
    have := unslots_inj (Option.some.inj hw)
    subst this
    exact g.shape.sp_inj hab hbb (by rw [hla, hlb])
  · intro T hT hTt
    have hTb := (hnode T).mp hT
    obtain ⟨l, hl, hlt, hw⟩ := g.word_of_terminal hTb hTt
    have h0 : T ≠ 0 := by
      intro e
      subst e
      rw [g.shape.sp_root] at hl
      simp at hl
    obtain ⟨u, k, hu, hk, hpar, hsp⟩ := hedge T hTb h0
    rw [hl] at hsp
    have hk26 : k = 26 := by
      have := congrArg List.getLast? hsp
      simp only [List.getLast?_concat, Option.some.injEq] at this
      exact this.symm
    subst hk26
    have hlu : l = sp u := List.append_cancel_right hsp
    obtain ⟨s1, s2⟩ := slots_unslots hlt
    refine ⟨unslots l, u, hw, s2, hpar, ?_, ?_⟩
    · rw [g.root, descend_all_lower t _ 0 s2, s1, hlu]
      exact g.shape.walk_sp u hu
    · rw [descend_dollar]
      exact hk

/-- C17 at a concrete input: the trie holding "cat" and "car". -/
theorem tree_shape_witness :
    (∀ u k c, IsNode (demo_cat_car Variant.MOST_RECENT) u →
      ((demo_cat_car Variant.MOST_RECENT).mem u).next k = some c →
      IsNode (demo_cat_car Variant.MOST_RECENT) c ∧
        ((demo_cat_car Variant.MOST_RECENT).mem c).parent = some u) ∧
    ((demo_cat_car Variant.MOST_RECENT).mem (demo_cat_car Variant.MOST_RECENT).root_).parent =
      none ∧
    (∀ c, IsNode (demo_cat_car Variant.MOST_RECENT) c →
      c ≠ (demo_cat_car Variant.MOST_RECENT).root_ →
      ∃ u k, IsNode (demo_cat_car Variant.MOST_RECENT) u ∧
        ((demo_cat_car Variant.MOST_RECENT).mem u).next k = some c ∧
        ((demo_cat_car Variant.MOST_RECENT).mem c).parent = some u ∧
        ∀ u2 k2, IsNode (demo_cat_car Variant.MOST_RECENT) u2 →
          ((demo_cat_car Variant.MOST_RECENT).mem u2).next k2 = some c → u2 = u ∧ k2 = k) ∧
    (∀ c, IsNode (demo_cat_car Variant.MOST_RECENT) c →
      ∃ d, nth_parent (demo_cat_car Variant.MOST_RECENT).mem d c =
        some (demo_cat_car Variant.MOST_RECENT).root_) ∧
    (∀ c, IsNode (demo_cat_car Variant.MOST_RECENT) c →
      (((demo_cat_car Variant.MOST_RECENT).mem c).is_terminal = true ↔
        ∃ u, IsNode (demo_cat_car Variant.MOST_RECENT) u ∧
          ((demo_cat_car Variant.MOST_RECENT).mem u).next 26 = some c)) ∧
    (∀ a b, IsNode (demo_cat_car Variant.MOST_RECENT) a →
      IsNode (demo_cat_car Variant.MOST_RECENT) b →
      ((demo_cat_car Variant.MOST_RECENT).mem a).is_terminal = true →
      ((demo_cat_car Variant.MOST_RECENT).mem b).is_terminal = true →
      word_of (demo_cat_car Variant.MOST_RECENT) (some a) =
        word_of (demo_cat_car Variant.MOST_RECENT) (some b) → a = b) ∧
    (∀ T, IsNode (demo_cat_car Variant.MOST_RECENT) T →
      ((demo_cat_car Variant.MOST_RECENT).mem T).is_terminal = true →
      ∃ w p, word_of (demo_cat_car Variant.MOST_RECENT) (some T) = some w ∧
        (∀ c ∈ w, lower c) ∧
        ((demo_cat_car Variant.MOST_RECENT).mem T).parent = some p ∧
        descend_all (demo_cat_car Variant.MOST_RECENT)
          (some (demo_cat_car Variant.MOST_RECENT).root_) w = some p ∧
        descend (demo_cat_car Variant.MOST_RECENT) (some p) 36 = some T) :=
  tree_shape (demo_cat_car Variant.MOST_RECENT) (demo_cat_car_reachable Variant.MOST_RECENT)

/-! ## Node count -/

theorem walk_depth_le (mem : Nat → Node) : ∀ (ks : List Nat) (u : Nat),
    walk_depth mem u ks ≤ ks.length := by
  intro ks
  induction ks with
  | nil => intro u; simp [walk_depth]
  | cons k ks ih =>
    intro u
    simp only [walk_depth, List.length_cons]
    cases (mem u).next k with
    | none => simp
    | some c =>
      have := ih c
      simp only
      omega

theorem walk_depth_blank (mem : Nat → Node) (u : Nat) (h : ∀ k, (mem u).next k = none) :
    ∀ ks, walk_depth mem u ks = 0 := by
  intro ks
  cases ks with
  | nil => rfl
  | cons k ks => simp [walk_depth, h k]

theorem walk_depth_cons_some {mem : Nat → Node} {u k c : Nat} (ks : List Nat)
    (h : (mem u).next k = some c) : walk_depth mem u (k :: ks) = 1 + walk_depth mem c ks := by
  simp [walk_depth, h]

theorem walk_depth_cons_none {mem : Nat → Node} {u k : Nat} (ks : List Nat)
    (h : (mem u).next k = none) : walk_depth mem u (k :: ks) = 0 := by
  simp [walk_depth, h]

theorem walk_cons_some {mem : Nat → Node} {u k c : Nat} (ks : List Nat)
    (h : (mem u).next k = some c) : walk mem u (k :: ks) = walk mem c ks := by
  simp [walk, h]

theorem walk_cons_none {mem : Nat → Node} {u k : Nat} (ks : List Nat)
    (h : (mem u).next k = none) : walk mem u (k :: ks) = none := by
  simp [walk, h]

theorem walk_depth_append_some (mem : Nat → Node) (b : List Nat) :
    ∀ (a : List Nat) (u v : Nat), walk mem u a = some v →
      walk_depth mem u (a ++ b) = a.length + walk_depth mem v b := by
  intro a
  induction a with
  | nil =>
    intro u v h
    simp only [walk, Option.some.injEq] at h
    subst h
    simp
  | cons k ks ih =>
    intro u v h
    cases hk : (mem u).next k with
    | none => rw [walk_cons_none ks hk] at h; cases h
    | some c =>
      rw [walk_cons_some ks hk] at h
      rw [List.cons_append, walk_depth_cons_some _ hk, ih c v h, List.length_cons]
      omega

theorem walk_depth_append_none (mem : Nat → Node) (b : List Nat) :
    ∀ (a : List Nat) (u : Nat), walk mem u a = none →
      walk_depth mem u (a ++ b) = walk_depth mem u a := by
  intro a
  induction a with
  | nil => intro u h; simp [walk] at h
  | cons k ks ih =>
    intro u h
    cases hk : (mem u).next k with
    | none => rw [List.cons_append, walk_depth_cons_none _ hk, walk_depth_cons_none _ hk]
    | some c =>
      rw [walk_cons_some ks hk] at h
      rw [List.cons_append, walk_depth_cons_some _ hk, walk_depth_cons_some _ hk, ih c h]

/-- The descent loop of `insert` allocates one node for every symbol whose node is missing. -/
theorem insert_walk_brk : ∀ (w : List Nat) (t : Trie) (u : Nat) (sp : Nat → List Nat),
    Shape t.mem t.brk sp → u < t.brk → (∀ x ∈ sp u, x < 26) → (∀ c ∈ w, lower c) →
    (insert_walk t u w).1.brk + walk_depth t.mem u (slots w) = t.brk + w.length := by
  intro w
  induction w with
  | nil =>
    intro t u sp _ _ _ _
    simp [insert_walk, slots, walk_depth]
  | cons c w ih =>
    intro t u sp h hu hsp hw
    have hc : lower c := hw c (List.mem_cons_self c w)
    have hk := (idx_of_lower hc).2.2.2
    rw [insert_walk_cons t u c w hc]
    obtain ⟨sp1, s1, _, _, b1, p1, _, _, hnc, hsc⟩ :=
      ensure_child_spec t u (slot c) sp h hu hsp (le_of_lt hk)
    have hsp1 : ∀ x ∈ sp1 (ensure_child t u (slot c)).2, x < 26 := by
      rw [p1]
      intro x hx
      rcases List.mem_append.mp hx with h5 | h5
      · exact hsp x h5
      · simp only [List.mem_singleton] at h5
        omega
    have hih : (insert_walk { (ensure_child t u (slot c)).1 with
          total_chars_ := (ensure_child t u (slot c)).1.total_chars_ + 1 }
          (ensure_child t u (slot c)).2 w).1.brk +
        walk_depth (ensure_child t u (slot c)).1.mem (ensure_child t u (slot c)).2 (slots w) =
        (ensure_child t u (slot c)).1.brk + w.length :=
      ih { (ensure_child t u (slot c)).1 with
          total_chars_ := (ensure_child t u (slot c)).1.total_chars_ + 1 }
        (ensure_child t u (slot c)).2 sp1 s1 b1 hsp1
        (fun x hx => hw x (List.mem_cons_of_mem c hx))
    simp only [slots, List.map_cons, List.length_cons]
    cases hn : (t.mem u).next (slot c) with
    | some x =>
      have e := hsc x hn
      rw [e] at hih
      rw [e, walk_depth_cons_some _ hn]
      simp only [slots] at hih ⊢
      omega
    | none =>
      rw [walk_depth_cons_none _ hn]
      obtain ⟨e1, e2⟩ := hnc hn
      have hblank : ∀ k, ((ensure_child t u (slot c)).1.mem (ensure_child t u (slot c)).2).next k =
          none := by
        intro k
        rw [e1, ensure_child_none_mem hn (by omega), if_pos rfl]
        rfl
      have hz := walk_depth_blank (ensure_child t u (slot c)).1.mem
        (ensure_child t u (slot c)).2 hblank (slots w)
      rw [hz] at hih
      dsimp only at hih ⊢
      omega

/-- The two ways an `insert` with non-empty canonical form can go: the word is stored and
only `total_chars_` moves, or a new terminal is created at the end of the word's path. -/
theorem insert_cases {t : Trie} {sp : Nat → List Nat} (g : Good t sp) (w_raw : List Nat)
    (hne : canon w_raw ≠ []) :
    (∃ T, walk t.mem 0 (slots (canon w_raw) ++ [26]) = some T ∧
      insert t w_raw =
        ({ t with total_chars_ := t.total_chars_ + (canon w_raw).length + 1 }, some T)) ∨
    (walk t.mem 0 (slots (canon w_raw) ++ [26]) = none ∧
      ∃ sp2, PathPost t sp (canon w_raw)
        (ensure_child (insert_walk t t.root_ (canon w_raw)).1
          (insert_walk t t.root_ (canon w_raw)).2 26).1
        (ensure_child (insert_walk t t.root_ (canon w_raw)).1
          (insert_walk t t.root_ (canon w_raw)).2 26).2 sp2 ∧
        insert t w_raw =
          (insert_new (ensure_child (insert_walk t t.root_ (canon w_raw)).1
              (insert_walk t t.root_ (canon w_raw)).2 26).1
            (ensure_child (insert_walk t t.root_ (canon w_raw)).1
              (insert_walk t t.root_ (canon w_raw)).2 26).2 (canon w_raw),
            some (ensure_child (insert_walk t t.root_ (canon w_raw)).1
              (insert_walk t t.root_ (canon w_raw)).2 26).2)) := by
  cases hwalk : walk t.mem 0 (slots (canon w_raw) ++ [26]) with
  | some T =>
    left
    obtain ⟨_, _, h3⟩ := g.walk_word hwalk
    have hwalk2 : walk t.mem t.root_ (slots (canon w_raw) ++ [26]) = some T := by
      rw [g.root]; exact hwalk
    exact ⟨T, rfl, insert_existing hne hwalk2 h3⟩
  | none =>
    right
    obtain ⟨sp2, p⟩ := insert_path_spec g (canon_lower w_raw) hwalk
    have hblank := p.grow.blank _ p.T_new p.T_lt
    have hnt : ¬ ((ensure_child (insert_walk t t.root_ (canon w_raw)).1
        (insert_walk t t.root_ (canon w_raw)).2 26).1.mem
        (ensure_child (insert_walk t t.root_ (canon w_raw)).1
        (insert_walk t t.root_ (canon w_raw)).2 26).2).is_terminal = true := by
      simp [Node.is_terminal, hblank.1]
    refine ⟨rfl, sp2, p, ?_⟩
    rw [insert_nonempty hne, if_neg hnt]

theorem insert_brk_eq (t : Trie) (w_raw : List Nat) (hne : canon w_raw ≠ []) :
    (insert t w_raw).1.brk =
      (ensure_child (insert_walk t t.root_ (canon w_raw)).1
        (insert_walk t t.root_ (canon w_raw)).2 26).1.brk := by
  rw [insert_nonempty hne]
  split <;> rfl

/-- An `insert` allocates exactly the missing nodes of the word's path. -/
theorem Good.insert_brk {t : Trie} {sp : Nat → List Nat} (g : Good t sp) (w_raw : List Nat)
    (hne : canon w_raw ≠ []) :
    (insert t w_raw).1.brk + walk_depth t.mem 0 (slots (canon w_raw) ++ [26]) =
      t.brk + (canon w_raw).length + 1 := by
  have hw := canon_lower w_raw
  have hs := slots_lt hw
  have hlen : (slots (canon w_raw)).length = (canon w_raw).length := by simp [slots]
  rw [insert_brk_eq t w_raw hne, g.root]
  cases hwalk : walk t.mem 0 (slots (canon w_raw)) with
  | some v =>
    rw [insert_walk_of_walk (canon w_raw) t 0 v hw hwalk,
      walk_depth_append_some t.mem [26] _ 0 v hwalk, hlen]
    cases hn : (t.mem v).next 26 with
    | some x =>
      have h3 : (({ t with total_chars_ := t.total_chars_ + (canon w_raw).length } : Trie).mem
          v).next 26 = some x := hn
      rw [ensure_child_some h3, walk_depth_cons_some _ hn]
      simp only [walk_depth]
      omega
    | none =>
      have h3 : (({ t with total_chars_ := t.total_chars_ + (canon w_raw).length } : Trie).mem
          v).next 26 = none := hn
      rw [ensure_child_none_brk h3, walk_depth_cons_none _ hn]
      simp only
      omega
  | none =>
    rw [walk_depth_append_none t.mem [26] _ 0 hwalk]
    have hfull : walk t.mem 0 (slots (canon w_raw) ++ [26]) = none := by
      rw [walk_append, hwalk]
      rfl
    have hroot : ∀ x ∈ sp 0, x < 26 := by
      rw [g.shape.sp_root]
      intro x hx
      simp at hx
    have hbrk := insert_walk_brk (canon w_raw) t 0 sp g.shape g.shape.brk_pos hroot hw
    obtain ⟨sp1, s1, _, e1, b1, p1, n1, _⟩ :=
      insert_walk_spec (canon w_raw) t 0 sp g.shape g.shape.brk_pos hroot hw
    rw [g.shape.sp_root, List.nil_append] at p1
    cases hslot : ((insert_walk t 0 (canon w_raw)).1.mem
        (insert_walk t 0 (canon w_raw)).2).next 26 with
    | some c =>
      exfalso
      obtain ⟨hc, _, _, hspc⟩ := s1.child _ 26 c b1 hslot
      rw [p1] at hspc
      by_cases hold : c < t.brk
      · have h1 := g.shape.walk_sp c hold
        rw [← e1 c hold, hspc, hfull] at h1
        cases h1
      · obtain ⟨q, _, hq1, hq2⟩ := n1 c (Nat.le_of_not_lt hold) hc
        rw [g.shape.sp_root, List.nil_append] at hq1
        have h26 : (26 : Nat) ∈ slots (canon w_raw) := by
          obtain ⟨r, hr⟩ := hq2
          rw [← hr]
          apply List.mem_append_left
          rw [← hq1, hspc]
          simp
        have := hs 26 h26
        omega
    | none =>
      rw [ensure_child_none_brk hslot]
      omega

/-- The nodes an `insert` adds lie on the path of the inserted word. -/
theorem Good.insert_new_nodes {t : Trie} {sp : Nat → List Nat} (g : Good t sp)
    (w_raw : List Nat) (hne : canon w_raw ≠ []) :
    ∀ m, t.brk ≤ m → m < (insert t w_raw).1.brk →
      ∃ q, q ≠ [] ∧ q <+: slots (canon w_raw) ++ [26] ∧
        walk (insert t w_raw).1.mem 0 q = some m := by
  intro m h1 h2
  rcases insert_cases g w_raw hne with ⟨T, _, e⟩ | ⟨_, sp2, p, e⟩
  · rw [e] at h2
    exact absurd h2 (by simp only; omega)
  · rw [e] at h2 ⊢
    have g2 := insert_new_good g p (canon_lower w_raw) hne
    have hm : m < (ensure_child (insert_walk t t.root_ (canon w_raw)).1
        (insert_walk t t.root_ (canon w_raw)).2 26).1.brk := h2
    refine ⟨sp2 m, ?_, ?_, g2.shape.walk_sp m h2⟩
    · by_cases hmT : m = (ensure_child (insert_walk t t.root_ (canon w_raw)).1
          (insert_walk t t.root_ (canon w_raw)).2 26).2
      · rw [hmT, p.T_sp]
        simp
      · exact (p.new_sp m h1 hm hmT).1
    · by_cases hmT : m = (ensure_child (insert_walk t t.root_ (canon w_raw)).1
          (insert_walk t t.root_ (canon w_raw)).2 26).2
      · rw [hmT, p.T_sp]
      · exact List.IsPrefix.trans (p.new_sp m h1 hm hmT).2 (List.prefix_append _ _)

/-- C16 (node count is exact and nodes are created lazily): in every reachable state
`node_count()` is the number of nodes of the tree, the root included; an `insert` of a word
of canonical length `n > 0` raises it by `(n + 1)` minus the number of nodes that already
exist on the path of its `n` letters plus `'$'` (which is at most `n + 1`, and equal to it
when the word is stored), every node it adds lies on that path and no node disappears; an
`insert` without letters and `update_priority` leave it unchanged (`descend` and
`autocomplete` return no state at all). -/
theorem node_count_exact (t : Trie) (hr : Reachable t) :
    (∃ nodes : Finset Nat, (∀ n, n ∈ nodes ↔ IsNode t n) ∧ nodes.card = node_count t) ∧
    (∀ w_raw, canon w_raw ≠ [] →
      node_count (insert t w_raw).1 =
        node_count t + ((canon w_raw).length + 1) -
          walk_depth t.mem t.root_ (slots (canon w_raw) ++ [26]) ∧
      walk_depth t.mem t.root_ (slots (canon w_raw) ++ [26]) ≤ (canon w_raw).length + 1 ∧
      (∀ T, stored t (canon w_raw) T →
        walk_depth t.mem t.root_ (slots (canon w_raw) ++ [26]) = (canon w_raw).length + 1) ∧
      (∀ m, IsNode (insert t w_raw).1 m → ¬ IsNode t m →
        ∃ q, q ≠ [] ∧ q <+: slots (canon w_raw) ++ [26] ∧
          walk (insert t w_raw).1.mem (insert t w_raw).1.root_ q = some m) ∧
      (∀ m, IsNode t m → IsNode (insert t w_raw).1 m)) ∧
    (∀ w_raw, canon w_raw = [] → node_count (insert t w_raw).1 = node_count t) ∧
    (∀ T t2, update_priority t (some T) = some t2 → node_count t2 = node_count t) := by
  obtain ⟨sp, g⟩ := reachable_good hr
  have hnode : ∀ n, IsNode t n ↔ n < t.brk := fun n => g.shape.isNode_iff g.root
  refine ⟨⟨Finset.range t.brk, ?_, ?_⟩, ?_, ?_, ?_⟩
  · intro n
    rw [Finset.mem_range, hnode]
  · rw [Finset.card_range]
    exact g.count.symm
  · intro w_raw hne
    obtain ⟨sp2, g2, _, hle⟩ := insert_good g w_raw
    have hnode2 : ∀ n, IsNode (insert t w_raw).1 n ↔ n < (insert t w_raw).1.brk :=
      fun n => g2.shape.isNode_iff g2.root
    have hb := g.insert_brk w_raw hne
    have hd := walk_depth_le t.mem (slots (canon w_raw) ++ [26]) 0
    have hlen : (slots (canon w_raw) ++ [26]).length = (canon w_raw).length + 1 := by
      simp [slots]
    rw [hlen] at hd
    rw [g.root]
    refine ⟨?_, hd, ?_, ?_, ?_⟩
    · unfold node_count
      rw [g.count, g2.count]
      omega
    · intro T hst
      obtain ⟨h1, _⟩ := hst
      rw [descend_all_word t _ _ (canon_lower w_raw), g.root] at h1
      have := walk_depth_append_some t.mem [] _ 0 T h1
      simp only [List.append_nil, walk_depth, Nat.add_zero] at this
      rw [this, hlen]
    · intro m hm hnm
      rw [g2.root]
      exact g.insert_new_nodes w_raw hne m
        (Nat.le_of_not_lt (fun hh => hnm ((hnode m).mpr hh))) ((hnode2 m).mp hm)
    · intro m hm
      exact (hnode2 m).mpr (lt_of_lt_of_le ((hnode m).mp hm) hle)
  · intro w_raw he
    rw [insert_empty he]
  · intro T t2 h
    cases hT : (t.mem T).is_terminal with
    | false =>
      rw [update_priority_not_terminal hT] at h
      cases h
    | true =>
      rw [update_priority_eq hT] at h
      cases h
      rfl

/-- C16 at a concrete input: the trie holding the one word "cat", which has five nodes. -/
theorem node_count_exact_witness :
    (∃ nodes : Finset Nat, (∀ n, n ∈ nodes ↔ IsNode (demo_cat Variant.MOST_FREQUENT) n) ∧
      nodes.card = node_count (demo_cat Variant.MOST_FREQUENT)) ∧
    (∀ w_raw, canon w_raw ≠ [] →
      node_count (insert (demo_cat Variant.MOST_FREQUENT) w_raw).1 =
        node_count (demo_cat Variant.MOST_FREQUENT) + ((canon w_raw).length + 1) -
          walk_depth (demo_cat Variant.MOST_FREQUENT).mem
            (demo_cat Variant.MOST_FREQUENT).root_ (slots (canon w_raw) ++ [26]) ∧
      walk_depth (demo_cat Variant.MOST_FREQUENT).mem (demo_cat Variant.MOST_FREQUENT).root_
        (slots (canon w_raw) ++ [26]) ≤ (canon w_raw).length + 1 ∧
      (∀ T, stored (demo_cat Variant.MOST_FREQUENT) (canon w_raw) T →
        walk_depth (demo_cat Variant.MOST_FREQUENT).mem (demo_cat Variant.MOST_FREQUENT).root_
          (slots (canon w_raw) ++ [26]) = (canon w_raw).length + 1) ∧
      (∀ m, IsNode (insert (demo_cat Variant.MOST_FREQUENT) w_raw).1 m →
        ¬ IsNode (demo_cat Variant.MOST_FREQUENT) m →
        ∃ q, q ≠ [] ∧ q <+: slots (canon w_raw) ++ [26] ∧
          walk (insert (demo_cat Variant.MOST_FREQUENT) w_raw).1.mem
            (insert (demo_cat Variant.MOST_FREQUENT) w_raw).1.root_ q = some m) ∧
      (∀ m, IsNode (demo_cat Variant.MOST_FREQUENT) m →
        IsNode (insert (demo_cat Variant.MOST_FREQUENT) w_raw).1 m)) ∧
    (∀ w_raw, canon w_raw = [] →
      node_count (insert (demo_cat Variant.MOST_FREQUENT) w_raw).1 =
        node_count (demo_cat Variant.MOST_FREQUENT)) ∧
    (∀ T t2, update_priority (demo_cat Variant.MOST_FREQUENT) (some T) = some t2 →
      node_count t2 = node_count (demo_cat Variant.MOST_FREQUENT)) :=
  node_count_exact (demo_cat Variant.MOST_FREQUENT) (demo_cat_reachable Variant.MOST_FREQUENT)

/-! ## Exactly which caches a propagation overwrites -/

theorem needs_update_set_best (v : Variant) (T : Nat) (mem : Nat → Node) {c k : Nat}
    (h : k ≠ c) : needs_update v T (set_best T mem c) k ↔ needs_update v T mem k := by
  unfold needs_update
  rw [set_best_other T mem h, (set_best_frame T mem c T).2.2.1]

theorem Shape.not_prefix_parent {mem : Nat → Node} {brk : Nat} {sp : Nat → List Nat}
    (h : Shape mem brk sp) {c p : Nat} (hc : c < brk) (hp : (mem c).parent = some p) :
    ¬ sp c <+: sp p := by
  obtain ⟨_, _, k, _, hsp⟩ := h.parent_some hc hp
  intro hpre
  have := hpre.length_le
  rw [hsp] at this
  simp at this

/-- The loop started at ancestor `c` overwrites the cache of `m` exactly when `m` is on the
chain above `c` and every node from `c` up to `m` satisfies the loop condition. -/
theorem update_loop_exact (v : Variant) (T brk : Nat) (sp : Nat → List Nat) :
    ∀ (fuel : Nat) (mem : Nat → Node) (c : Nat), Shape mem brk sp → c < fuel → c < brk →
      ∀ m, m < brk →
        (ChainNeeds v T mem brk sp m c →
          update_loop v T fuel mem (some c) m =
            { mem m with best_priority := (mem T).priority, best_terminal := some T }) ∧
        (¬ ChainNeeds v T mem brk sp m c → update_loop v T fuel mem (some c) m = mem m) := by
  intro fuel
  induction fuel with
  | zero => intro mem c _ hc; exact absurd hc (Nat.not_lt_zero _)
  | succ fuel ih =>
    intro mem c hs hcf hcb m hm
    rw [update_loop_succ]
    have hself : ∀ k, k < brk → sp c <+: sp k → sp k <+: sp c → k = c := by
      intro k hk h1 h2
      exact hs.sp_inj hk hcb (h2.eq_of_length_le h1.length_le)
    by_cases hn : needs_update v T mem c
    · rw [if_pos hn]
      have hfr := set_best_frame T mem c
      have hs1 : Shape (set_best T mem c) brk sp :=
        hs.shape_congr (fun x => (hfr x).1) (fun x => (hfr x).2.1)
      have hTp : (set_best T mem c T).priority = (mem T).priority := (hfr T).2.2.1
      cases hp : (mem c).parent with
      | none =>
        rw [update_loop_none]
        have h0 := hs.parent_none hcb hp
        by_cases hmc : m = c
        · subst hmc
          constructor
          · intro _
            rw [set_best_same]
          · intro hno
            exfalso
            apply hno
            refine ⟨List.prefix_refl _, ?_⟩
            intro k hk h1 h2
            rw [hself k hk h1 h2]
            exact hn
        · constructor
          · rintro ⟨h1, _⟩
            exfalso
            rcases hs.prefix_cur hm hcb h1 with e | ⟨p, hp2, _⟩
            · exact hmc e
            · rw [hp] at hp2
              cases hp2
          · intro _
            rw [set_best_other T mem hmc]
      | some p =>
        obtain ⟨hpb, hpc, _, _, _⟩ := hs.parent_some hcb hp
        have hnp := hs.not_prefix_parent hcb hp
        have hpcpre : sp p <+: sp c := by
          obtain ⟨_, _, k, _, hsp⟩ := hs.parent_some hcb hp
          rw [hsp]
          exact List.prefix_append _ _
        obtain ⟨ihA, ihB⟩ := ih (set_best T mem c) p hs1 (by omega) hpb m hm
        by_cases hmc : m = c
        · subst hmc
          have hB := ihB (fun hh => hnp hh.1)
          constructor
          · intro _
            rw [hB, set_best_same]
          · intro hno
            exfalso
            apply hno
            refine ⟨List.prefix_refl _, ?_⟩
            intro k hk h1 h2
            rw [hself k hk h1 h2]
            exact hn
        · constructor
          · rintro ⟨h1, h2⟩
            have hmp : sp m <+: sp p := by
              rcases hs.prefix_cur hm hcb h1 with e | ⟨p2, hp2, h3⟩
              · exact absurd e hmc
              · rw [hp] at hp2
                cases hp2
                exact h3
            have hA := ihA ⟨hmp, fun k hk k1 k2 => by
              have hkc : k ≠ c := by
                intro e
                subst e
                exact hnp k2
              rw [needs_update_set_best v T mem hkc]
              exact h2 k hk k1 (List.IsPrefix.trans k2 hpcpre)⟩
            rw [hA, hTp, set_best_other T mem hmc]
          · intro hno
            have hB := ihB (by
              rintro ⟨h1, h2⟩
              apply hno
              refine ⟨List.IsPrefix.trans h1 hpcpre, ?_⟩
              intro k hk k1 k2
              by_cases hkc : k = c
              · rw [hkc]; exact hn
              · rw [← needs_update_set_best v T mem hkc]
                apply h2 k hk k1
                rcases hs.prefix_cur hk hcb k2 with e | ⟨p2, hp2, h3⟩
                · exact absurd e hkc
                · rw [hp] at hp2
                  cases hp2
                  exact h3)
            rw [hB, set_best_other T mem hmc]
    · rw [if_neg hn]
      constructor
      · rintro ⟨h1, h2⟩
        exact absurd (h2 c hcb h1 (List.prefix_refl _)) hn
      · intro _
        rfl

/-- Nodes that are not on the chain above the start of the loop keep their contents. -/
theorem update_loop_off_chain (v : Variant) (T brk : Nat) (sp : Nat → List Nat)
    (fuel : Nat) (mem : Nat → Node) (c : Nat) (hs : Shape mem brk sp) (hcf : c < fuel)
    (hcb : c < brk) {m : Nat} (hm : m < brk) (hoff : ¬ sp m <+: sp c) :
    update_loop v T fuel mem (some c) m = mem m :=
  (update_loop_exact v T brk sp fuel mem c hs hcf hcb m hm).2 (fun h => hoff h.1)

/-! ## Suggestions are stable along their own path -/

/-- The propagation loop started at the parent of the terminal `T` keeps the caches stable
along paths, when the heap it starts from is stable away from `T`. -/
theorem stable_loop (v : Variant) (T brk : Nat) (sp : Nat → List Nat) (mem1 : Nat → Node)
    (l : List Nat) (hs : Shape mem1 brk sp) (hT : T < brk) (hl : sp T = l ++ [26])
    (hbt : (mem1 T).best_terminal = some T)
    (H : ∀ N k c X, N < brk → N ≠ T → (mem1 N).next k = some c →
      (mem1 N).best_terminal = some X → sp c <+: sp X →
      (mem1 c).best_terminal = some X ∧
        (c ≠ T → (mem1 c).best_priority = (mem1 N).best_priority)) :
    StableSp (update_loop v T brk mem1 (mem1 T).parent) brk sp := by
  cases hp : (mem1 T).parent with
  | none =>
    exfalso
    have h0 := hs.parent_none hT hp
    rw [h0, hs.sp_root] at hl
    simp at hl
  | some p0 =>
    obtain ⟨hp0b, hp0T, _, _, _⟩ := hs.parent_some hT hp
    have hTnot : ¬ sp T <+: sp p0 := hs.not_prefix_parent hT hp
    have ex := update_loop_exact v T brk sp brk mem1 p0 hs hp0b hp0b
    have hfr := update_loop_frame v T brk mem1 (some p0)
    have hrT : update_loop v T brk mem1 (some p0) T = mem1 T :=
      (ex T hT).2 (fun h => hTnot h.1)
    intro N k c X hN hk hb hpre
    rw [(hfr N).2.1] at hk
    obtain ⟨hcb, hNc, _, hspc⟩ := hs.child N k c hN hk
    have hNcpre : sp N <+: sp c := by rw [hspc]; exact List.prefix_append _ _
    by_cases hU : ChainNeeds v T mem1 brk sp N p0
    · rw [(ex N hN).1 hU] at hb
      simp only [Option.some.injEq] at hb
      subst hb
      by_cases hcT : c = T
      · rw [hcT, hrT]; exact hbt
      · have hcp : sp c <+: sp p0 := by
          rcases hs.prefix_cur hcb hT hpre with e | ⟨p2, hp2, h3⟩
          · exact absurd e hcT
          · rw [hp] at hp2
            cases hp2
            exact h3
        rw [(ex c hcb).1 ⟨hcp, fun k2 hk2 h1 h2 =>
          hU.2 k2 hk2 (List.IsPrefix.trans hNcpre h1) h2⟩]
    · rw [(ex N hN).2 hU] at hb
      have hNT : N ≠ T := by
        intro e
        subst e
        have := hs.leaf hT hcb hl hNcpre
        omega
      obtain ⟨hbc, hbp⟩ := H N k c X hN hNT hk hb hpre
      by_cases hUc : ChainNeeds v T mem1 brk sp c p0
      · exfalso
        have hcT : c ≠ T := by
          intro e
          rw [e] at hUc
          exact hTnot hUc.1
        have hnc : needs_update v T mem1 c := hUc.2 c hcb (List.prefix_refl _) hUc.1
        have hnN : needs_update v T mem1 N := by
          unfold needs_update at hnc ⊢
          rw [hbc, hbp hcT] at hnc
          rw [hb]
          exact hnc
        apply hU
        refine ⟨List.IsPrefix.trans hNcpre hUc.1, ?_⟩
        intro k2 hk2 h1 h2
        by_cases hkN : k2 = N
        · rw [hkN]; exact hnN
        · apply hUc.2 k2 hk2 _ h2
          apply List.prefix_of_prefix_length_le hUc.1 h2
          have hlt : (sp N).length < (sp k2).length := by
            rcases Nat.lt_or_ge (sp N).length (sp k2).length with h | h
            · exact h
            · exact absurd (hs.sp_inj hk2 hN (h1.eq_of_length_le h).symm) hkN
          rw [hspc]
          simp
          omega
      · rw [(ex c hcb).2 hUc]
        exact hbc

theorem stable_new (v : Variant) : StableSp (Trie.new v).mem (Trie.new v).brk (fun _ => []) := by
  intro N k c X hN hk _ _
  have hs := (new_good v).shape
  obtain ⟨_, _, _, hsp⟩ := hs.child N k c hN hk
  simp at hsp

theorem stable_update {t : Trie} {sp : Nat → List Nat} (g : Good t sp)
    (hst : StableSp t.mem t.brk sp) {T : Nat} (hT : T < t.brk)
    (hTt : (t.mem T).is_terminal = true) :
    StableSp (after_update t T).mem (after_update t T).brk sp := by
  obtain ⟨l, hl⟩ := (g.term_iff T hT).mp hTt
  have hpf := pre_loop_mem_frame t T
  have hshape0 : Shape (pre_loop_mem t T) t.brk sp :=
    g.shape.shape_congr (fun m => (hpf m).1) (fun m => (hpf m).2.1)
  have h := stable_loop t.variant T t.brk sp (pre_loop_mem t T) l hshape0 hT hl
    (by rw [pre_loop_mem_same]) (by
      intro N k c X hN hNT hk hb hpre
      rw [(hpf N).2.1] at hk
      rw [pre_loop_mem_other t hNT] at hb ⊢
      obtain ⟨hcb, _, _, _⟩ := g.shape.child N k c hN hk
      obtain ⟨hX, _, _, hpX, _⟩ := (g.cache N hN).2 X hb
      by_cases hcT : c = T
      · subst hcT
        have hXc := g.shape.leaf hcb hX hl hpre
        subst hXc
        rw [pre_loop_mem_same]
        exact ⟨rfl, fun hne => absurd rfl hne⟩
      · rw [pre_loop_mem_other t hcT]
        have hbc := hst N k c X hN hk hb hpre
        obtain ⟨_, _, _, hpc, _⟩ := (g.cache c hcb).2 X hbc
        exact ⟨hbc, fun _ => by rw [← hpc, hpX]⟩)
  rw [(hpf T).1] at h
  exact h

theorem stable_insert_new {t : Trie} {sp : Nat → List Nat} {w : List Nat} {t2 : Trie} {T : Nat}
    {sp2 : Nat → List Nat} (g : Good t sp) (hst : StableSp t.mem t.brk sp)
    (p : PathPost t sp w t2 T sp2) :
    StableSp (insert_new t2 T w).mem (insert_new t2 T w).brk sp2 := by
  have q := p.preProp
  have hparent : (ins_mem0 t2 T T).parent = (t2.mem T).parent := by
    rw [ins_mem0_same]
  have h := stable_loop Variant.MOST_FREQUENT T t2.brk sp2 (ins_mem0 t2 T) (slots w)
    q.shape0 p.T_lt p.T_sp q.bt_T (by
      intro N k c X hN hNT hk hb hpre
      have hNold : N < t.brk := by
        by_contra hge
        rw [q.bt_new N (by omega) hN hNT] at hb
        cases hb
      rw [q.bt_old N hNold] at hb
      obtain ⟨hX, _, _, hpX, _⟩ := (g.cache N hNold).2 X hb
      rw [ins_mem0_other t2 hNT] at hk
      obtain ⟨hcb2, _, _, _⟩ := p.shape.child N k c hN hk
      have hcold : c < t.brk := q.above c X hcb2 hX hpre
      have hcT : c ≠ T := q.T_not_old c hcold
      rcases p.grow.next_new N k c hNold hk with hk0 | hge
      · rw [p.sp_eq c hcold, p.sp_eq X hX] at hpre
        have hbc := hst N k c X hNold hk0 hb hpre
        obtain ⟨_, _, _, hpc, _⟩ := (g.cache c hcold).2 X hbc
        rw [q.bt_old c hcold, q.bp_old c hcold, q.bp_old N hNold]
        exact ⟨hbc, fun _ => by rw [← hpc, hpX]⟩
      · omega)
  rw [hparent] at h
  rw [insert_new_mem]
  exact h

theorem stable_insert {t : Trie} {sp : Nat → List Nat} (g : Good t sp)
    (hst : StableSp t.mem t.brk sp) (w_raw : List Nat) :
    ∃ sp2, Good (insert t w_raw).1 sp2 ∧
      StableSp (insert t w_raw).1.mem (insert t w_raw).1.brk sp2 := by
  by_cases hne : canon w_raw = []
  · rw [insert_empty hne]
    exact ⟨sp, g, hst⟩
  · rcases insert_cases g w_raw hne with ⟨T, _, he⟩ | ⟨_, sp2, p, he⟩
    · obtain ⟨sp2, g2, _⟩ := insert_good g w_raw
      rw [he] at g2 ⊢
      refine ⟨sp, ?_, hst⟩
      exact g.good_with_total_chars _
    · rw [he]
      exact ⟨sp2, insert_new_good g p (canon_lower w_raw) hne, stable_insert_new g hst p⟩

theorem stable_run : ∀ (ops : List Op) (t t2 : Trie) (sp : Nat → List Nat),
    Good t sp → StableSp t.mem t.brk sp → run t ops = some t2 →
    ∃ sp2, Good t2 sp2 ∧ StableSp t2.mem t2.brk sp2 := by
  intro ops
  induction ops with
  | nil =>
    intro t t2 sp g h hr
    simp only [run, Option.some.injEq] at hr
    subst hr
    exact ⟨sp, g, h⟩
  | cons op ops ih =>
    intro t t2 sp g h hr
    simp only [run] at hr
    cases hstep : step t op with
    | none => rw [hstep] at hr; cases hr
    | some t1 =>
      rw [hstep] at hr
      cases op with
      | insert w_raw =>
        simp only [step, Option.some.injEq] at hstep
        subst hstep
        obtain ⟨sp1, g1, h1⟩ := stable_insert g h w_raw
        exact ih _ t2 sp1 g1 h1 hr
      | update_priority T =>
        obtain ⟨hT, hTt, e⟩ := step_update hstep
        subst e
        exact ih _ t2 sp (after_update_good g hT hTt) (stable_update g h hT hTt) hr

theorem descend_all_walk (t : Trie) : ∀ (q : List Nat) (N M : Nat),
    descend_all t (some N) q = some M → ∃ ks, walk t.mem N ks = some M := by
  intro q
  induction q with
  | nil =>
    intro N M h
    simp only [descend_all, Option.some.injEq] at h
    exact ⟨[], by rw [h]; rfl⟩
  | cons c q ih =>
    intro N M h
    simp only [descend_all] at h
    cases hd : descend t (some N) c with
    | none =>
      rw [hd, descend_all_none] at h
      cases h
    | some x =>
      rw [hd] at h
      obtain ⟨k, hk⟩ := descend_some hd
      obtain ⟨ks, hks⟩ := ih x M h
      refine ⟨k :: ks, ?_⟩
      simp only [walk, hk]
      exact hks

theorem stable_walk {t : Trie} {sp : Nat → List Nat} (g : Good t sp)
    (hst : StableSp t.mem t.brk sp) (T : Nat) : ∀ (ks : List Nat) (N M : Nat), N < t.brk →
    walk t.mem N ks = some M → (t.mem N).best_terminal = some T → sp M <+: sp T →
    (t.mem M).best_terminal = some T := by
  intro ks
  induction ks with
  | nil =>
    intro N M _ hw hb _
    simp only [walk, Option.some.injEq] at hw
    rw [← hw]
    exact hb
  | cons k ks ih =>
    intro N M hN hw hb hpre
    simp only [walk] at hw
    cases hk : (t.mem N).next k with
    | none => rw [hk] at hw; cases hw
    | some c =>
      rw [hk] at hw
      obtain ⟨hcb, _, _, _⟩ := g.shape.child N k c hN hk
      obtain ⟨_, _, hspM⟩ := g.shape.walk_spec ks c M hcb hw
      have hcM : sp c <+: sp M := by rw [hspM]; exact List.prefix_append _ _
      exact ih c M hcb hw (hst N k c T hN hk hb (List.IsPrefix.trans hcM hpre)) hpre

/-- C19 (suggestions are stable along their own path): in every reachable state, under either
policy, if `autocomplete` on node `N` returns the terminal `T`, then (a) `autocomplete` on the
child `c` of `N` whose subtree holds `T` also returns `T`; (b) so does `autocomplete` on every
node `M` between `N` and `T`; and (c) in terms of prefixes: if `T` is the terminal of the
stored word `p ++ q ++ r` and the descent of `p` reaches `N`, then the descent of the longer
prefix `p ++ q` reaches a node whose `autocomplete` result is `T` as well. -/
theorem suggestions_stable (t : Trie) (hr : Reachable t) (N T : Nat) (hN : IsNode t N)
    (hbest : autocomplete t (some N) = some T) :
    (∀ k c, (t.mem N).next k = some c → InSubtree t c T →
      autocomplete t (some c) = some T) ∧
    (∀ M, InSubtree t N M → InSubtree t M T → autocomplete t (some M) = some T) ∧
    (∀ p q r, stored t (p ++ q ++ r) T → descend_all t (some t.root_) p = some N →
      autocomplete t (descend_all t (some t.root_) (p ++ q)) = some T) := by
  obtain ⟨v, ops, hrun⟩ := hr
  obtain ⟨sp, g, hst⟩ := stable_run ops _ t _ (new_good v) (stable_new v) hrun
  have hNb : N < t.brk := (g.shape.isNode_iff g.root).mp hN
  have hb : (t.mem N).best_terminal = some T := hbest
  have hmid : ∀ M, InSubtree t N M → InSubtree t M T → autocomplete t (some M) = some T := by
    intro M h1 h2
    obtain ⟨ks, hks⟩ := walk_of_inSubtree h1
    obtain ⟨hMb, _, _⟩ := g.shape.walk_spec ks N M hNb hks
    exact stable_walk g hst T ks N M hNb hks hb ((g.shape.inSubtree_iff hMb).mp h2).2
  refine ⟨?_, hmid, ?_⟩
  · intro k c hk hc
    exact hmid c (InSubtree.child hk (InSubtree.refl c)) hc
  · intro p q r hsto hp
    obtain ⟨hd, _⟩ := hsto
    rw [List.append_assoc, List.append_assoc, descend_all_append, hp, descend_all_append] at hd
    rw [descend_all_append, hp]
    cases hM : descend_all t (some N) q with
    | none =>
      rw [hM, descend_all_none] at hd
      cases hd
    | some M =>
      rw [hM] at hd
      obtain ⟨ks1, h1⟩ := descend_all_walk t q N M hM
      obtain ⟨ks2, h2⟩ := descend_all_walk t (r ++ [36]) M T hd
      exact hmid M (inSubtree_of_walk ks1 N M h1) (inSubtree_of_walk ks2 M T h2)

/-- C19 at a concrete input: in the trie holding "cat" and "car" the root suggests "cat"
(node 4), and so does every node on the path to it. -/
theorem suggestions_stable_witness :
    IsNode (demo_cat_car Variant.MOST_FREQUENT) 0 ∧
    autocomplete (demo_cat_car Variant.MOST_FREQUENT) (some 0) = some 4 ∧
    (∀ k c, ((demo_cat_car Variant.MOST_FREQUENT).mem 0).next k = some c →
      InSubtree (demo_cat_car Variant.MOST_FREQUENT) c 4 →
      autocomplete (demo_cat_car Variant.MOST_FREQUENT) (some c) = some 4) ∧
    (∀ M, InSubtree (demo_cat_car Variant.MOST_FREQUENT) 0 M →
      InSubtree (demo_cat_car Variant.MOST_FREQUENT) M 4 →
      autocomplete (demo_cat_car Variant.MOST_FREQUENT) (some M) = some 4) ∧
    (∀ p q r, stored (demo_cat_car Variant.MOST_FREQUENT) (p ++ q ++ r) 4 →
      descend_all (demo_cat_car Variant.MOST_FREQUENT)
        (some (demo_cat_car Variant.MOST_FREQUENT).root_) p = some 0 →
      autocomplete (demo_cat_car Variant.MOST_FREQUENT)
        (descend_all (demo_cat_car Variant.MOST_FREQUENT)
          (some (demo_cat_car Variant.MOST_FREQUENT).root_) (p ++ q)) = some 4) :=
  ⟨InSubtree.refl 0, by decide!,
    suggestions_stable (demo_cat_car Variant.MOST_FREQUENT)
      (demo_cat_car_reachable Variant.MOST_FREQUENT) 0 4 (InSubtree.refl 0) (by decide!)⟩

/-! ## Termination and step counts -/

theorem update_loop_visits_none (v : Variant) (T fuel : Nat) (mem : Nat → Node) :
    update_loop_visits v T fuel mem none = some 0 := by
  cases fuel <;> (unfold update_loop_visits; rfl)

theorem update_loop_visits_zero (v : Variant) (T : Nat) (mem : Nat → Node) (c : Nat) :
    update_loop_visits v T 0 mem (some c) = none := by
  unfold update_loop_visits
  rfl

theorem update_loop_visits_succ (v : Variant) (T fuel : Nat) (mem : Nat → Node) (cur : Nat) :
    update_loop_visits v T (fuel + 1) mem (some cur) =
      if needs_update v T mem cur then
        (update_loop_visits v T fuel (set_best T mem cur) (mem cur).parent).map (fun n => n + 1)
      else some 1 := by
  by_cases h1 : (mem cur).best_terminal = none
  · have hn : needs_update v T mem cur := Or.inl h1
    simp [update_loop_visits, set_best, h1, hn]
  · by_cases h2 : (mem T).priority > (mem cur).best_priority
    · have hn : needs_update v T mem cur := Or.inr (Or.inl h2)
      simp [update_loop_visits, set_best, h1, h2, hn]
    · by_cases h3 : (mem T).priority = (mem cur).best_priority ∧
          (mem cur).best_terminal ≠ some T ∧ v = Variant.MOST_RECENT
      · have hn : needs_update v T mem cur := Or.inr (Or.inr h3)
        rw [if_pos hn]
        simp only [update_loop_visits, set_best, Function.update_same, if_neg h1, if_neg h2,
          if_pos h3]
        simp
      · have hn : ¬ needs_update v T mem cur := by
          intro h4
          rcases h4 with h4 | h4 | h4
          · exact h1 h4
          · exact h2 h4
          · exact h3 h4
        rw [if_neg hn]
        simp only [update_loop_visits, if_neg h1, if_neg h2, if_neg h3]
        simp

theorem propagate_loop_visits_eq (T : Nat) :
    ∀ (fuel : Nat) (mem : Nat → Node) (cur : Option Nat),
      propagate_loop_visits T fuel mem cur =
        update_loop_visits Variant.MOST_FREQUENT T fuel mem cur := by
  intro fuel
  induction fuel with
  | zero =>
    intro mem cur
    cases cur with
    | none => rw [update_loop_visits_none]; unfold propagate_loop_visits; rfl
    | some c => rw [update_loop_visits_zero]; unfold propagate_loop_visits; rfl
  | succ fuel ih =>
    intro mem cur
    cases cur with
    | none => rw [update_loop_visits_none]; unfold propagate_loop_visits; rfl
    | some c =>
      rw [update_loop_visits_succ]
      unfold propagate_loop_visits
      have hiff : ((mem c).best_terminal = none ∨ (mem T).priority > (mem c).best_priority) ↔
          needs_update Variant.MOST_FREQUENT T mem c := by
        unfold needs_update
        constructor
        · rintro (h | h)
          · exact Or.inl h
          · exact Or.inr (Or.inl h)
        · rintro (h | h | ⟨_, _, h⟩)
          · exact Or.inl h
          · exact Or.inr h
          · cases h
      by_cases hn : needs_update Variant.MOST_FREQUENT T mem c
      · rw [if_pos hn, if_pos (hiff.mpr hn)]
        simp only [set_best, Function.update_same]
        rw [ih]
      · rw [if_neg hn, if_neg (fun h => hn (hiff.mp h))]

/-- Under the shape invariant the loop started at node `c` ends within the budget, after at
least one and at most `depth c + 1` iterations. -/
theorem update_loop_visits_bound (v : Variant) (T brk : Nat) (sp : Nat → List Nat) :
    ∀ (fuel : Nat) (mem : Nat → Node) (c : Nat), Shape mem brk sp → c < fuel → c < brk →
      ∃ n, update_loop_visits v T fuel mem (some c) = some n ∧ 1 ≤ n ∧
        n ≤ (sp c).length + 1 := by
  intro fuel
  induction fuel with
  | zero => intro mem c _ hc; exact absurd hc (Nat.not_lt_zero _)
  | succ fuel ih =>
    intro mem c hs hcf hcb
    rw [update_loop_visits_succ]
    by_cases hn : needs_update v T mem c
    · rw [if_pos hn]
      cases hp : (mem c).parent with
      | none =>
        rw [update_loop_visits_none]
        exact ⟨1, rfl, le_refl _, by omega⟩
      | some p =>
        obtain ⟨hpb, hpc, k, _, hsp⟩ := hs.parent_some hcb hp
        have hfr := set_best_frame T mem c
        have hs1 : Shape (set_best T mem c) brk sp :=
          hs.shape_congr (fun x => (hfr x).1) (fun x => (hfr x).2.1)
        obtain ⟨n, hn1, hn2, hn3⟩ := ih (set_best T mem c) p hs1 (by omega) hpb
        rw [hn1]
        refine ⟨n + 1, rfl, by omega, ?_⟩
        rw [hsp]
        simp
        omega
    · rw [if_neg hn]
      exact ⟨1, rfl, le_refl _, by omega⟩

/-- The count is the number of iterations the loop needs: it fits the budget, and with that
many steps or more the loop computes the same heap. -/
theorem update_loop_visits_spec (v : Variant) (T : Nat) :
    ∀ (fuel : Nat) (mem : Nat → Node) (cur : Option Nat) (n : Nat),
      update_loop_visits v T fuel mem cur = some n →
      n ≤ fuel ∧ ∀ fuel2, n ≤ fuel2 →
        update_loop v T fuel2 mem cur = update_loop v T n mem cur := by
  intro fuel
  induction fuel with
  | zero =>
    intro mem cur n h
    cases cur with
    | none =>
      rw [update_loop_visits_none] at h
      cases h
      refine ⟨le_refl _, fun fuel2 _ => ?_⟩
      rw [update_loop_none, update_loop_none]
    | some c => rw [update_loop_visits_zero] at h; cases h
  | succ fuel ih =>
    intro mem cur n h
    cases cur with
    | none =>
      rw [update_loop_visits_none] at h
      cases h
      refine ⟨Nat.zero_le _, fun fuel2 _ => ?_⟩
      rw [update_loop_none, update_loop_none]
    | some c =>
      rw [update_loop_visits_succ] at h
      by_cases hn : needs_update v T mem c
      · rw [if_pos hn] at h
        cases hm : update_loop_visits v T fuel (set_best T mem c) (mem c).parent with
        | none => rw [hm] at h; cases h
        | some m =>
          rw [hm] at h
          simp only [Option.map_some', Option.some.injEq] at h
          subst h
          obtain ⟨h1, h2⟩ := ih _ _ m hm
          refine ⟨by omega, fun fuel2 hf => ?_⟩
          obtain ⟨f2, rfl⟩ : ∃ f2, fuel2 = f2 + 1 := ⟨fuel2 - 1, by omega⟩
          rw [update_loop_succ, update_loop_succ, if_pos hn, if_pos hn]
          exact h2 f2 (by omega)
      · rw [if_neg hn] at h
        cases h
        refine ⟨by omega, fun fuel2 hf => ?_⟩
        obtain ⟨f2, rfl⟩ : ∃ f2, fuel2 = f2 + 1 := ⟨fuel2 - 1, by omega⟩
        rw [update_loop_succ, update_loop_succ, if_neg hn, if_neg hn]

theorem update_priority_visits_eq {t : Trie} {T : Nat} (h : (t.mem T).is_terminal = true) :
    update_priority_visits t (some T) =
      update_loop_visits t.variant T t.brk (pre_loop_mem t T) (t.mem T).parent := by
  unfold update_priority_visits
  simp only [h, if_true]
  cases hv : t.variant <;>
    simp [new_priority, pre_loop_mem, hv, Function.update_same]

theorem insert_visits_empty {t : Trie} {w_raw : List Nat} (h : canon w_raw = []) :
    insert_visits t w_raw = some 0 := by
  unfold insert_visits
  simp [h]

theorem insert_visits_nonempty {t : Trie} {w_raw : List Nat} (h : canon w_raw ≠ []) :
    insert_visits t w_raw =
      if (((ensure_child (insert_walk t t.root_ (canon w_raw)).1
            (insert_walk t t.root_ (canon w_raw)).2 26).1.mem
          (ensure_child (insert_walk t t.root_ (canon w_raw)).1
            (insert_walk t t.root_ (canon w_raw)).2 26).2).is_terminal) = true then some 0
      else
        update_loop_visits Variant.MOST_FREQUENT
          (ensure_child (insert_walk t t.root_ (canon w_raw)).1
            (insert_walk t t.root_ (canon w_raw)).2 26).2
          (ensure_child (insert_walk t t.root_ (canon w_raw)).1
            (insert_walk t t.root_ (canon w_raw)).2 26).1.brk
          (ins_mem0 (ensure_child (insert_walk t t.root_ (canon w_raw)).1
              (insert_walk t t.root_ (canon w_raw)).2 26).1
            (ensure_child (insert_walk t t.root_ (canon w_raw)).1
              (insert_walk t t.root_ (canon w_raw)).2 26).2)
          ((ensure_child (insert_walk t t.root_ (canon w_raw)).1
              (insert_walk t t.root_ (canon w_raw)).2 26).1.mem
            (ensure_child (insert_walk t t.root_ (canon w_raw)).1
              (insert_walk t t.root_ (canon w_raw)).2 26).2).parent := by
  have he : (canon w_raw).isEmpty = false := by
    cases hc : canon w_raw with
    | nil => exact absurd hc h
    | cons a l => rfl
  unfold insert_visits
  simp only [he, Bool.false_eq_true, if_false]
  split
  · rfl
  · simp [propagate_visits, propagate_loop_visits_eq, ins_mem0, Function.update_same,
      Function.update_idem]

theorem insert_walk_steps_lower : ∀ w : List Nat, (∀ c ∈ w, lower c) →
    insert_walk_steps w = w.length := by
  intro w
  induction w with
  | nil => intro _; rfl
  | cons c w ih =>
    intro h
    have hc := (idx_of_lower (h c (List.mem_cons_self c w))).2.1
    simp only [insert_walk_steps, if_neg hc, List.length_cons]
    rw [ih (fun x hx => h x (List.mem_cons_of_mem c hx))]

theorem insert_steps_eq (w_raw : List Nat) :
    insert_steps w_raw = if canon w_raw = [] then 0 else (canon w_raw).length + 1 := by
  unfold insert_steps
  cases hc : canon w_raw with
  | nil => rfl
  | cons a l =>
    have h := insert_walk_steps_lower (canon w_raw) (canon_lower w_raw)
    rw [hc] at h
    simp only [List.isEmpty_cons, Bool.false_eq_true, if_false, h]
    simp

theorem Good.insert_visits_bound {t : Trie} {sp : Nat → List Nat} (g : Good t sp)
    (w_raw : List Nat) :
    ∃ n, insert_visits t w_raw = some n ∧ n ≤ (canon w_raw).length + 1 := by
  by_cases hne : canon w_raw = []
  · rw [insert_visits_empty hne]
    exact ⟨0, rfl, Nat.zero_le _⟩
  · rw [insert_visits_nonempty hne]
    cases hwalk : walk t.mem 0 (slots (canon w_raw) ++ [26]) with
    | some T =>
      obtain ⟨_, _, hTt⟩ := g.walk_word hwalk
      have hwalk2 : walk t.mem t.root_ (slots (canon w_raw) ++ [26]) = some T := by
        rw [g.root]; exact hwalk
      rw [walk_append] at hwalk2
      cases h1 : walk t.mem t.root_ (slots (canon w_raw)) with
      | none => rw [h1] at hwalk2; cases hwalk2
      | some v =>
        rw [h1] at hwalk2
        simp only [Option.some_bind, walk] at hwalk2
        cases h2 : (t.mem v).next 26 with
        | none => rw [h2] at hwalk2; cases hwalk2
        | some x =>
          rw [h2] at hwalk2
          cases hwalk2
          rw [insert_walk_of_walk (canon w_raw) t t.root_ v (canon_lower w_raw) h1]
          have h3 : (({ t with total_chars_ := t.total_chars_ + (canon w_raw).length } :
              Trie).mem v).next 26 = some T := h2
          rw [ensure_child_some h3]
          simp only []
          rw [if_pos hTt]
          exact ⟨0, rfl, Nat.zero_le _⟩
    | none =>
      obtain ⟨sp2, p⟩ := insert_path_spec g (canon_lower w_raw) hwalk
      have hblank := p.grow.blank _ p.T_new p.T_lt
      have hnt : ¬ ((ensure_child (insert_walk t t.root_ (canon w_raw)).1
          (insert_walk t t.root_ (canon w_raw)).2 26).1.mem
          (ensure_child (insert_walk t t.root_ (canon w_raw)).1
          (insert_walk t t.root_ (canon w_raw)).2 26).2).is_terminal = true := by
        simp [Node.is_terminal, hblank.1]
      rw [if_neg hnt]
      cases hp : ((ensure_child (insert_walk t t.root_ (canon w_raw)).1
          (insert_walk t t.root_ (canon w_raw)).2 26).1.mem
          (ensure_child (insert_walk t t.root_ (canon w_raw)).1
          (insert_walk t t.root_ (canon w_raw)).2 26).2).parent with
      | none =>
        rw [update_loop_visits_none]
        exact ⟨0, rfl, Nat.zero_le _⟩
      | some p0 =>
        obtain ⟨hpb, hpT, k, _, hsp⟩ := p.shape.parent_some p.T_lt hp
        obtain ⟨n, hn1, _, hn3⟩ := update_loop_visits_bound Variant.MOST_FREQUENT _ _ sp2 _ _ p0
          p.preProp.shape0 hpb hpb
        refine ⟨n, hn1, ?_⟩
        have hlen := congrArg List.length hsp
        rw [p.T_sp] at hlen
        simp [slots] at hlen
        omega

/-- C18 (termination): in every reachable state each core operation is a total function that
ends after a bounded number of steps: (a) an `insert` of a word, that is of a text whose
canonical form `w` is not empty, calls `ensure_child` exactly `|w| + 1` times (a text without
letters is rejected at once, before any call); (b) such an `insert` returns the node at depth
`|w| + 1` at the end of the path of `w`; (c) `descend` reads at most one child link and
returns null or a direct child; (d) the propagation loop of `insert` ends within its step
budget after at most `|w| + 1` iterations, the depth of the terminal; (e) the loop of
`update_priority` on a terminal `T` ends after at most as many iterations as `T` has
ancestors, and every budget of at least that many steps yields the heap of the result;
(f) the parent chain of every node is finite and ends at the root. -/
theorem operations_terminate (t : Trie) (hr : Reachable t) :
    (∀ w_raw, insert_steps w_raw =
      if canon w_raw = [] then 0 else (canon w_raw).length + 1) ∧
    (∀ w_raw, canon w_raw ≠ [] → ∃ T, (insert t w_raw).2 = some T ∧
      walk (insert t w_raw).1.mem (insert t w_raw).1.root_ (slots (canon w_raw) ++ [26]) =
        some T ∧
      nth_parent (insert t w_raw).1.mem ((canon w_raw).length + 1) T =
        some (insert t w_raw).1.root_) ∧
    (∀ v c, descend_steps v c ≤ 1 ∧
      (descend t v c = none ∨ ∃ u k, v = some u ∧ (t.mem u).next k = descend t v c)) ∧
    (∀ w_raw, ∃ n, insert_visits t w_raw = some n ∧ n ≤ (canon w_raw).length + 1) ∧
    (∀ T, IsNode t T → (t.mem T).is_terminal = true →
      ∃ n d t2, update_priority_visits t (some T) = some n ∧
        nth_parent t.mem d T = some t.root_ ∧ n ≤ d ∧
        update_priority t (some T) = some t2 ∧
        ∀ fuel, n ≤ fuel →
          update_loop t.variant T fuel (pre_loop_mem t T) (t.mem T).parent = t2.mem) ∧
    (∀ c, IsNode t c → ∃ d, nth_parent t.mem d c = some t.root_) := by
  obtain ⟨sp, g⟩ := reachable_good hr
  refine ⟨insert_steps_eq, ?_, ?_, g.insert_visits_bound, ?_, ?_⟩
  · intro w_raw hne
    obtain ⟨T, sp2, hret, p⟩ := insert_post g w_raw hne
    refine ⟨T, hret, ?_, ?_⟩
    · have hw := p.good.shape.walk_sp T p.T_lt
      rw [p.T_sp] at hw
      rw [p.good.root]
      exact hw
    · have hc := p.good.shape.climb T p.T_lt
      rw [p.T_sp] at hc
      simp only [slots, List.length_append, List.length_map, List.length_singleton] at hc
      rw [p.good.root]
      exact hc
  · intro v c
    constructor
    · unfold descend_steps
      cases v with
      | none => exact Nat.zero_le _
      | some u =>
        simp only []
        split <;> (split <;> omega)
    · cases v with
      | none => left; rfl
      | some u =>
        cases hd : descend t (some u) c with
        | none => left; rfl
        | some x =>
          right
          obtain ⟨k, hk⟩ := descend_some hd
          exact ⟨u, k, rfl, hk⟩
  · intro T hT hTt
    have hT : T < t.brk := (g.shape.isNode_iff g.root).mp hT
    have hpf := pre_loop_mem_frame t T
    have hshape0 : Shape (pre_loop_mem t T) t.brk sp :=
      g.shape.shape_congr (fun m => (hpf m).1) (fun m => (hpf m).2.1)
    have hbound : ∃ n, update_loop_visits t.variant T t.brk (pre_loop_mem t T)
        (t.mem T).parent = some n ∧ n ≤ (sp T).length := by
      cases hp : (t.mem T).parent with
      | none =>
        rw [update_loop_visits_none]
        exact ⟨0, rfl, Nat.zero_le _⟩
      | some p0 =>
        obtain ⟨hpb, _, k, _, hsp⟩ := g.shape.parent_some hT hp
        obtain ⟨n, hn1, _, hn3⟩ :=
          update_loop_visits_bound t.variant T t.brk sp t.brk (pre_loop_mem t T) p0 hshape0
            hpb hpb
        refine ⟨n, hn1, ?_⟩
        rw [hsp]
        simp
        exact hn3
    obtain ⟨n, hn1, hn2⟩ := hbound
    obtain ⟨hle, hspec⟩ := update_loop_visits_spec t.variant T t.brk _ _ n hn1
    refine ⟨n, (sp T).length, after_update t T, ?_, ?_, hn2, update_priority_eq hTt, ?_⟩
    · rw [update_priority_visits_eq hTt]
      exact hn1
    · rw [g.root]
      exact g.shape.climb T hT
    · intro fuel hf
      have e : (after_update t T).mem =
          update_loop t.variant T t.brk (pre_loop_mem t T) (t.mem T).parent := rfl
      rw [e, hspec fuel hf, hspec t.brk hle]
  · intro c hc
    have hcb : c < t.brk := (g.shape.isNode_iff g.root).mp hc
    exact ⟨(sp c).length, by rw [g.root]; exact g.shape.climb c hcb⟩

/-- C18 at a concrete input: the trie holding "cat" and "car". -/
theorem operations_terminate_witness :
    (∀ w_raw, insert_steps w_raw =
      if canon w_raw = [] then 0 else (canon w_raw).length + 1) ∧
    (∀ w_raw, canon w_raw ≠ [] → ∃ T, (insert (demo_cat_car Variant.MOST_FREQUENT) w_raw).2 = some T ∧
      walk (insert (demo_cat_car Variant.MOST_FREQUENT) w_raw).1.mem (insert (demo_cat_car Variant.MOST_FREQUENT) w_raw).1.root_ (slots (canon w_raw) ++ [26]) =
        some T ∧
      nth_parent (insert (demo_cat_car Variant.MOST_FREQUENT) w_raw).1.mem ((canon w_raw).length + 1) T =
        some (insert (demo_cat_car Variant.MOST_FREQUENT) w_raw).1.root_) ∧
    (∀ v c, descend_steps v c ≤ 1 ∧
      (descend (demo_cat_car Variant.MOST_FREQUENT) v c = none ∨ ∃ u k, v = some u ∧ ((demo_cat_car Variant.MOST_FREQUENT).mem u).next k = descend (demo_cat_car Variant.MOST_FREQUENT) v c)) ∧
    (∀ w_raw, ∃ n, insert_visits (demo_cat_car Variant.MOST_FREQUENT) w_raw = some n ∧ n ≤ (canon w_raw).length + 1) ∧
    (∀ T, IsNode (demo_cat_car Variant.MOST_FREQUENT) T → ((demo_cat_car Variant.MOST_FREQUENT).mem T).is_terminal = true →
      ∃ n d t2, update_priority_visits (demo_cat_car Variant.MOST_FREQUENT) (some T) = some n ∧
        nth_parent (demo_cat_car Variant.MOST_FREQUENT).mem d T = some (demo_cat_car Variant.MOST_FREQUENT).root_ ∧ n ≤ d ∧
        update_priority (demo_cat_car Variant.MOST_FREQUENT) (some T) = some t2 ∧
        ∀ fuel, n ≤ fuel →
          update_loop (demo_cat_car Variant.MOST_FREQUENT).variant T fuel (pre_loop_mem (demo_cat_car Variant.MOST_FREQUENT) T) ((demo_cat_car Variant.MOST_FREQUENT).mem T).parent = t2.mem) ∧
    (∀ c, IsNode (demo_cat_car Variant.MOST_FREQUENT) c → ∃ d, nth_parent (demo_cat_car Variant.MOST_FREQUENT).mem d c = some (demo_cat_car Variant.MOST_FREQUENT).root_) :=
  operations_terminate (demo_cat_car Variant.MOST_FREQUENT)
    (demo_cat_car_reachable Variant.MOST_FREQUENT)

/-! ## Frame of `update_priority` -/

/-- C21 (frame of `update_priority`): in every reachable state, `update_priority` on a
terminal `T` succeeds and raises the priority of `T`; the policy, the root, the allocation
frontier, `node_count`, `total_chars`, the word store and its byte count stay as they were;
the access counter stays under MOST_FREQUENT and grows by one under MOST_RECENT; the parent
link, the child links and the stored-word reference of every node are unchanged, hence the set
of nodes, the result of every `descend` and every stored word; the priority of every node other
than `T` is unchanged; and the cache (`best_terminal`, `best_priority`) of every node that is
neither `T` nor an ancestor of `T` is unchanged. -/
theorem update_priority_frame (t : Trie) (hr : Reachable t) (T : Nat) (hT : IsNode t T)
    (hTt : (t.mem T).is_terminal = true) :
    ∃ t2, update_priority t (some T) = some t2 ∧
      (t.mem T).priority < (t2.mem T).priority ∧
      t2.variant = t.variant ∧ t2.root_ = t.root_ ∧ t2.brk = t.brk ∧
      node_count t2 = node_count t ∧ total_chars t2 = total_chars t ∧
      t2.dict_ = t.dict_ ∧ t2.dict_bytes_ = t.dict_bytes_ ∧
      (t.variant = Variant.MOST_FREQUENT → t2.access_counter_ = t.access_counter_) ∧
      (t.variant = Variant.MOST_RECENT → t2.access_counter_ = t.access_counter_ + 1) ∧
      (∀ n, (t2.mem n).parent = (t.mem n).parent ∧ (t2.mem n).next = (t.mem n).next ∧
        (t2.mem n).str = (t.mem n).str) ∧
      (∀ n, IsNode t2 n ↔ IsNode t n) ∧
      (∀ v c, descend t2 v c = descend t v c) ∧
      (∀ v, word_of t2 v = word_of t v) ∧
      (∀ n, n ≠ T → (t2.mem n).priority = (t.mem n).priority) ∧
      (∀ n, IsNode t n → ¬ InSubtree t n T →
        (t2.mem n).best_terminal = (t.mem n).best_terminal ∧
        (t2.mem n).best_priority = (t.mem n).best_priority) := by
  obtain ⟨sp, g⟩ := reachable_good hr
  have hTb : T < t.brk := (g.shape.isNode_iff g.root).mp hT
  have g2 := after_update_good g hTb hTt
  have hfr := after_update_frame t T
  have hpf := pre_loop_mem_frame t T
  have hshape0 : Shape (pre_loop_mem t T) t.brk sp :=
    g.shape.shape_congr (fun m => (hpf m).1) (fun m => (hpf m).2.1)
  refine ⟨after_update t T, update_priority_eq hTt, ?_, rfl, rfl, rfl, rfl, rfl, rfl, rfl,
    ?_, ?_, fun n => ⟨(hfr n).1, (hfr n).2.1, (hfr n).2.2.1⟩, ?_, ?_, ?_,
    fun n hn => after_update_priority_other t hn, ?_⟩
  · rw [after_update_priority_same]
    exact (g.priority_lt_new hTb hTt).1
  · intro hv
    show new_counter t = t.access_counter_
    simp [new_counter, hv]
  · intro hv
    show new_counter t = t.access_counter_ + 1
    simp [new_counter, hv]
  · intro n
    rw [g2.shape.isNode_iff g2.root, g.shape.isNode_iff g.root]
    exact Iff.rfl
  · intro v c
    cases v with
    | none => rfl
    | some u => simp only [descend, (hfr u).2.1]
  · intro v
    cases v with
    | none => rfl
    | some u =>
      simp only [word_of, (hfr u).2.2.1]
      rfl
  · intro n hn hoff
    have hnb : n < t.brk := (g.shape.isNode_iff g.root).mp hn
    have hnT : n ≠ T := by
      intro e
      apply hoff
      rw [e]
      exact InSubtree.refl T
    have hpre : ¬ sp n <+: sp T := fun h => hoff ((g.shape.inSubtree_iff hnb).mpr ⟨hTb, h⟩)
    have hmem : (after_update t T).mem n = t.mem n := by
      show update_loop t.variant T t.brk (pre_loop_mem t T) (t.mem T).parent n = t.mem n
      cases hp : (t.mem T).parent with
      | none => rw [update_loop_none, pre_loop_mem_other t hnT]
      | some p0 =>
        obtain ⟨hpb, _, k, _, hsp⟩ := g.shape.parent_some hTb hp
        have hoff2 : ¬ sp n <+: sp p0 := by
          intro h
          apply hpre
          rw [hsp]
          exact List.IsPrefix.trans h (List.prefix_append _ _)
        rw [update_loop_off_chain t.variant T t.brk sp t.brk (pre_loop_mem t T) p0 hshape0 hpb
          hpb hnb hoff2, pre_loop_mem_other t hnT]
    rw [hmem]
    exact ⟨rfl, rfl⟩

/-- C21 at a concrete input: the terminal of "cat" (node 4) in the trie holding "cat" and
"car". -/
theorem update_priority_frame_witness :
    ∃ t2, update_priority (demo_cat_car Variant.MOST_RECENT) (some 4) = some t2 ∧
      ((demo_cat_car Variant.MOST_RECENT).mem 4).priority < (t2.mem 4).priority ∧
      t2.variant = (demo_cat_car Variant.MOST_RECENT).variant ∧ t2.root_ = (demo_cat_car Variant.MOST_RECENT).root_ ∧ t2.brk = (demo_cat_car Variant.MOST_RECENT).brk ∧
      node_count t2 = node_count (demo_cat_car Variant.MOST_RECENT) ∧ total_chars t2 = total_chars (demo_cat_car Variant.MOST_RECENT) ∧
      t2.dict_ = (demo_cat_car Variant.MOST_RECENT).dict_ ∧ t2.dict_bytes_ = (demo_cat_car Variant.MOST_RECENT).dict_bytes_ ∧
      ((demo_cat_car Variant.MOST_RECENT).variant = Variant.MOST_FREQUENT → t2.access_counter_ = (demo_cat_car Variant.MOST_RECENT).access_counter_) ∧
      ((demo_cat_car Variant.MOST_RECENT).variant = Variant.MOST_RECENT → t2.access_counter_ = (demo_cat_car Variant.MOST_RECENT).access_counter_ + 1) ∧
      (∀ n, (t2.mem n).parent = ((demo_cat_car Variant.MOST_RECENT).mem n).parent ∧ (t2.mem n).next = ((demo_cat_car Variant.MOST_RECENT).mem n).next ∧
        (t2.mem n).str = ((demo_cat_car Variant.MOST_RECENT).mem n).str) ∧
      (∀ n, IsNode t2 n ↔ IsNode (demo_cat_car Variant.MOST_RECENT) n) ∧
      (∀ v c, descend t2 v c = descend (demo_cat_car Variant.MOST_RECENT) v c) ∧
      (∀ v, word_of t2 v = word_of (demo_cat_car Variant.MOST_RECENT) v) ∧
      (∀ n, n ≠ 4 → (t2.mem n).priority = ((demo_cat_car Variant.MOST_RECENT).mem n).priority) ∧
      (∀ n, IsNode (demo_cat_car Variant.MOST_RECENT) n → ¬ InSubtree (demo_cat_car Variant.MOST_RECENT) n 4 →
        (t2.mem n).best_terminal = ((demo_cat_car Variant.MOST_RECENT).mem n).best_terminal ∧
        (t2.mem n).best_priority = ((demo_cat_car Variant.MOST_RECENT).mem n).best_priority) :=
  update_priority_frame (demo_cat_car Variant.MOST_RECENT)
    (demo_cat_car_reachable Variant.MOST_RECENT) 4
    (inSubtree_of_walk [2, 0, 19, 26] _ 4 (by decide!)) (by decide!)

/-! ## The typing simulation (`simulation.cpp`) -/

/-- A word the look-up does not find is reported as typed in full, without success, and the
trie is left as it was. -/
theorem simulate_absent (t : Trie) (word : List Nat) (h : word_exists t word = false) :
    simulate_word_typing t word =
      some (t, { chars_written := word.length, chars_saved := 0, success := false }) := by
  unfold simulate_word_typing
  rw [if_pos h]

/-- C22, failing input: in the trie built from "cats", "cat" (either policy) the word "cat" is
stored, its terminal is node 6 and the simulation's own look-up finds it; yet no prefix of
"cat" suggests it (every node on its path suggests "cats"), so `simulate_word_typing` returns
`chars_written = 3`, the word's length, with `success = false`, and `run_simulation` over the
words "cats", "cat" ends with `words_not_in_trie = 1` although both words are in the trie. -/
theorem stored_word_counted_absent (v : Variant) :
    stored (demo_cats_cat v) (bytes "cat") 6 ∧
    word_of (demo_cats_cat v) (some 6) = some (bytes "cat") ∧
    word_exists (demo_cats_cat v) (bytes "cat") = true ∧
    word_exists (demo_cats_cat v) (bytes "cats") = true ∧
    (simulate_word_typing (demo_cats_cat v) (bytes "cat")).map
      (fun r => (r.2.chars_written, r.2.success)) = some ((bytes "cat").length, false) ∧
    (run_simulation (demo_cats_cat v) [bytes "cats", bytes "cat"]).map
      (fun r => r.2.words_not_in_trie) = some 1 := by
  cases v
  · refine ⟨⟨by decide!, by decide!⟩, by decide!, by decide!, by decide!, by decide!,
      by decide!⟩
  · refine ⟨⟨by decide!, by decide!⟩, by decide!, by decide!, by decide!, by decide!,
      by decide!⟩

end Trie
